import Mathlib

/-!
# go-file: a shallow embedding of `main.go`

The program is an HTTP file-exchange server with five handlers
(`routeIndexGet`, `routeSubmitPost`, `handleListFiles`, `handleDownload`,
`handleDetail`).  Go strings and byte slices are byte sequences, modelled as
lists of naturals below 256.  The file system is a tree of directories, regular
files and special entries; a handler is a function from the process environment
and the request to an outcome.  The standard-library functions the handlers call
(`filepath.Ext`, `filepath.Clean`, `filepath.Join`, `filepath.Walk`, `os.Open`,
`os.OpenFile`, `io.Copy`, `http.Error`, `json.Marshal`,
`base64.StdEncoding.EncodeToString`, `strings.Split`, `r.ParseMultipartForm`) are
transcribed from their Go implementations for a Unix system.  Every file has one
name (no hard links), permissions are not modelled, and requests are served one
at a time.
-/

namespace GoFile

/-! ## Strings -/

/-- A Go string or byte slice: a sequence of bytes. -/
abbrev Str := List Nat

/-- The bytes of a string literal (used for ASCII literals only). -/
def str (s : String) : Str := s.toList.map Char.toNat

deriving instance DecidableEq for Except

/-- The path separator `/`. -/
def sep : Nat := 47

/-- The byte `.`. -/
def dot : Nat := 46

/-- `strings.Join(elems, sepStr)`. -/
def strings_Join (sepStr : Str) : List Str → Str
  | [] => []
  | [e] => e
  | e :: es => e ++ sepStr ++ strings_Join sepStr es

/-- `strings.Split(s, string(c))` for a one-byte separator `c`: the pieces of `s`
between the occurrences of `c`; never empty. -/
def strings_Split (c : Nat) : Str → List Str
  | [] => [[]]
  | b :: bs =>
    if b = c then [] :: strings_Split c bs
    else
      match strings_Split c bs with
      | [] => [[b]]
      | e :: es => (b :: e) :: es

/-! ## `path/filepath` -/

/-- The loop of `filepath.Ext`, scanning from the last byte towards the first:
`before` holds the bytes not yet visited, last byte first, and `after` the
bytes already visited. -/
def extLoop : Str → Str → Str
  | [], _ => []
  | b :: before, after =>
    if b = sep then []
    else if b = dot then b :: after
    else extLoop before (b :: after)

/-- `filepath.Ext(path)`:
`for i := len(path)-1; i >= 0 && !IsPathSeparator(path[i]); i--` with
`if path[i] == '.' { return path[i:] }`, and `""` after the loop. -/
def filepath_Ext (path : Str) : Str := extLoop path.reverse []

/-- The output buffer of `filepath.Clean` (`lazybuf`), last byte first, so that
`out.w` is its length, and the index `dotdot` where `..` must stop. -/
structure CleanState where
  out : Str
  dotdot : Nat
  deriving DecidableEq, Repr

/-- The inner loop of the `..` case of `Clean`, after one `out.w--`:
`for out.w > dotdot && !IsPathSeparator(out.index(out.w)) { out.w-- }`, where
`removed` is the byte at index `out.w`, the one taken off last. -/
def backLoop (dotdot : Nat) : Nat → Str → Str
  | _, [] => []
  | removed, b :: out =>
    if dotdot < (b :: out).length ∧ removed ≠ sep then backLoop dotdot b out
    else b :: out

/-- The `..` case of `Clean`: backtrack over the last element when
`out.w > dotdot`, append `..` when the path is not rooted, else nothing. -/
def dotdotStep (rooted : Bool) (st : CleanState) : CleanState :=
  if st.dotdot < st.out.length then
    match st.out with
    | [] => st
    | b :: out => { st with out := backLoop st.dotdot b out }
  else if !rooted then
    let out1 := if 0 < st.out.length then sep :: st.out else st.out
    let out2 := dot :: dot :: out1
    { out := out2, dotdot := out2.length }
  else st

/-- The default case of `Clean`: a real path element `elem` is appended, after a
separator when `rooted && out.w != 1 || !rooted && out.w != 0`. -/
def realStep (rooted : Bool) (elem : Str) (st : CleanState) : CleanState :=
  let out1 :=
    if (rooted ∧ st.out.length ≠ 1) ∨ (¬ rooted ∧ st.out.length ≠ 0) then sep :: st.out
    else st.out
  { st with out := elem.reverse ++ out1 }

/-- The main loop of `Clean`, `for r < n { switch ... }`, on the bytes from index
`r` on.  Every iteration consumes at least one byte, so a fuel of the number of
remaining bytes is enough. -/
def cleanLoop (rooted : Bool) : Nat → Str → CleanState → CleanState
  | 0, _, st => st
  | _ + 1, [], st => st
  | fuel + 1, b :: rest, st =>
    if b = sep then
      -- empty path element
      cleanLoop rooted fuel rest st
    else if b = dot ∧ (rest = [] ∨ rest.head? = some sep) then
      -- . element
      cleanLoop rooted fuel rest st
    else if b = dot ∧ rest.head? = some dot ∧
        (rest.tail = [] ∨ rest.tail.head? = some sep) then
      -- .. element
      cleanLoop rooted fuel rest.tail (dotdotStep rooted st)
    else
      -- real path element: copied up to the next separator
      cleanLoop rooted fuel ((b :: rest).dropWhile (fun x => x ≠ sep))
        (realStep rooted ((b :: rest).takeWhile (fun x => x ≠ sep)) st)

/-- `filepath.Clean(path)` on Unix (no volume name, `FromSlash` the identity). -/
def filepath_Clean (path : Str) : Str :=
  match path with
  | [] => [dot]
  | b :: rest =>
    let rooted : Bool := b = sep
    let st0 : CleanState := if rooted then ⟨[sep], 1⟩ else ⟨[], 0⟩
    let input := if rooted then rest else b :: rest
    let st := cleanLoop rooted input.length input st0
    if st.out.length = 0 then [dot] else st.out.reverse

/-- `filepath.Join(elem...)` on Unix: the elements from the first non-empty one
on are joined with separators and the result is cleaned; `""` when there is none. -/
def filepath_Join : List Str → Str
  | [] => []
  | e :: es =>
    if e = [] then filepath_Join es
    else filepath_Clean (strings_Join [sep] (e :: es))

/-- `filepath.Base(path)` on Unix: the last element of the path, trailing
separators removed; `.` for the empty path and `/` for a path of separators. -/
def filepath_Base (path : Str) : Str :=
  if path = [] then [dot]
  else
    let stripped := (path.reverse.dropWhile (fun x => x = sep)).reverse
    let base := (stripped.reverse.takeWhile (fun x => x ≠ sep)).reverse
    if base = [] then [sep] else base

/-! ## The file system -/

/-- The entries of a directory, in the order in which the directory is listed
(`readDirNames` returns the names sorted): regular files, subdirectories, and
special entries, which are neither: a socket, a device, a named pipe, and also a
symbolic link, which `Lstat` (the call `filepath.Walk` makes) reports as such.
The target of a symbolic link is not part of the tree: a path that leads to or
through a special entry is not resolved further. -/
inductive Dir where
  | nil : Dir
  | file (name : Str) (content : Str) (rest : Dir) : Dir
  | sub (name : Str) (children : Dir) (rest : Dir) : Dir
  | special (name : Str) (rest : Dir) : Dir
  deriving DecidableEq, Repr

/-- What a path names: a regular file with its bytes, a directory, or a special
entry. -/
inductive Node where
  | file (content : Str) : Node
  | dir (entries : Dir) : Node
  | special : Node
  deriving DecidableEq, Repr

/-- The entry called `name` of a directory. -/
def Dir.find (name : Str) : Dir → Option Node
  | .nil => none
  | .file n c rest => if n = name then some (.file c) else rest.find name
  | .sub n ch rest => if n = name then some (.dir ch) else rest.find name
  | .special n rest => if n = name then some .special else rest.find name

/-- The node reached from a directory along a list of entry names; the way does
not lead through a regular file or a special entry. -/
def Dir.lookup : List Str → Dir → Option Node
  | [], d => some (.dir d)
  | e :: es, d =>
    match d.find e with
    | none => none
    | some (.file c) => if es = [] then some (.file c) else none
    | some .special => if es = [] then some .special else none
    | some (.dir d1) => Dir.lookup es d1

/-- Bytewise order of Go strings, `a < b`. -/
def strLess : Str → Str → Bool
  | _, [] => false
  | [], _ :: _ => true
  | a :: as, b :: bs => a < b || (a = b && strLess as bs)

/-- The directory with the content of its regular file `name` replaced by `c`; a
subdirectory of that name is left as it is. -/
def Dir.replaceFile (name : Str) (c : Str) : Dir → Dir
  | .nil => .nil
  | .file n c0 rest => if n = name then .file n c rest else .file n c0 (rest.replaceFile name c)
  | .sub n ch rest => if n = name then .sub n ch rest else .sub n ch (rest.replaceFile name c)
  | .special n rest => if n = name then .special n rest else .special n (rest.replaceFile name c)

/-- The directory with a new regular file `name` holding `c`, put at its place in
the listing order. -/
def Dir.insertFile (name : Str) (c : Str) : Dir → Dir
  | .nil => .file name c .nil
  | .file n c0 rest =>
    if strLess name n then .file name c (.file n c0 rest)
    else .file n c0 (rest.insertFile name c)
  | .sub n ch rest =>
    if strLess name n then .file name c (.sub n ch rest)
    else .sub n ch (rest.insertFile name c)
  | .special n rest =>
    if strLess name n then .file name c (.special n rest)
    else .special n (rest.insertFile name c)

/-- The directory with the regular file `name` holding `c`: an existing entry is
replaced, a missing one is created. -/
def Dir.setFile (name : Str) (c : Str) (d : Dir) : Dir :=
  match d.find name with
  | some _ => d.replaceFile name c
  | none => d.insertFile name c

/-- The directory with `g` applied to the entries of its subdirectory `name`. -/
def Dir.modifySub (name : Str) (g : Dir → Dir) : Dir → Dir
  | .nil => .nil
  | .file n c rest => .file n c (if n = name then rest else rest.modifySub name g)
  | .sub n ch rest =>
    if n = name then .sub n (g ch) rest else .sub n ch (rest.modifySub name g)
  | .special n rest => .special n (if n = name then rest else rest.modifySub name g)

/-- The tree with the regular file at the location `loc` (entry names from the
root) holding `c`; the directories on the way are not created. -/
def Dir.putFile : List Str → Str → Dir → Dir
  | [], _, d => d
  | [e], c, d => d.setFile e c
  | e :: e1 :: es, c, d => d.modifySub e (Dir.putFile (e1 :: es) c)

/-- The directory without its entry `name`, when that is not a subdirectory
(`unlink`). -/
def Dir.removeEntry (name : Str) : Dir → Dir
  | .nil => .nil
  | .file n c rest => if n = name then rest else .file n c (rest.removeEntry name)
  | .sub n ch rest => if n = name then .sub n ch rest else .sub n ch (rest.removeEntry name)
  | .special n rest => if n = name then rest else .special n (rest.removeEntry name)

/-- The tree without the regular file or special entry at the location `loc`. -/
def Dir.removeFile : List Str → Dir → Dir
  | [], d => d
  | [e], d => d.removeEntry e
  | e :: e1 :: es, d => d.modifySub e (Dir.removeFile (e1 :: es))

/-- The error numbers the model produces, with the text of `syscall.Errno.Error`;
`ENXIO6` is `syscall.ENXIO`, errno 6. -/
inductive Errno where
  | ENOENT
  | ENOTDIR
  | EISDIR
  | EINVAL
  | ENAMETOOLONG
  | EEXIST
  | ENXIO6
  deriving DecidableEq, Repr

/-- `Errno.Error()`. -/
def Errno.Error : Errno → Str
  | .ENOENT => str "no such file or directory"
  | .ENOTDIR => str "not a directory"
  | .EISDIR => str "is a directory"
  | .EINVAL => str "invalid argument"
  | .ENAMETOOLONG => str "file name too long"
  | .EEXIST => str "file exists"
  | .ENXIO6 => str "no such device or address"

/-- What is refused before the file system is looked at: a name with a NUL byte
(`EINVAL`, from `syscall.BytePtrFromString`), and a path of `PATH_MAX` (4096)
bytes or more or with an element of more than `NAME_MAX` (255) bytes
(`ENAMETOOLONG`). -/
def pathErr (name : Str) : Option Errno :=
  if 0 ∈ name then some .EINVAL
  else if 4096 ≤ name.length ∨ (strings_Split sep name).any (fun e => 255 < e.length) then
    some .ENAMETOOLONG
  else none

/-- `*fs.PathError`. -/
structure PathError where
  Op : Str
  Path : Str
  Err : Errno
  deriving DecidableEq, Repr

/-- `PathError.Error()`: `Op + " " + Path + ": " + Err.Error()`. -/
def PathError.Error (e : PathError) : Str :=
  e.Op ++ str " " ++ e.Path ++ str ": " ++ e.Err.Error

/-- Path resolution by the kernel: the path elements are followed one by one from
the directory at `st` (entry names from the root); an empty element or `.` stays,
`..` goes to the parent, a name must be an entry of the current directory. -/
def namei (root : Dir) : List Str → List Str → Except Errno (List Str)
  | [], st => .ok st
  | e :: es, st =>
    match root.lookup st with
    | none => .error .ENOENT
    | some (.file _) => .error .ENOTDIR
    | some .special => .error .ENOTDIR
    | some (.dir d) =>
      if e = [] ∨ e = [dot] then namei root es st
      else if e = [dot, dot] then namei root es st.dropLast
      else
        match d.find e with
        | none => .error .ENOENT
        | some _ => namei root es (st ++ [e])

/-- The process environment: the file system from its root, the working
directory (a rooted path), the error of `os.Getwd`, if it fails, and the
directory for temporary files, `os.TempDir()`. -/
structure World where
  root : Dir
  wd : Str
  getwdErr : Option Str
  tmp : Str
  deriving DecidableEq, Repr

/-- `os.Getwd()`. -/
def os_Getwd (env : World) : Except Str Str :=
  match env.getwdErr with
  | some e => .error e
  | none => .ok env.wd

/-- The elements of a path, a relative one taken from the working directory. -/
def World.elems (env : World) (name : Str) : List Str :=
  strings_Split sep (if name.head? = some sep then name else env.wd ++ [sep] ++ name)

/-- The location and the node a path names; the empty path names nothing. -/
def World.resolve (env : World) (name : Str) : Except Errno (List Str × Node) :=
  if name = [] then .error .ENOENT
  else
    match pathErr name with
    | some e => .error e
    | none =>
      match namei env.root (env.elems name) [] with
      | .error e => .error e
      | .ok st =>
        match env.root.lookup st with
        | none => .error .ENOENT
        | some n => .ok (st, n)

/-- An open file, `*os.File`: the name given to open it (`f.Name()`), its
location and what was found there. -/
structure File where
  name : Str
  loc : List Str
  node : Node
  deriving DecidableEq, Repr

/-- `f.Name()`: "the name of the file as presented to Open". -/
def File.Name (f : File) : Str := f.name

/-- `FileInfo`, as far as the program reads it: `Name()` and `IsDir()`. -/
structure FileInfo where
  name : Str
  isDir : Bool
  deriving DecidableEq, Repr

/-- `os.Open(name)`: read-only; a directory opens too, its reads fail; a special
entry does not open in this model (as a socket does not; a symbolic link would
be followed to its target, which the tree does not hold). -/
def os_Open (env : World) (name : Str) : Except PathError File :=
  match env.resolve name with
  | .error e => .error ⟨str "open", name, e⟩
  | .ok (_, .special) => .error ⟨str "open", name, .ENXIO6⟩
  | .ok (loc, n) => .ok ⟨name, loc, n⟩

/-- Reading an open file to its end (`io.Copy` from it, `io.ReadAll`). -/
def File.readAll (f : File) : Except PathError Str :=
  match f.node with
  | .file c => .ok c
  | .dir _ => .error ⟨str "read", f.name, .EISDIR⟩
  | .special => .error ⟨str "read", f.name, .EINVAL⟩

/-- `ioutil.ReadFile(name)`: open, then read everything. -/
def ioutil_ReadFile (env : World) (name : Str) : Except PathError Str :=
  match os_Open env name with
  | .error e => .error e
  | .ok f => f.readAll

/-- `os.Lstat(name)`; the name of the info is the base name of the path. -/
def os_Lstat (env : World) (name : Str) : Except PathError FileInfo :=
  match env.resolve name with
  | .error e => .error ⟨str "lstat", name, e⟩
  | .ok (_, .file _) => .ok ⟨filepath_Base name, false⟩
  | .ok (_, .special) => .ok ⟨filepath_Base name, false⟩
  | .ok (_, .dir _) => .ok ⟨filepath_Base name, true⟩

/-- Opening a file for writing with `O_CREATE`, and with `O_EXCL` when `excl`:
the directory part of the path is resolved; an existing regular file is opened
as it is (there is no `O_TRUNC`) or refused under `O_EXCL`, a missing one is
created empty, a directory or a special entry is refused. -/
def openCreate (excl : Bool) (env : World) (name : Str) : Except PathError (World × File) :=
  let fail (e : Errno) : Except PathError (World × File) := .error ⟨str "open", name, e⟩
  if name = [] then fail .ENOENT
  else
    match pathErr name with
    | some e => fail e
    | none =>
      let es := env.elems name
      match namei env.root es.dropLast [] with
      | .error e => fail e
      | .ok st =>
        match env.root.lookup st with
        | none => fail .ENOENT
        | some (.file _) => fail .ENOTDIR
        | some .special => fail .ENOTDIR
        | some (.dir d) =>
          let e := es.getLastD []
          if e = [] ∨ e = [dot] ∨ e = [dot, dot] then fail (if excl then .EEXIST else .EISDIR)
          else
            match d.find e with
            | some (.dir _) => fail (if excl then .EEXIST else .EISDIR)
            | some .special => fail (if excl then .EEXIST else .ENXIO6)
            | some (.file c) =>
              if excl then fail .EEXIST else .ok (env, ⟨name, st ++ [e], .file c⟩)
            | none =>
              .ok ({ env with root := env.root.putFile (st ++ [e]) [] },
                   ⟨name, st ++ [e], .file []⟩)

/-- `os.OpenFile(name, os.O_WRONLY|os.O_CREATE, 0666)`. -/
def os_OpenFile (env : World) (name : Str) : Except PathError (World × File) :=
  openCreate false env name

/-- `joinPath(dir, name)` of package `os`: the two joined by one separator. -/
def joinPath (dir name : Str) : Str :=
  if dir.getLast? = some sep then dir ++ name else dir ++ [sep] ++ name

/-- `os.CreateTemp(dir, pattern)` when `name` is the name it uses (the pattern
with random digits; it draws again while the name exists, so `name` is the last
name drawn): the file is created with `O_EXCL`. -/
def os_CreateTemp (env : World) (dir name : Str) : Except PathError (World × File) :=
  openCreate true env (joinPath dir name)

/-- `os.Remove(name)` with its error dropped: a regular file or special entry is
unlinked, anything else stays. -/
def os_Remove (env : World) (name : Str) : World :=
  match env.resolve name with
  | .ok (loc, .file _) => { env with root := env.root.removeFile loc }
  | .ok (loc, .special) => { env with root := env.root.removeFile loc }
  | _ => env

/-- The content of a file after `data` is written at offset 0: the bytes beyond
the written ones stay. -/
def overwrite (old data : Str) : Str := data ++ old.drop data.length

/-- `io.Copy(targetFile, src)` for a freshly opened write-only file: the bytes
`data` read from the source are written from offset 0.  Writes to a regular file
do not fail in this model. -/
def io_Copy_file (env : World) (f : File) (data : Str) : Except Str World :=
  match f.node with
  | .file old => .ok { env with root := env.root.putFile f.loc (overwrite old data) }
  | .dir _ => .error (PathError.Error ⟨str "write", f.name, .EISDIR⟩)
  | .special => .error (PathError.Error ⟨str "write", f.name, .EINVAL⟩)

/-! ## `filepath.Walk` -/

/-- A `filepath.WalkFunc` with the state it updates: it gets the path and either
the file info or the error met at that path, and returns the error that stops
the walk, if any. -/
abbrev WalkFunc (σ : Type) := σ → Str → Except Str FileInfo → σ × Option Str

/-- The `lstat(filename)` of `walk` on an entry the directory lists: it fails
only when the path is refused. -/
def lstatEntry (path : Str) (info : FileInfo) : Except Str FileInfo :=
  match pathErr path with
  | some e => .error (PathError.Error ⟨str "lstat", path, e⟩)
  | none => .ok info

/-- The loop of `walk` over the entries of the directory at `path`, in listing
order: every entry is `lstat`ed and `walkFn` is called on it, on a directory
before its own entries; an entry whose `lstat` fails is not descended into, and
the first error `walkFn` returns ends the walk.  (`SkipDir` is not modelled; the
callback of this program never returns it.) -/
def walkDir {σ : Type} (fn : WalkFunc σ) (path : Str) : Dir → σ → σ × Option Str
  | .nil, s => (s, none)
  | .file name _ rest, s =>
    match fn s (filepath_Join [path, name])
        (lstatEntry (filepath_Join [path, name]) ⟨name, false⟩) with
    | (s1, some e) => (s1, some e)
    | (s1, none) => walkDir fn path rest s1
  | .special name rest, s =>
    match fn s (filepath_Join [path, name])
        (lstatEntry (filepath_Join [path, name]) ⟨name, false⟩) with
    | (s1, some e) => (s1, some e)
    | (s1, none) => walkDir fn path rest s1
  | .sub name children rest, s =>
    match fn s (filepath_Join [path, name])
        (lstatEntry (filepath_Join [path, name]) ⟨name, true⟩) with
    | (s1, some e) => (s1, some e)
    | (s1, none) =>
      match pathErr (filepath_Join [path, name]) with
      | some _ => walkDir fn path rest s1
      | none =>
        match walkDir fn (filepath_Join [path, name]) children s1 with
        | (s2, some e) => (s2, some e)
        | (s2, none) => walkDir fn path rest s2

/-- `filepath.Walk(root, fn)`: `Lstat` of the root; on failure `fn(root, nil, err)`,
else `walk`, which calls `fn` on the root and descends when it is a directory. -/
def filepath_Walk {σ : Type} (env : World) (root : Str) (fn : WalkFunc σ) (s : σ) :
    σ × Option Str :=
  match os_Lstat env root with
  | .error e => fn s root (.error e.Error)
  | .ok info =>
    match env.resolve root with
    | .ok (_, .dir d) =>
      match fn s root (.ok info) with
      | (s1, some e) => (s1, some e)
      | (s1, none) => walkDir fn root d s1
    | _ => fn s root (.ok info)

/-! ## `encoding/json` and `encoding/base64` -/

/-- The lower-case hexadecimal digit of `n < 16`. -/
def hexDigit (n : Nat) : Nat := if n < 10 then 48 + n else 87 + n

/-- `htmlSafeSet[b]` of `encoding/json`: the ASCII bytes written as they are,
all from the space on except `"`, `&`, `<`, `>` and `\`. -/
def htmlSafe (b : Nat) : Bool :=
  decide (32 ≤ b ∧ b < 128 ∧ b ≠ 34 ∧ b ≠ 38 ∧ b ≠ 60 ∧ b ≠ 62 ∧ b ≠ 92)

/-- The escape `encoding/json` writes for an ASCII byte outside `htmlSafeSet`
(as of Go 1.22, which writes `\b` and `\f` for the bytes 8 and 12). -/
def jsonEscape (b : Nat) : Str :=
  if b = 92 ∨ b = 34 then [92, b]
  else if b = 8 then [92, 98]
  else if b = 12 then [92, 102]
  else if b = 10 then [92, 110]
  else if b = 13 then [92, 114]
  else if b = 9 then [92, 116]
  else [92, 117, 48, 48, hexDigit (b / 16), hexDigit (b % 16)]

/-- Whether `b` is a UTF-8 continuation byte. -/
def utf8Cont (b : Nat) : Bool := decide (128 ≤ b ∧ b ≤ 191)

/-- The length of the UTF-8 sequence `utf8.DecodeRuneInString` accepts at the
head of a string that starts with a byte of 128 or more; 0 when it is ill-formed. -/
def utf8Len : Str → Nat
  | b0 :: b1 :: rest =>
    let lo := if b0 = 224 then 160 else if b0 = 240 then 144 else 128
    let hi := if b0 = 237 then 159 else if b0 = 244 then 143 else 191
    if ¬ (lo ≤ b1 ∧ b1 ≤ hi) then 0
    else if 194 ≤ b0 ∧ b0 ≤ 223 then 2
    else if 224 ≤ b0 ∧ b0 ≤ 239 then
      match rest with
      | b2 :: _ => if utf8Cont b2 then 3 else 0
      | [] => 0
    else if 240 ≤ b0 ∧ b0 ≤ 244 then
      match rest with
      | b2 :: b3 :: _ => if utf8Cont b2 ∧ utf8Cont b3 then 4 else 0
      | _ => 0
    else 0
  | _ => 0

/-- The loop of the string encoder of `encoding/json` (`escapeHTML` on).  With
`k > 0` the next `k` bytes belong to a multi-byte sequence already decided:
copied when `copy`, dropped when it was written as an escape. -/
def jsonStringLoop : Bool → Nat → Str → Str
  | _, _, [] => []
  | copy, k + 1, b :: rest => (if copy then [b] else []) ++ jsonStringLoop copy k rest
  | _, 0, b :: rest =>
    if b < 128 then
      (if htmlSafe b then [b] else jsonEscape b) ++ jsonStringLoop true 0 rest
    else if utf8Len (b :: rest) = 0 then
      -- invalid UTF-8: the escape of U+FFFD
      [92, 117, 102, 102, 102, 100] ++ jsonStringLoop true 0 rest
    else if b = 226 ∧ rest.head? = some 128 ∧
        (rest.tail.head? = some 168 ∨ rest.tail.head? = some 169) then
      -- U+2028 and U+2029 are written as escapes
      [92, 117, 50, 48, 50, hexDigit (rest.tail.headD 0 % 16)] ++ jsonStringLoop false 2 rest
    else b :: jsonStringLoop true (utf8Len (b :: rest) - 1) rest

/-- `json.Marshal(s)` for a string `s`: the escaped bytes between double quotes. -/
def json_Marshal_string (s : Str) : Str := [34] ++ jsonStringLoop true 0 s ++ [34]

/-- An element of the program's `files` slice, `M{"filename": ..., "path": ...}`. -/
structure Entry where
  filename : Str
  path : Str
  deriving DecidableEq, Repr

/-- `json.Marshal` of one `M`: an object with its keys in sorted order. -/
def json_Marshal_M (e : Entry) : Str :=
  [123] ++ json_Marshal_string (str "filename") ++ [58] ++ json_Marshal_string e.filename ++
    [44] ++ json_Marshal_string (str "path") ++ [58] ++ json_Marshal_string e.path ++ [125]

/-- `json.Marshal(files)` for the non-nil slice `files`: a JSON array. -/
def json_Marshal_files (files : List Entry) : Str :=
  [91] ++ strings_Join [44] (files.map json_Marshal_M) ++ [93]

/-- The alphabet of `base64.StdEncoding`. -/
def encodeStd : Str :=
  str "ABCDEFGHIJKLMNOPQRSTUVWXYZabcdefghijklmnopqrstuvwxyz0123456789+/"

/-- The padding byte `=`. -/
def padChar : Nat := 61

/-- `enc.encode[i]`. -/
def encByte (i : Nat) : Nat := encodeStd.getD i 0

/-- `base64.StdEncoding.EncodeToString(src)` for bytes below 256: three bytes give
`val = b0<<16 | b1<<8 | b2` and the four digits `val>>18&0x3F`, `val>>12&0x3F`,
`val>>6&0x3F`, `val&0x3F`; a remainder of one or two bytes is padded with `=`. -/
def base64_EncodeToString : Str → Str
  | b0 :: b1 :: b2 :: rest =>
    let val := b0 * 65536 + b1 * 256 + b2
    encByte (val / 262144 % 64) :: encByte (val / 4096 % 64) :: encByte (val / 64 % 64) ::
      encByte (val % 64) :: base64_EncodeToString rest
  | [b0, b1] =>
    let val := b0 * 65536 + b1 * 256
    [encByte (val / 262144 % 64), encByte (val / 4096 % 64), encByte (val / 64 % 64), padChar]
  | [b0] =>
    let val := b0 * 65536
    [encByte (val / 262144 % 64), encByte (val / 4096 % 64), padChar, padChar]
  | [] => []

/-- The program's `toBase64`. -/
def toBase64 (b : Str) : Str := base64_EncodeToString b

/-! ## `net/http` -/

/-- The part of `*multipart.FileHeader` the program reads. -/
structure FileHeader where
  Filename : Str
  deriving DecidableEq, Repr

/-- A file part of a multipart body: its form field, its header and its bytes. -/
structure FilePart where
  field : Str
  header : FileHeader
  content : Str
  deriving DecidableEq, Repr

/-- An HTTP request, as far as the handlers look at it: the method, the error
a malformed query or body gives `ParseForm`/`ParseMultipartForm` (if any),
`r.FormValue`, `r.URL.Query().Get`, the file parts of a multipart body in their
order, and the name `os.CreateTemp` draws if a temporary file is needed while
this request is parsed (`multipart-` and random digits). -/
structure Request where
  Method : Str
  parseErr : Option Str
  FormValue : Str → Str
  Query : Str → Str
  fileParts : List FilePart
  tmpName : Str

/-- `r.FormFile(key)`: the bytes and the header of the first file part of that
field, or `http.ErrMissingFile`. -/
def Request.FormFile (r : Request) (key : Str) : Except Str (Str × FileHeader) :=
  match r.fileParts.find? (fun p => p.field = key) with
  | some p => .ok (p.content, p.header)
  | none => .error (str "http: no such file")

/-- The file parts `multipart.Reader.ReadForm(maxMemory)` does not keep in
memory: a part larger than what is left of `maxMemory` goes to disk, a smaller
one uses up its size. -/
def spilled : Nat → List FilePart → List Str
  | _, [] => []
  | budget, p :: ps =>
    if budget < p.content.length then p.content :: spilled budget ps
    else spilled (budget - p.content.length) ps

/-- `r.ParseMultipartForm(maxMemory)`: a malformed body is an error; the file
parts that do not fit in memory are written, one after the other, to one
temporary file created in `os.TempDir()` (lines 50-53 of the source), which
stays until the server has finished the request. -/
def ParseMultipartForm (env : World) (r : Request) (maxMemory : Nat) : Except Str World :=
  match r.parseErr with
  | some e => .error e
  | none =>
    match spilled maxMemory r.fileParts with
    | [] => .ok env
    | c :: cs =>
      match os_CreateTemp env env.tmp r.tmpName with
      | .error e => .error e.Error
      | .ok (env1, f) => io_Copy_file env1 f (c :: cs).flatten

/-- What the server does to the file system once the handler of a parsed
multipart request has returned, `r.MultipartForm.RemoveAll()`: the temporary
file, if there is one, is removed. -/
def finishRequest (env : World) (r : Request) : World :=
  match spilled 1024 r.fileParts with
  | [] => env
  | _ :: _ => os_Remove env (joinPath env.tmp r.tmpName)

/-- An `http.Header` map with the keys the program uses, all canonical. -/
abbrev Header := List (Str × Str)

/-- `h.Del(key)`. -/
def Header.Del (h : Header) (key : Str) : Header := h.filter (fun kv => kv.1 ≠ key)

/-- `h.Set(key, value)`. -/
def Header.Set (h : Header) (key value : Str) : Header := Header.Del h key ++ [(key, value)]

/-- `h.Get(key)`, `none` for a key that is not set. -/
def Header.Get (h : Header) (key : Str) : Option Str := (h.find? (fun kv => kv.1 = key)).map Prod.snd

/-- The state of an `http.ResponseWriter`: the header map, the status code and
the headers sent with it once the header has been written, and the body so far. -/
structure ResponseWriter where
  header : Header
  wrote : Option (Nat × Header)
  body : Str
  deriving DecidableEq, Repr

/-- The writer a handler is called with. -/
def ResponseWriter.new : ResponseWriter := ⟨[], none, []⟩

/-- `w.WriteHeader(code)`: only the first call counts. -/
def ResponseWriter.WriteHeader (w : ResponseWriter) (code : Nat) : ResponseWriter :=
  match w.wrote with
  | some _ => w
  | none => { w with wrote := some (code, w.header) }

/-- `w.Write(b)`: writes the header with status 200 if it is not written yet. -/
def ResponseWriter.Write (w : ResponseWriter) (b : Str) : ResponseWriter :=
  let w1 := w.WriteHeader 200
  { w1 with body := w1.body ++ b }

/-- `http.Error(w, error, code)`: plain-text headers, the status code, and
`fmt.Fprintln(w, error)`, the message followed by a newline. -/
def http_Error (w : ResponseWriter) (error : Str) (code : Nat) : ResponseWriter :=
  let h := Header.Set (Header.Set (Header.Del w.header (str "Content-Length"))
    (str "Content-Type") (str "text/plain; charset=utf-8"))
    (str "X-Content-Type-Options") (str "nosniff")
  ({ w with header := h }.WriteHeader code).Write (error ++ [10])

/-- The response the client gets. -/
structure Response where
  status : Nat
  header : Header
  body : Str
  deriving DecidableEq, Repr

/-- The response when the handler returns: a header not written yet is sent
with status 200. -/
def ResponseWriter.finish (w : ResponseWriter) : Response :=
  match w.wrote with
  | some (code, h) => ⟨code, h, w.body⟩
  | none => ⟨200, w.header, w.body⟩

/-- How a handler call ends: it returns, leaving a response and the file system;
or `log.Fatal` ends the process after logging; or it panics. -/
inductive Outcome where
  | returned (resp : Response) (env : World) : Outcome
  | exited (logged : Str) : Outcome
  | panicked (msg : Str) : Outcome
  deriving DecidableEq, Repr

/-- The response of a handler call that returned. -/
def Outcome.response : Outcome → Option Response
  | .returned resp _ => some resp
  | _ => none

/-- The headers `http.Error` sends when no other header is set. -/
def errorHeader : Header :=
  [(str "Content-Type", str "text/plain; charset=utf-8"),
   (str "X-Content-Type-Options", str "nosniff")]

/-- The response of `http.Error(w, error, code)` on a fresh writer. -/
def errorResponse (code : Nat) (error : Str) : Response := ⟨code, errorHeader, error ++ [10]⟩

/-! ## The handlers of `main.go` -/

/-- The handler `routeIndexGet`.  The template file `view.html` and the template
engine are not part of the source: `tmpl` maps the bytes of the file to a parse
error (on which `template.Must` panics) or to the bytes `Execute` writes and the
error it returns. -/
def routeIndexGet (tmpl : Str → Except Str (Str × Option Str)) (env : World) (r : Request) :
    Outcome :=
  let w := ResponseWriter.new
  if r.Method ≠ str "GET" then
    .returned (http_Error w (str "") 400).finish env
  else
    match ioutil_ReadFile env (str "view.html") with
    | .error e => .panicked e.Error
    | .ok src =>
      match tmpl src with
      | .error e => .panicked e
      | .ok (page, err) =>
        let w1 := w.Write page
        match err with
        | some e => .returned (http_Error w1 e 500).finish env
        | none => .returned w1.finish env

/-- The name under which an upload is stored (lines 82-86):
`filename := handler.Filename`, and with a non-empty alias
`fmt.Sprintf("%s%s", alias, filepath.Ext(handler.Filename))`. -/
def storedFilename (aliasVal : Str) (handlerFilename : Str) : Str :=
  if aliasVal ≠ str "" then aliasVal ++ filepath_Ext handlerFilename else handlerFilename

/-- The location of an upload (line 89): `filepath.Join(dir, "files", filename)`. -/
def fileLocation (dir aliasVal handlerFilename : Str) : Str :=
  filepath_Join [dir, str "files", storedFilename aliasVal handlerFilename]

/-- The handler `routeSubmitPost`. -/
def routeSubmitPost (env : World) (r : Request) : Outcome :=
  let w := ResponseWriter.new
  if r.Method ≠ str "POST" then
    .returned (http_Error w (str "") 400).finish env
  else
    match ParseMultipartForm env r 1024 with
    | .error e => .returned (http_Error w e 500).finish env
    | .ok env0 =>
      let aliasVal := r.FormValue (str "alias")
      match r.FormFile (str "file") with
      | .error e => .returned (http_Error w e 500).finish env0
      | .ok (uploadedFile, handler) =>
        match os_Getwd env0 with
        | .error e => .returned (http_Error w e 500).finish env0
        | .ok dir =>
          match os_OpenFile env0 (fileLocation dir aliasVal handler.Filename) with
          | .error e => .returned (http_Error w e.Error 500).finish env0
          | .ok (env1, targetFile) =>
            match io_Copy_file env1 targetFile uploadedFile with
            | .error e => .returned (http_Error w e 500).finish env1
            | .ok env2 => .returned (w.Write (str "done")).finish env2

/-- The callback `handleListFiles` passes to `filepath.Walk`: an error is
returned, a directory is passed over, anything else is appended to `files`. -/
def listFilesFn : WalkFunc (List Entry) := fun files path arg =>
  match arg with
  | .error e => (files, some e)
  | .ok info =>
    if info.isDir then (files, none)
    else (files ++ [⟨info.name, path⟩], none)

/-- The directory `handleListFiles` walks: `filepath.Join(basePath, "files")`,
where `basePath` is `""` when `os.Getwd` fails (its error is dropped). -/
def filesLocation (env : World) : Str :=
  let basePath := match os_Getwd env with
    | .ok dir => dir
    | .error _ => str ""
  filepath_Join [basePath, str "files"]

/-- The handler `handleListFiles` (`json.Marshal` cannot fail on this slice). -/
def handleListFiles (env : World) (_r : Request) : Outcome :=
  let w := ResponseWriter.new
  match filepath_Walk env (filesLocation env) listFilesFn [] with
  | (_, some e) => .returned (http_Error w e 500).finish env
  | (files, none) =>
    let res := json_Marshal_files files
    let w1 := { w with header := Header.Set w.header (str "Content-Type") (str "application/json") }
    .returned (w1.Write res).finish env

/-- The handler `handleDownload`. -/
def handleDownload (env : World) (r : Request) : Outcome :=
  let w := ResponseWriter.new
  match r.parseErr with
  | some e => .returned (http_Error w e 500).finish env
  | none =>
    let path := r.FormValue (str "path")
    match os_Open env path with
    | .error e => .returned (http_Error w e.Error 500).finish env
    | .ok f =>
      let contentDisposition := str "attachment; filename=" ++ f.Name
      let w1 := { w with header := Header.Set w.header (str "Content-Disposition") contentDisposition }
      match f.readAll with
      | .error e => .returned (http_Error w1 e.Error 500).finish env
      | .ok content => .returned (w1.Write content).finish env

/-- The handler `handleDetail`. -/
def handleDetail (env : World) (r : Request) : Outcome :=
  let w := ResponseWriter.new
  match r.parseErr with
  | some e => .returned (http_Error w e 500).finish env
  | none =>
    let path := r.FormValue (str "path")
    let response_type := r.Query (str "response_type")
    if response_type = str "base64" then
      match ioutil_ReadFile env ((strings_Split 63 path).headD []) with
      | .error e => .exited e.Error
      | .ok bytes =>
        let base64Encoding := str "" ++ toBase64 bytes
        let res := json_Marshal_string base64Encoding
        let w1 := { w with header := Header.Set w.header (str "Content-Type") (str "application/json") }
        .returned (w1.Write res).finish env
    else
      match os_Open env path with
      | .error e => .returned (http_Error w e.Error 500).finish env
      | .ok f =>
        match f.readAll with
        | .error e => .returned (http_Error w e.Error 500).finish env
        | .ok content => .returned (w.Write content).finish env

/-! ## Notions the specification uses -/

/-- The extension as the specification words it: "the substring after the last
`.` in the original filename, empty if none". -/
def afterLastDot (name : Str) : Str :=
  if dot ∈ name then (name.reverse.takeWhile (fun x => x ≠ dot)).reverse else []

/-- The last path element of a name: what follows its last separator. -/
def lastElement (name : Str) : Str := (name.reverse.takeWhile (fun x => x ≠ sep)).reverse

/-- The suffix of `s` that starts at its last `.`, the dot included; empty when
`s` has no `.`. -/
def fromLastDot (s : Str) : Str :=
  if dot ∈ s then dot :: (s.reverse.takeWhile (fun x => x ≠ dot)).reverse else []

/-- The extension in words: the suffix of the last path element of the name that
starts at the last `.` of that element. -/
def extOfLastElement (name : Str) : Str := fromLastDot (lastElement name)

/-- One iteration of the loop of `Clean`, seen on a whole path element: an empty
element or `.` changes nothing, `..` is the `..` case, anything else is copied. -/
def elemStep (rooted : Bool) (st : CleanState) (e : Str) : CleanState :=
  if e = [] ∨ e = [dot] then st
  else if e = [dot, dot] then dotdotStep rooted st
  else realStep rooted e st

/-- The effect of a path element on the list of the elements of a rooted path:
an empty element or `.` changes nothing, `..` removes the last element (if any),
anything else is added. -/
def stackStep (stack : List Str) (e : Str) : List Str :=
  if e = [] ∨ e = [dot] then stack
  else if e = [dot, dot] then stack.dropLast
  else stack ++ [e]

/-- The entry names from the root at which a path ends when it is followed
element by element: where path resolution arrives when it succeeds. -/
def World.location (env : World) (name : Str) : List Str :=
  (env.elems name).foldl stackStep []

/-- The rooted path with the given elements: `/e1/e2/.../en`, and `/` for none. -/
def rootedPath (stack : List Str) : Str := sep :: strings_Join [sep] stack

/-- A path element as `Clean` keeps it: not empty and without a separator. -/
def realElem (e : Str) : Prop := e ≠ [] ∧ sep ∉ e

instance (e : Str) : Decidable (realElem e) := by unfold realElem; infer_instance

/-- The directory `d` after an upload of the bytes `B` under the name `n`: a
missing file is created empty and then written, an existing one is written from
offset 0. -/
def uploadedDir (d : Dir) (n B : Str) : Dir :=
  match d.find n with
  | none => (d.setFile n []).setFile n (overwrite [] B)
  | some (.file c) => d.setFile n (overwrite c B)
  | some _ => d

/-- What a walk without error of the directory at `path` appends to `files`: an
entry for every entry that is not a directory, with the path built by
`filepath.Join` on the way down. -/
def Dir.entries (path : Str) : Dir → List Entry
  | .nil => []
  | .file n _ rest => ⟨n, filepath_Join [path, n]⟩ :: rest.entries path
  | .special n rest => ⟨n, filepath_Join [path, n]⟩ :: rest.entries path
  | .sub n ch rest => ch.entries (filepath_Join [path, n]) ++ rest.entries path

/-- A directory that holds regular files only. -/
def Dir.flat : Dir → Prop
  | .nil => True
  | .file _ _ rest => rest.flat
  | .sub _ _ _ => False
  | .special _ _ => False

instance Dir.decidableFlat : (d : Dir) → Decidable d.flat
  | .nil => isTrue trivial
  | .file _ _ rest => Dir.decidableFlat rest
  | .sub _ _ _ => isFalse (fun h => h)
  | .special _ _ => isFalse (fun h => h)

/-- The entry of the listing for what is found along the entry names `p` under
the directory with the path `base`: its last name, and `base/p1/.../pn`. -/
def entryOf (base : Str) (p : List Str) : Entry :=
  ⟨p.getLastD [], base ++ sep :: strings_Join [sep] p⟩

/-- The headers of a JSON answer. -/
def jsonHeader : Header := [(str "Content-Type", str "application/json")]

/-- The name under which the upload request `r` is stored. -/
def Request.storedName (r : Request) : Str :=
  match r.FormFile (str "file") with
  | .ok (_, h) => storedFilename (r.FormValue (str "alias")) h.Filename
  | .error _ => []

/-- The file system after the upload requests are served one after the other,
when each of them is answered with `done`; the server finishes a request before
the next one is handled. -/
def serveUploads : World → List Request → Option World
  | env, [] => some env
  | env, r :: rs =>
    match routeSubmitPost env r with
    | .returned resp env1 =>
      if resp = ⟨200, [], str "done"⟩ then serveUploads (finishRequest env1 r) rs else none
    | _ => none

/-- A cleaned path `loc` lies within the directory with the cleaned path
`dirPath`: it is that path, or continues it after a separator. -/
def isWithin (dirPath loc : Str) : Bool :=
  loc == dirPath || (dirPath ++ [sep]).isPrefixOf loc

/-- A plain file name: not empty, no separator in it, and neither `.` nor `..`. -/
def plainName (n : Str) : Prop := n ≠ [] ∧ sep ∉ n ∧ n ≠ [dot] ∧ n ≠ [dot, dot]

instance (n : Str) : Decidable (plainName n) := by unfold plainName; infer_instance

/-- The names of the entries of a directory. -/
def Dir.names : Dir → List Str
  | .nil => []
  | .file n _ rest => n :: rest.names
  | .sub n _ rest => n :: rest.names
  | .special n rest => n :: rest.names

/-- A well-formed tree: every entry has a plain name, and no directory has two
entries of the same name. -/
def Dir.WF : Dir → Prop
  | .nil => True
  | .file n _ rest => plainName n ∧ n ∉ rest.names ∧ rest.WF
  | .special n rest => plainName n ∧ n ∉ rest.names ∧ rest.WF
  | .sub n ch rest => plainName n ∧ n ∉ rest.names ∧ ch.WF ∧ rest.WF

instance Dir.decidableWF : (d : Dir) → Decidable d.WF
  | .nil => isTrue trivial
  | .file n _ rest =>
    match Dir.decidableWF rest with
    | isTrue hr =>
      if h : plainName n ∧ n ∉ rest.names then isTrue ⟨h.1, h.2, hr⟩
      else isFalse (fun hw => h ⟨hw.1, hw.2.1⟩)
    | isFalse hr => isFalse (fun hw => hr hw.2.2)
  | .special n rest =>
    match Dir.decidableWF rest with
    | isTrue hr =>
      if h : plainName n ∧ n ∉ rest.names then isTrue ⟨h.1, h.2, hr⟩
      else isFalse (fun hw => h ⟨hw.1, hw.2.1⟩)
    | isFalse hr => isFalse (fun hw => hr hw.2.2)
  | .sub n ch rest =>
    match Dir.decidableWF ch, Dir.decidableWF rest with
    | isTrue hc, isTrue hr =>
      if h : plainName n ∧ n ∉ rest.names then isTrue ⟨h.1, h.2, hc, hr⟩
      else isFalse (fun hw => h ⟨hw.1, hw.2.1⟩)
    | isFalse hc, _ => isFalse (fun hw => hc hw.2.2.1)
    | _, isFalse hr => isFalse (fun hw => hr hw.2.2.2)

/-- A tree of directories and regular files only: no special entry (no socket,
device or pipe, no symbolic link) at any depth. -/
def Dir.noSpecial : Dir → Prop
  | .nil => True
  | .file _ _ rest => rest.noSpecial
  | .special _ _ => False
  | .sub _ ch rest => ch.noSpecial ∧ rest.noSpecial

instance Dir.decidableNoSpecial : (d : Dir) → Decidable d.noSpecial
  | .nil => isTrue trivial
  | .file _ _ rest => Dir.decidableNoSpecial rest
  | .special _ _ => isFalse (fun h => h)
  | .sub _ ch rest =>
    match Dir.decidableNoSpecial ch, Dir.decidableNoSpecial rest with
    | isTrue hc, isTrue hr => isTrue ⟨hc, hr⟩
    | isFalse hc, _ => isFalse (fun h => hc h.1)
    | _, isFalse hr => isFalse (fun h => hr h.2)

/-- The entries of a tree that are not directories (regular files and special
entries), each by its entry names from the top, in the order of the walk. -/
def Dir.nonDirs : Dir → List (List Str)
  | .nil => []
  | .file n _ rest => [n] :: rest.nonDirs
  | .special n rest => [n] :: rest.nonDirs
  | .sub n ch rest => ch.nonDirs.map (fun p => n :: p) ++ rest.nonDirs

/-- Whether a node is a directory. -/
def Node.isDir : Node → Bool
  | .dir _ => true
  | _ => false

/-- The entry `n` of the directory is missing or a regular file: what
`os.OpenFile` with `O_WRONLY|O_CREATE` opens. -/
def freeOrFile (d : Dir) (n : Str) : Prop := d.find n = none ∨ ∃ c0, d.find n = some (.file c0)

/-- Something other than a directory is found along the entry names `p` (a
regular file or a special entry). -/
def nonDirAt (d : Dir) (p : List Str) : Prop := ∃ n, d.lookup p = some n ∧ n.isDir = false

/-- Whether a node is a regular file. -/
def Node.isRegular : Node → Bool
  | .file _ => true
  | _ => false

/-- The digit of a byte of the standard base64 alphabet. -/
def decByte (c : Nat) : Option Nat :=
  if encodeStd.indexOf c < 64 then some (encodeStd.indexOf c) else none

/-- Decoding of padded standard base64 (RFC 4648): groups of four digits give
three bytes; the last group may end in `=` or `==` and gives two bytes or one. -/
def base64_Decode : Str → Option Str
  | c0 :: c1 :: c2 :: c3 :: rest =>
    if rest = [] ∧ c3 = padChar then
      if c2 = padChar then
        match decByte c0, decByte c1 with
        | some d0, some d1 => some [d0 * 4 + d1 / 16]
        | _, _ => none
      else
        match decByte c0, decByte c1, decByte c2 with
        | some d0, some d1, some d2 => some [d0 * 4 + d1 / 16, d1 % 16 * 16 + d2 / 4]
        | _, _, _ => none
    else
      match decByte c0, decByte c1, decByte c2, decByte c3, base64_Decode rest with
      | some d0, some d1, some d2, some d3, some bs =>
        some ((d0 * 4 + d1 / 16) :: (d1 % 16 * 16 + d2 / 4) :: (d2 % 4 * 64 + d3) :: bs)
      | _, _, _, _, _ => none
  | [] => some []
  | _ => none

/-- The value of a hexadecimal digit. -/
def unhex (b : Nat) : Option Nat :=
  if 48 ≤ b ∧ b ≤ 57 then some (b - 48)
  else if 97 ≤ b ∧ b ≤ 102 then some (b - 87)
  else if 65 ≤ b ∧ b ≤ 70 then some (b - 55)
  else none

/-- The UTF-8 bytes of a code point of the basic plane. -/
def utf8Encode (cp : Nat) : Str :=
  if cp < 128 then [cp]
  else if cp < 2048 then [192 + cp / 64, 128 + cp % 64]
  else [224 + cp / 4096, 128 + cp / 64 % 64, 128 + cp % 64]

/-- The byte of a one-letter JSON escape. -/
def unescape (b : Nat) : Option Nat :=
  if b = 34 ∨ b = 92 ∨ b = 47 then some b
  else if b = 98 then some 8
  else if b = 102 then some 12
  else if b = 110 then some 10
  else if b = 114 then some 13
  else if b = 116 then some 9
  else none

/-- Decoding of the inside of a JSON string up to the closing quote, which must
end the text (RFC 8259).  Escapes of surrogate halves are declined. -/
def jsonUnquote : Str → Option Str
  | [] => none
  | b :: rest =>
    if b = 34 then (if rest = [] then some [] else none)
    else if b = 92 then
      match rest with
      | [] => none
      | e :: rest1 =>
        if e = 117 then
          match rest1 with
          | h1 :: h2 :: h3 :: h4 :: rest2 =>
            match unhex h1, unhex h2, unhex h3, unhex h4, jsonUnquote rest2 with
            | some x1, some x2, some x3, some x4, some s =>
              let cp := x1 * 4096 + x2 * 256 + x3 * 16 + x4
              if 55296 ≤ cp ∧ cp < 57344 then none else some (utf8Encode cp ++ s)
            | _, _, _, _, _ => none
          | _ => none
        else
          match unescape e, jsonUnquote rest1 with
          | some c, some s => some (c :: s)
          | _, _ => none
    else if b < 32 then none
    else (jsonUnquote rest).map (fun s => b :: s)

/-- Decoding of a JSON text that is one string. -/
def json_Unmarshal_string : Str → Option Str
  | [] => none
  | b :: rest => if b = 34 then jsonUnquote rest else none

/-- Decoding of the inside of a JSON string up to its closing quote: the decoded
bytes and the text after the quote.  Escapes of surrogate halves are declined. -/
def jsonChars : Str → Option (Str × Str)
  | [] => none
  | b :: rest =>
    if b = 34 then some ([], rest)
    else if b = 92 then
      match rest with
      | [] => none
      | e :: rest1 =>
        if e = 117 then
          match rest1 with
          | h1 :: h2 :: h3 :: h4 :: rest2 =>
            match unhex h1, unhex h2, unhex h3, unhex h4, jsonChars rest2 with
            | some x1, some x2, some x3, some x4, some (s, r) =>
              let cp := x1 * 4096 + x2 * 256 + x3 * 16 + x4
              if 55296 ≤ cp ∧ cp < 57344 then none else some (utf8Encode cp ++ s, r)
            | _, _, _, _, _ => none
          | _ => none
        else
          match unescape e, jsonChars rest1 with
          | some c, some (s, r) => some (c :: s, r)
          | _, _ => none
    else if b < 32 then none
    else
      match jsonChars rest with
      | some (s, r) => some (b :: s, r)
      | none => none

/-- A JSON string at the head of a text: its value and the text after it. -/
def jsonStringAt : Str → Option (Str × Str)
  | [] => none
  | b :: rest => if b = 34 then jsonChars rest else none

/-- The text after the byte `c`, which must be at the head. -/
def expectByte (c : Nat) : Str → Option Str
  | [] => none
  | b :: rest => if b = c then some rest else none

/-- A JSON object with the two members `filename` and `path`, both strings, at the
head of a text: the entry and the text after it. -/
def jsonEntryAt (s : Str) : Option (Entry × Str) :=
  (expectByte 123 s).bind fun s1 =>
  (jsonStringAt s1).bind fun k1 =>
  if k1.1 ≠ str "filename" then none else
  (expectByte 58 k1.2).bind fun s2 =>
  (jsonStringAt s2).bind fun v1 =>
  (expectByte 44 v1.2).bind fun s3 =>
  (jsonStringAt s3).bind fun k2 =>
  if k2.1 ≠ str "path" then none else
  (expectByte 58 k2.2).bind fun s4 =>
  (jsonStringAt s4).bind fun v2 =>
  (expectByte 125 v2.2).bind fun s5 =>
  some (⟨v1.1, v2.1⟩, s5)

/-- The members of a non-empty JSON array of such objects, after its opening
bracket and up to the closing one, which must end the text.  Every object takes
at least one byte, so a fuel of the length of the text is enough. -/
def jsonEntries : Nat → Str → Option (List Entry)
  | 0, _ => none
  | fuel + 1, s =>
    match jsonEntryAt s with
    | none => none
    | some (e, rest) =>
      match rest with
      | [] => none
      | b :: rest1 =>
        if b = 93 then (if rest1 = [] then some [e] else none)
        else if b = 44 then
          match jsonEntries fuel rest1 with
          | some es => some (e :: es)
          | none => none
        else none

/-- Decoding of a JSON text that is an array of objects with the members
`filename` and `path` (RFC 8259, without white space). -/
def json_Unmarshal_files : Str → Option (List Entry)
  | [] => none
  | b :: rest =>
    if b ≠ 91 then none
    else if rest = [93] then some []
    else jsonEntries rest.length rest

/-- Well-formed UTF-8 from a position where `k` continuation bytes of a sequence
already accepted are still to come. -/
def utf8ValidFrom : Nat → Str → Bool
  | _, [] => true
  | k + 1, _ :: rest => utf8ValidFrom k rest
  | 0, b :: rest =>
    if b < 128 then utf8ValidFrom 0 rest
    else if utf8Len (b :: rest) = 0 then false
    else utf8ValidFrom (utf8Len (b :: rest) - 1) rest

/-- Whether a string is well-formed UTF-8. -/
def utf8Valid (s : Str) : Bool := utf8ValidFrom 0 s

/-! ## Sample environments and requests -/

/-- A file system with the working directory `/srv`, the temporary directory
`/tmp` and one stored file, `/srv/files/a.txt`, holding `hello world`. -/
def sampleWorld : World :=
  ⟨.sub (str "srv") (.sub (str "files") (.file (str "a.txt") (str "hello world") .nil) .nil)
    (.sub (str "tmp") .nil .nil),
   str "/srv", none, str "/tmp"⟩

/-- A file system with the working directory `/srv`, the temporary directory
`/tmp` and an empty `/srv/files`. -/
def emptyStore : World :=
  ⟨.sub (str "srv") (.sub (str "files") .nil .nil) (.sub (str "tmp") .nil .nil),
   str "/srv", none, str "/tmp"⟩

/-- A multipart POST with the form value `alias` and the file part `file`. -/
def uploadRequest (aliasVal name content : Str) : Request :=
  ⟨str "POST", none, fun k => if k = str "alias" then aliasVal else [], fun _ => [],
   [⟨str "file", ⟨name⟩, content⟩], str "multipart-1"⟩

/-- A request with the method `m`, the form value `path` and the query option
`response_type`, and no file part. -/
def plainRequest (m path responseType : Str) : Request :=
  ⟨m, none, fun k => if k = str "path" then path else [],
   fun k => if k = str "response_type" then responseType else [], [], str "multipart-1"⟩

/-- The file system after `hi` is uploaded as `a.txt` into `sampleWorld`. -/
def sampleWorldAfterUpload : World :=
  ⟨.sub (str "srv") (.sub (str "files") (.file (str "a.txt") (str "hillo world") .nil) .nil)
    (.sub (str "tmp") .nil .nil),
   str "/srv", none, str "/tmp"⟩

/-- The file system after `hi` is uploaded into `emptyStore` with the alias `../x`
and the original filename `a.txt`: the file is `/srv/x.txt`. -/
def escapedWorld : World :=
  ⟨.sub (str "srv") (.sub (str "files") .nil (.file (str "x.txt") (str "hi") .nil))
    (.sub (str "tmp") .nil .nil),
   str "/srv", none, str "/tmp"⟩

/-- A file system whose `/srv/files` holds the regular file `a.txt`, a special
entry `sock` (a socket, or a symbolic link) and the directory `sub` with the
regular file `b`. -/
def treeWorld : World :=
  ⟨.sub (str "srv") (.sub (str "files")
    (.file (str "a.txt") (str "A") (.special (str "sock")
      (.sub (str "sub") (.file (str "b") (str "B") .nil) .nil))) .nil)
    (.sub (str "tmp") .nil .nil),
   str "/srv", none, str "/tmp"⟩

/-- A file system whose `/srv/files` holds nothing but the special entry `sock`. -/
def socketWorld : World :=
  ⟨.sub (str "srv") (.sub (str "files") (.special (str "sock") .nil) .nil)
    (.sub (str "tmp") .nil .nil),
   str "/srv", none, str "/tmp"⟩

/-- A file system whose `/srv/files` holds one regular file, with the name of the
single byte 255, which is not UTF-8. -/
def latin1World : World :=
  ⟨.sub (str "srv") (.sub (str "files") (.file [255] (str "A") .nil) .nil)
    (.sub (str "tmp") .nil .nil),
   str "/srv", none, str "/tmp"⟩

/-- The file system after `B` is uploaded into `emptyStore` as `b.txt` and `A`
with the alias `a` and the original filename `x.png`. -/
def twoUploadsWorld : World :=
  ⟨.sub (str "srv") (.sub (str "files")
    (.file (str "a.png") (str "A") (.file (str "b.txt") (str "B") .nil)) .nil)
    (.sub (str "tmp") .nil .nil),
   str "/srv", none, str "/tmp"⟩

/-- A file system with an empty `/srv/files` that is also the directory for
temporary files. -/
def tmpInStore : World :=
  ⟨.sub (str "srv") (.sub (str "files") .nil .nil) .nil, str "/srv", none, str "/srv/files"⟩

/-- A template engine that writes the template file back. -/
def echoTemplate : Str → Except Str (Str × Option Str) := fun src => .ok (src, none)


/-! ## Wrong method, failing open, download -/

theorem http_Error_new (error : Str) (code : Nat) :
    (http_Error ResponseWriter.new error code).finish = errorResponse code error := by
  rfl

/-- C8, as the code has it: a request to `/process` whose method is not POST and a
request to `/` whose method is not GET are answered with status 400 and the body
that `http.Error` writes for the empty message, a single newline byte; the
answer is the same for every file system, which is left as it was. -/
theorem wrong_method_rejected (tmpl : Str → Except Str (Str × Option Str)) (env : World)
    (r : Request) :
    (r.Method ≠ str "POST" → routeSubmitPost env r = .returned (errorResponse 400 []) env) ∧
    (r.Method ≠ str "GET" → routeIndexGet tmpl env r = .returned (errorResponse 400 []) env) := by
  constructor
  · intro h
    simp only [routeSubmitPost, if_pos h, http_Error_new]
    rfl
  · intro h
    simp only [routeIndexGet, if_pos h, http_Error_new]
    rfl

theorem wrong_method_rejected_witness :
    routeSubmitPost sampleWorld (plainRequest (str "GET") [] []) =
        .returned (errorResponse 400 []) sampleWorld ∧
      routeIndexGet echoTemplate sampleWorld (plainRequest (str "POST") [] []) =
        .returned (errorResponse 400 []) sampleWorld :=
  ⟨(wrong_method_rejected echoTemplate sampleWorld (plainRequest (str "GET") [] [])).1
      (by decide),
   (wrong_method_rejected echoTemplate sampleWorld (plainRequest (str "POST") [] [])).2
      (by decide)⟩

/-- C8 as stated fails: a GET to `/process` is answered with status 400 and a body
of one byte, the newline `http.Error` appends, not with zero bytes. -/
theorem wrong_method_body_is_newline :
    (routeSubmitPost sampleWorld (plainRequest (str "GET") [] [])).response =
        some ⟨400, errorHeader, [10]⟩ ∧
      (routeSubmitPost sampleWorld (plainRequest (str "GET") [] [])).response ≠
        some ⟨400, errorHeader, []⟩ := by
  decide

theorem pathError_ne_nil (e : PathError) : e.Error ++ [10] ≠ [] := by
  simp

/-- C9: when opening the `path` value fails with the error `e`, `handleDownload`
and the raw branch of `handleDetail` (`response_type` not `base64`) return with
status 500 and the body `e.Error()` followed by a newline, nothing else, and
leave the file system as it was; in the base64 branch a failing `ReadFile` of
the part of `path` before the first `?` ends the process through `log.Fatal`. -/
theorem open_failure_handling (env : World) (r : Request) (e : PathError)
    (hparse : r.parseErr = none) :
    (os_Open env (r.FormValue (str "path")) = .error e →
      handleDownload env r = .returned (errorResponse 500 e.Error) env ∧
      (r.Query (str "response_type") ≠ str "base64" →
        handleDetail env r = .returned (errorResponse 500 e.Error) env) ∧
      (errorResponse 500 e.Error).body ≠ []) ∧
    (r.Query (str "response_type") = str "base64" →
      ioutil_ReadFile env ((strings_Split 63 (r.FormValue (str "path"))).headD []) = .error e →
      handleDetail env r = .exited e.Error) := by
  refine ⟨fun hopen => ⟨?_, fun hraw => ?_, ?_⟩, fun hb hread => ?_⟩
  · simp only [handleDownload, hparse, hopen, http_Error_new]
  · simp only [handleDetail, hparse, if_neg hraw, hopen, http_Error_new]
  · exact pathError_ne_nil e
  · simp only [handleDetail, hparse, if_pos hb, hread]

theorem open_failure_handling_witness :
    (handleDownload sampleWorld (plainRequest (str "GET") (str "/srv/files/b.txt") []) =
        .returned (errorResponse 500 (str "open /srv/files/b.txt: no such file or directory"))
          sampleWorld) ∧
      handleDetail sampleWorld (plainRequest (str "GET") (str "/srv/files/b.txt") (str "base64")) =
        .exited (str "open /srv/files/b.txt: no such file or directory") :=
  ⟨((open_failure_handling sampleWorld (plainRequest (str "GET") (str "/srv/files/b.txt") [])
      ⟨str "open", str "/srv/files/b.txt", .ENOENT⟩ rfl).1 (by decide)).1,
   (open_failure_handling sampleWorld
      (plainRequest (str "GET") (str "/srv/files/b.txt") (str "base64"))
      ⟨str "open", str "/srv/files/b.txt", .ENOENT⟩ rfl).2 (by decide) (by decide)⟩

/-- C4, as the code has it: when the `path` value opens and is a regular file
with the bytes `C`, `handleDownload` answers with status 200, the body `C`, and
the header `Content-Disposition: attachment; filename=` followed by `f.Name()`,
the path as it was given to `os.Open`, directory components included. -/
theorem download_success (env : World) (r : Request) (f : File) (C : Str)
    (hparse : r.parseErr = none)
    (hopen : os_Open env (r.FormValue (str "path")) = .ok f)
    (hfile : f.node = .file C) :
    handleDownload env r =
      .returned ⟨200, [(str "Content-Disposition",
        str "attachment; filename=" ++ r.FormValue (str "path"))], C⟩ env := by
  have hname : f.Name = r.FormValue (str "path") := by
    unfold os_Open at hopen
    split at hopen
    · cases hopen
    · cases hopen
    · cases hopen; rfl
  simp only [handleDownload, hparse, hopen, File.readAll, hfile, hname]
  rfl

theorem download_success_witness :
    handleDownload sampleWorld (plainRequest (str "GET") (str "files/a.txt") []) =
      .returned ⟨200, [(str "Content-Disposition", str "attachment; filename=files/a.txt")],
        str "hello world"⟩ sampleWorld :=
  download_success sampleWorld (plainRequest (str "GET") (str "files/a.txt") [])
    ⟨str "files/a.txt", [str "srv", str "files", str "a.txt"], .file (str "hello world")⟩
    (str "hello world") rfl (by decide) rfl

/-- C4 as stated fails: for the path `/srv/files/a.txt` the header names the whole
path, not its last element `a.txt`. -/
theorem download_header_is_not_basename :
    (handleDownload sampleWorld (plainRequest (str "GET") (str "/srv/files/a.txt") [])).response =
        some ⟨200, [(str "Content-Disposition", str "attachment; filename=/srv/files/a.txt")],
          str "hello world"⟩ ∧
      str "attachment; filename=/srv/files/a.txt" ≠
        str "attachment; filename=" ++ filepath_Base (str "/srv/files/a.txt") := by
  decide

/-! ## Upload: overwriting and naming -/

/-- C1, the code at the failing input: `a.txt` holds the 11 bytes `hello world` and
the 2 bytes `hi` are uploaded under the same name; the upload succeeds, and the
stored file then holds `hillo world`, the new bytes followed by the old tail,
because the file is opened without `O_TRUNC`. -/
theorem upload_over_longer_file_keeps_tail :
    routeSubmitPost sampleWorld (uploadRequest [] (str "a.txt") (str "hi")) =
        .returned ⟨200, [], str "done"⟩ sampleWorldAfterUpload ∧
      ioutil_ReadFile sampleWorldAfterUpload (str "/srv/files/a.txt") = .ok (str "hillo world") ∧
      str "hillo world" ≠ str "hi" := by
  decide

theorem extLoop_eq (r acc : Str) :
    extLoop r acc =
      if dot ∈ r.takeWhile (fun x => x ≠ sep) then
        dot :: ((r.takeWhile (fun x => x ≠ sep)).takeWhile (fun x => x ≠ dot)).reverse ++ acc
      else [] := by
  induction r generalizing acc with
  | nil => simp [extLoop]
  | cons b before ih =>
    unfold extLoop
    by_cases hs : b = sep
    · simp [hs]
    · by_cases hd : b = dot
      · simp [hd, sep, dot]
      · have hd2 : ¬ dot = b := fun h => hd h.symm
        simp [hs, hd, hd2, ih, List.takeWhile_cons]

theorem filepath_Ext_eq (name : Str) : filepath_Ext name = extOfLastElement name := by
  simp [filepath_Ext, extOfLastElement, fromLastDot, lastElement, extLoop_eq]

/-- C2, as the code has it: with a non-empty alias the stored filename is the alias
followed by `filepath.Ext` of the original filename, which is the suffix of the
last path element of that name starting at its last `.`, the dot included, and
is empty when that element has no `.`. -/
theorem stored_name_with_alias (aliasVal name : Str) (h : aliasVal ≠ str "") :
    storedFilename aliasVal name = aliasVal ++ extOfLastElement name := by
  simp only [storedFilename, if_pos h, filepath_Ext_eq]

theorem stored_name_with_alias_witness :
    storedFilename (str "report") (str "a.b/photo.tar.gz") = str "report" ++ str ".gz" :=
  stored_name_with_alias (str "report") (str "a.b/photo.tar.gz") (by decide)

/-- C2 as stated fails: for the alias `x` and the original filename `a.txt` the
stored filename is `x.txt`, not `x` followed by the substring after the last `.`. -/
theorem stored_name_keeps_the_dot :
    storedFilename (str "x") (str "a.txt") = str "x.txt" ∧
      storedFilename (str "x") (str "a.txt") ≠ str "x" ++ afterLastDot (str "a.txt") := by
  decide

/-! ## Base64 and JSON round trip -/

theorem decByte_encByte : ∀ i, i < 64 → decByte (encByte i) = some i := by
  decide

theorem encByte_ne_pad : ∀ i, i < 64 → encByte i ≠ padChar := by
  decide

theorem encByte_safe : ∀ i, i < 64 → htmlSafe (encByte i) = true := by
  decide

theorem base64_round_trip (B : Str) (h : ∀ b ∈ B, b < 256) :
    base64_Decode (base64_EncodeToString B) = some B := by
  induction B using base64_EncodeToString.induct with
  | case1 b0 b1 b2 rest ih =>
    have h0 : b0 < 256 := h b0 (by simp)
    have h1 : b1 < 256 := h b1 (by simp)
    have h2 : b2 < 256 := h b2 (by simp)
    have hr : ∀ b ∈ rest, b < 256 := fun b hb => h b (by simp [hb])
    have e3 : encByte ((b0 * 65536 + b1 * 256 + b2) % 64) ≠ padChar :=
      encByte_ne_pad _ (Nat.mod_lt _ (by norm_num))
    simp only [base64_EncodeToString, base64_Decode, e3, and_false, if_false,
      decByte_encByte _ (Nat.mod_lt _ (show 64 > 0 by norm_num)), ih hr]
    congr 2
    · omega
    · congr 1
      · omega
      · congr 1
        omega
  | case2 b0 b1 =>
    have h0 : b0 < 256 := h b0 (by simp)
    have h1 : b1 < 256 := h b1 (by simp)
    have e2 : encByte ((b0 * 65536 + b1 * 256) / 64 % 64) ≠ padChar :=
      encByte_ne_pad _ (Nat.mod_lt _ (by norm_num))
    simp only [base64_EncodeToString, base64_Decode, e2, and_self, if_true, if_false,
      decByte_encByte _ (Nat.mod_lt _ (show 64 > 0 by norm_num))]
    congr 2
    · omega
    · congr 1
      omega
  | case3 b0 =>
    have h0 : b0 < 256 := h b0 (by simp)
    simp only [base64_EncodeToString, base64_Decode, and_self, if_true,
      decByte_encByte _ (Nat.mod_lt _ (show 64 > 0 by norm_num))]
    congr 2
    omega
  | case4 => rfl

theorem htmlSafe_bounds {b : Nat} (h : htmlSafe b = true) :
    32 ≤ b ∧ b < 128 ∧ b ≠ 34 ∧ b ≠ 92 := by
  simp only [htmlSafe, decide_eq_true_eq] at h
  omega

theorem base64_safe (B : Str) : ∀ c ∈ base64_EncodeToString B, htmlSafe c = true := by
  have hm : ∀ n, htmlSafe (encByte (n % 64)) = true :=
    fun n => encByte_safe _ (Nat.mod_lt _ (by norm_num))
  have hp : htmlSafe padChar = true := by decide
  induction B using base64_EncodeToString.induct with
  | case1 b0 b1 b2 rest ih =>
    intro c hc
    simp only [base64_EncodeToString, List.mem_cons] at hc
    rcases hc with rfl | rfl | rfl | rfl | hc
    · exact hm _
    · exact hm _
    · exact hm _
    · exact hm _
    · exact ih c hc
  | case2 b0 b1 =>
    intro c hc
    simp only [base64_EncodeToString, List.mem_cons, List.mem_nil_iff, or_false] at hc
    rcases hc with rfl | rfl | rfl | rfl
    · exact hm _
    · exact hm _
    · exact hm _
    · exact hp
  | case3 b0 =>
    intro c hc
    simp only [base64_EncodeToString, List.mem_cons, List.mem_nil_iff, or_false] at hc
    rcases hc with rfl | rfl | rfl | rfl
    · exact hm _
    · exact hm _
    · exact hp
    · exact hp
  | case4 => intro c hc; simp [base64_EncodeToString] at hc

theorem jsonStringLoop_safe (s : Str) (h : ∀ c ∈ s, htmlSafe c = true) :
    jsonStringLoop true 0 s = s := by
  induction s with
  | nil => rfl
  | cons b rest ih =>
    have hb := h b (by simp)
    have hlt := (htmlSafe_bounds hb).2.1
    have hr : ∀ c ∈ rest, htmlSafe c = true := fun c hc => h c (by simp [hc])
    simp [jsonStringLoop, hlt, hb, ih hr]

theorem jsonUnquote_safe (s : Str) (h : ∀ c ∈ s, htmlSafe c = true) :
    jsonUnquote (s ++ [34]) = some s := by
  induction s with
  | nil => simp [jsonUnquote]
  | cons b rest ih =>
    have hb := htmlSafe_bounds (h b (by simp))
    have hr : ∀ c ∈ rest, htmlSafe c = true := fun c hc => h c (by simp [hc])
    have h1 : ¬ b < 32 := by omega
    rw [List.cons_append, jsonUnquote.eq_def]
    simp only [if_neg hb.2.2.1, if_neg hb.2.2.2, if_neg h1, ih hr]
    rfl

theorem json_round_trip_safe (s : Str) (h : ∀ c ∈ s, htmlSafe c = true) :
    json_Unmarshal_string (json_Marshal_string s) = some s := by
  simp [json_Marshal_string, json_Unmarshal_string, jsonStringLoop_safe s h,
    jsonUnquote_safe s h]

theorem strings_Split_ne_nil (c : Nat) (s : Str) : strings_Split c s ≠ [] := by
  induction s with
  | nil => simp [strings_Split]
  | cons b bs ih =>
    unfold strings_Split
    split
    · simp
    · split
      · simp
      · simp

theorem strings_Split_head (c : Nat) (s : Str) :
    (strings_Split c s).headD [] = s.takeWhile (fun x => x ≠ c) := by
  induction s with
  | nil => simp [strings_Split]
  | cons b bs ih =>
    unfold strings_Split
    by_cases hb : b = c
    · simp [hb]
    · rw [if_neg hb]
      split
      · rename_i heq
        exact absurd heq (strings_Split_ne_nil c bs)
      · rename_i e es heq
        rw [heq] at ih
        simp only [List.headD_cons] at ih
        simp [List.takeWhile_cons, hb, ih]

/-- C5: with `response_type=base64`, when the file named by the part of `path`
before the first `?` (all of `path` when it has none) reads as the bytes `B`,
`handleDetail` answers with status 200, `Content-Type: application/json` and the
JSON string of the padded standard base64 of `B`; decoding the body as JSON and
then as base64 gives `B` again, whatever the length of `B`. -/
theorem detail_base64_round_trip (env : World) (r : Request) (B : Str)
    (hparse : r.parseErr = none)
    (htype : r.Query (str "response_type") = str "base64")
    (hread : ioutil_ReadFile env ((r.FormValue (str "path")).takeWhile (fun x => x ≠ 63)) = .ok B)
    (hbytes : ∀ b ∈ B, b < 256) :
    handleDetail env r =
        .returned ⟨200, [(str "Content-Type", str "application/json")],
          json_Marshal_string (base64_EncodeToString B)⟩ env ∧
      (json_Unmarshal_string (json_Marshal_string (base64_EncodeToString B))).bind
        base64_Decode = some B := by
  constructor
  · rw [← strings_Split_head] at hread
    simp only [handleDetail, hparse, if_pos htype, hread, toBase64]
    rfl
  · rw [json_round_trip_safe _ (base64_safe B)]
    exact base64_round_trip B hbytes

theorem detail_base64_round_trip_witness :
    handleDetail sampleWorld (plainRequest (str "GET") (str "files/a.txt?x=1") (str "base64")) =
        .returned ⟨200, [(str "Content-Type", str "application/json")],
          json_Marshal_string (base64_EncodeToString (str "hello world"))⟩ sampleWorld ∧
      (json_Unmarshal_string (json_Marshal_string (base64_EncodeToString (str "hello world")))).bind
        base64_Decode = some (str "hello world") :=
  detail_base64_round_trip sampleWorld
    (plainRequest (str "GET") (str "files/a.txt?x=1") (str "base64")) (str "hello world")
    rfl (by decide) (by decide) (by decide)

/-! ## `filepath.Clean` on rooted paths -/

theorem cleanLoop_nil (r : Bool) (fuel : Nat) (st : CleanState) :
    cleanLoop r fuel [] st = st := by
  cases fuel <;> rfl

theorem split_eq_takeWhile (p : Str) :
    strings_Split sep p =
      p.takeWhile (fun x => x ≠ sep) ::
        (match p.dropWhile (fun x => x ≠ sep) with
         | [] => []
         | _ :: r => strings_Split sep r) := by
  induction p with
  | nil => simp [strings_Split]
  | cons b bs ih =>
    by_cases hb : b = sep
    · subst hb
      simp [strings_Split]
    · rw [strings_Split, if_neg hb, ih]
      simp [List.takeWhile_cons, List.dropWhile_cons, hb]

/-- The fold over the elements of `d` when `d` is what is left after an element:
empty, or a separator and the rest. -/
theorem foldl_split_rest (r : Bool) (st : CleanState) (d : Str)
    (hd : d = [] ∨ d.head? = some sep) :
    (strings_Split sep d).foldl (elemStep r) st =
      (match d with
       | [] => []
       | _ :: t => strings_Split sep t).foldl (elemStep r) st := by
  rcases d with _ | ⟨c, t⟩
  · simp [strings_Split, elemStep]
  · have hc : c = sep := by simpa using hd
    subst hc
    simp [strings_Split, elemStep]

theorem dropWhile_head (p : Str) :
    p.dropWhile (fun x => x ≠ sep) = [] ∨ (p.dropWhile (fun x => x ≠ sep)).head? = some sep := by
  induction p with
  | nil => simp
  | cons b bs ih =>
    by_cases hb : b = sep
    · right; simp [List.dropWhile_cons, hb]
    · simpa [List.dropWhile_cons, hb] using ih

theorem foldl_split_cons (r : Bool) (st : CleanState) (p : Str) :
    (strings_Split sep p).foldl (elemStep r) st =
      (strings_Split sep (p.dropWhile (fun x => x ≠ sep))).foldl (elemStep r)
        (elemStep r st (p.takeWhile (fun x => x ≠ sep))) := by
  rw [foldl_split_rest r _ _ (dropWhile_head p)]
  conv_lhs => rw [split_eq_takeWhile]
  rfl

theorem takeWhile_nil_of (rest : Str) (h : rest = [] ∨ rest.head? = some sep) :
    rest.takeWhile (fun x => x ≠ sep) = [] ∧ rest.dropWhile (fun x => x ≠ sep) = rest := by
  rcases rest with _ | ⟨c, t⟩
  · simp
  · have hc : c = sep := by simpa using h
    subst hc
    simp [List.takeWhile_cons, List.dropWhile_cons]

theorem takeWhile_nil_iff (rest : Str) :
    rest.takeWhile (fun x => x ≠ sep) = [] ↔ (rest = [] ∨ rest.head? = some sep) := by
  constructor
  · intro h
    rcases rest with _ | ⟨c, t⟩
    · simp
    · by_cases hc : c = sep
      · simp [hc]
      · simp [List.takeWhile_cons, hc] at h
  · intro h
    exact (takeWhile_nil_of rest h).1

theorem length_dropWhile_le (p : Str) (q : Nat → Bool) : (p.dropWhile q).length ≤ p.length := by
  induction p with
  | nil => simp
  | cons b bs ih =>
    rw [List.dropWhile_cons]
    split
    · simp only [List.length_cons]; omega
    · simp

theorem cleanLoop_eq_foldl (r : Bool) :
    ∀ (fuel : Nat) (p : Str) (st : CleanState), p.length ≤ fuel →
      cleanLoop r fuel p st = (strings_Split sep p).foldl (elemStep r) st := by
  intro fuel
  induction fuel with
  | zero =>
    intro p st hp
    have : p = [] := List.length_eq_zero.mp (Nat.le_zero.mp hp)
    subst this
    simp [cleanLoop, strings_Split, elemStep]
  | succ fuel ih =>
    intro p st hp
    rcases p with _ | ⟨b, rest⟩
    · simp [cleanLoop, strings_Split, elemStep]
    · have hrest : rest.length ≤ fuel := by simpa using hp
      rw [cleanLoop]
      by_cases hb : b = sep
      · rw [if_pos hb, ih rest st hrest, hb]
        simp [strings_Split, elemStep]
      · rw [if_neg hb, foldl_split_cons]
        have htw : (b :: rest).takeWhile (fun x => x ≠ sep) =
            b :: rest.takeWhile (fun x => x ≠ sep) := by
          simp [List.takeWhile_cons, hb]
        have hdw : (b :: rest).dropWhile (fun x => x ≠ sep) =
            rest.dropWhile (fun x => x ≠ sep) := by
          simp [List.dropWhile_cons, hb]
        by_cases h1 : b = dot ∧ (rest = [] ∨ rest.head? = some sep)
        · rw [if_pos h1, htw, hdw, (takeWhile_nil_of rest h1.2).1, (takeWhile_nil_of rest h1.2).2,
            ih rest st hrest, h1.1]
          simp [elemStep]
        · rw [if_neg h1]
          by_cases h2 : b = dot ∧ rest.head? = some dot ∧
              (rest.tail = [] ∨ rest.tail.head? = some sep)
          · rw [if_pos h2]
            obtain ⟨hbd, hh, ht⟩ := h2
            rcases rest with _ | ⟨c, t⟩
            · simp at hh
            · have hc : c = dot := by simpa using hh
              subst hc
              have ht2 : t = [] ∨ t.head? = some sep := by simpa using ht
              have hds : ¬ dot = sep := by decide
              have htl : t.length ≤ fuel := by
                simp only [List.length_cons] at hrest; omega
              rw [htw, hdw, List.tail_cons, ih t _ htl, hbd]
              simp only [List.takeWhile_cons, List.dropWhile_cons, hds, ne_eq,
                not_false_eq_true, decide_True, if_true, (takeWhile_nil_of t ht2).1,
                (takeWhile_nil_of t ht2).2]
              simp [elemStep, dot]
          · rw [if_neg h2, hdw, ih _ _ (le_trans (length_dropWhile_le _ _) hrest)]
            congr 1
            rw [htw]
            have hne1 : ¬ (b :: rest.takeWhile (fun x => x ≠ sep) = [dot]) := by
              intro h
              simp only [List.cons.injEq] at h
              exact h1 ⟨h.1, (takeWhile_nil_iff rest).mp h.2⟩
            have hne2 : ¬ (b :: rest.takeWhile (fun x => x ≠ sep) = [dot, dot]) := by
              intro h
              simp only [List.cons.injEq] at h
              obtain ⟨hbd, ht⟩ := h
              rcases rest with _ | ⟨c, t⟩
              · simp at ht
              · by_cases hc : c = sep
                · simp [List.takeWhile_cons, hc] at ht
                · simp only [List.takeWhile_cons, hc, ne_eq, not_false_eq_true, decide_True,
                    if_true, List.cons.injEq] at ht
                  exact h2 ⟨hbd, by simp [ht.1], by
                    simpa using (takeWhile_nil_iff t).mp ht.2⟩
            simp only [elemStep, hne1, hne2, or_false, if_false]
            simp

theorem strings_Join_cons_cons (s a b : Str) (t : List Str) :
    strings_Join s (a :: b :: t) = a ++ s ++ strings_Join s (b :: t) := by
  simp [strings_Join]

theorem strings_Join_snoc (s : Str) (stack : List Str) (e : Str) (h : stack ≠ []) :
    strings_Join s (stack ++ [e]) = strings_Join s stack ++ s ++ e := by
  induction stack with
  | nil => exact absurd rfl h
  | cons a t ih =>
    rcases t with _ | ⟨b, t⟩
    · simp [strings_Join]
    · have := ih (by simp)
      simp only [List.cons_append] at this ⊢
      rw [strings_Join_cons_cons, this, strings_Join_cons_cons]
      simp

theorem rootedPath_snoc (stack : List Str) (e : Str) :
    rootedPath (stack ++ [e]) =
      if stack = [] then sep :: e else rootedPath stack ++ sep :: e := by
  by_cases h : stack = []
  · subst h; simp [rootedPath, strings_Join]
  · simp [rootedPath, h, strings_Join_snoc _ _ _ h]

theorem rootedPath_length (stack : List Str) (hs : ∀ x ∈ stack, realElem x) :
    (rootedPath stack).length = 1 ↔ stack = [] := by
  constructor
  · intro h
    rcases stack with _ | ⟨a, t⟩
    · rfl
    · have ha := (hs a (by simp)).1
      rcases a with _ | ⟨c, a⟩
      · exact absurd rfl ha
      · rcases t with _ | ⟨b, t⟩ <;> simp [rootedPath, strings_Join] at h
  · intro h; subst h; rfl

theorem backLoop_strip (R : Str) :
    ∀ (y : Str) (c : Nat), c ≠ sep → sep ∉ y →
      backLoop 1 c (y ++ sep :: R) = if R = [] then [sep] else R := by
  intro y
  induction y with
  | nil =>
    intro c hc _
    rcases R with _ | ⟨r0, R⟩
    · simp [backLoop]
    · simp [backLoop, hc]
  | cons b y ih =>
    intro c hc hy
    have hb : b ≠ sep := fun h => hy (by simp [h])
    have hy2 : sep ∉ y := fun h => hy (by simp [h])
    rw [List.cons_append, backLoop, if_pos ⟨by simp, hc⟩, ih b hb hy2]

theorem dotdotStep_rooted (stack : List Str) (x : Str) (hs : ∀ e ∈ stack, realElem e)
    (hx : realElem x) :
    dotdotStep true ⟨(rootedPath (stack ++ [x])).reverse, 1⟩ = ⟨(rootedPath stack).reverse, 1⟩ := by
  obtain ⟨hx1, hx2⟩ := hx
  have hrev : x.reverse ≠ [] := by simpa using hx1
  obtain ⟨c, y, hcy⟩ := List.exists_cons_of_ne_nil hrev
  have hc : c ≠ sep := by
    intro h
    have : c ∈ x.reverse := by rw [hcy]; simp
    exact hx2 (by rw [← h]; simpa using this)
  have hy : sep ∉ y := by
    intro h
    have : sep ∈ x.reverse := by rw [hcy]; simp [h]
    exact hx2 (by simpa using this)
  by_cases h : stack = []
  · subst h
    have hout : (rootedPath ([] ++ [x])).reverse = c :: (y ++ sep :: []) := by
      simp [rootedPath, strings_Join, hcy]
    rw [hout]
    simp only [dotdotStep, List.length_cons, List.length_append, List.length_nil]
    rw [if_pos (by omega), backLoop_strip [] y c hc hy]
    simp [rootedPath, strings_Join]
  · have hout : (rootedPath (stack ++ [x])).reverse = c :: (y ++ sep :: (rootedPath stack).reverse) := by
      rw [rootedPath_snoc, if_neg h]
      simp [hcy]
    rw [hout]
    simp only [dotdotStep, List.length_cons, List.length_append]
    rw [if_pos (by omega), backLoop_strip _ y c hc hy]
    simp [rootedPath]

theorem elemStep_rooted (stack : List Str) (e : Str) (hs : ∀ x ∈ stack, realElem x)
    (he : sep ∉ e) :
    elemStep true ⟨(rootedPath stack).reverse, 1⟩ e = ⟨(rootedPath (stackStep stack e)).reverse, 1⟩ ∧
      ∀ x ∈ stackStep stack e, realElem x := by
  unfold elemStep stackStep
  by_cases h1 : e = [] ∨ e = [dot]
  · simp only [if_pos h1]
    exact ⟨trivial, hs⟩
  · rw [if_neg h1, if_neg h1]
    by_cases h2 : e = [dot, dot]
    · rw [if_pos h2, if_pos h2]
      rcases List.eq_nil_or_concat stack with h | ⟨s, x, h⟩
      · subst h
        simp [dotdotStep, rootedPath, strings_Join]
      · rw [List.concat_eq_append] at h
        subst h
        have hs2 : ∀ e ∈ s, realElem e := fun e he => hs e (by simp [he])
        have hx : realElem x := hs x (by simp)
        rw [dotdotStep_rooted s x hs2 hx]
        simpa using hs2
    · rw [if_neg h2, if_neg h2]
      have hreal : realElem e := ⟨fun h => h1 (Or.inl h), he⟩
      refine ⟨?_, ?_⟩
      · by_cases h : stack = []
        · subst h
          simp [realStep, rootedPath, strings_Join]
        · have hlen : ¬ (rootedPath stack).length = 1 := fun hl =>
            h ((rootedPath_length stack hs).mp hl)
          rw [rootedPath_snoc, if_neg h]
          simp [realStep, hlen]
      · intro x hx
        rcases List.mem_append.mp hx with hx | hx
        · exact hs x hx
        · rw [List.mem_singleton.mp hx]; exact hreal

theorem foldl_elemStep_rooted (es : List Str) :
    ∀ (stack : List Str), (∀ x ∈ stack, realElem x) → (∀ e ∈ es, sep ∉ e) →
      es.foldl (elemStep true) ⟨(rootedPath stack).reverse, 1⟩ =
          ⟨(rootedPath (es.foldl stackStep stack)).reverse, 1⟩ ∧
        ∀ x ∈ es.foldl stackStep stack, realElem x := by
  induction es with
  | nil => intro stack hs _; exact ⟨rfl, hs⟩
  | cons e es ih =>
    intro stack hs he
    obtain ⟨h1, h2⟩ := elemStep_rooted stack e hs (he e (by simp))
    rw [List.foldl_cons, List.foldl_cons, h1]
    exact ih _ h2 (fun x hx => he x (by simp [hx]))

theorem split_no_sep (p : Str) : ∀ e ∈ strings_Split sep p, sep ∉ e := by
  induction p with
  | nil => simp [strings_Split]
  | cons b bs ih =>
    intro e he
    rw [strings_Split] at he
    by_cases hb : b = sep
    · rw [if_pos hb] at he
      rcases List.mem_cons.mp he with h | h
      · subst h; simp
      · exact ih e h
    · rw [if_neg hb] at he
      split at he
      · simp only [List.mem_singleton] at he
        subst he
        simpa using fun h => hb h.symm
      · rename_i e0 es heq
        rcases List.mem_cons.mp he with h | h
        · subst h
          have h0 : sep ∉ e0 := ih e0 (by rw [heq]; simp)
          simp only [List.mem_cons, not_or]
          exact ⟨fun h => hb h.symm, h0⟩
        · exact ih e (by rw [heq]; simp [h])

/-- The stack of elements of a rooted path after cleaning. -/
theorem filepath_Clean_rooted (rest : Str) :
    filepath_Clean (sep :: rest) =
        rootedPath ((strings_Split sep rest).foldl stackStep []) ∧
      ∀ x ∈ (strings_Split sep rest).foldl stackStep [], realElem x := by
  obtain ⟨h1, h2⟩ := foldl_elemStep_rooted (strings_Split sep rest) [] (by simp)
    (split_no_sep rest)
  refine ⟨?_, h2⟩
  have h0 : (⟨[sep], 1⟩ : CleanState) = ⟨(rootedPath []).reverse, 1⟩ := by
    simp [rootedPath, strings_Join]
  simp only [filepath_Clean, decide_True, if_true]
  rw [cleanLoop_eq_foldl true _ _ _ (le_refl _), h0, h1]
  simp [rootedPath]

/-! ## `filepath.Join` under a rooted directory -/

theorem split_append_sep (a b : Str) :
    strings_Split sep (a ++ sep :: b) = strings_Split sep a ++ strings_Split sep b := by
  induction a with
  | nil => simp [strings_Split]
  | cons c a ih =>
    by_cases hc : c = sep
    · subst hc
      simp [strings_Split, ih]
    · rw [List.cons_append, strings_Split, if_neg hc, ih, strings_Split, if_neg hc]
      rcases h : strings_Split sep a with _ | ⟨e, es⟩
      · exact absurd h (strings_Split_ne_nil sep a)
      · simp

theorem plain_real {x : Str} (h : plainName x) : realElem x := ⟨h.1, h.2.1⟩

theorem stackStep_plain (stack : List Str) (e : Str) (hs : ∀ x ∈ stack, plainName x)
    (he : sep ∉ e) : ∀ x ∈ stackStep stack e, plainName x := by
  unfold stackStep
  by_cases h1 : e = [] ∨ e = [dot]
  · rw [if_pos h1]; exact hs
  · rw [if_neg h1]
    by_cases h2 : e = [dot, dot]
    · rw [if_pos h2]
      intro x hx
      exact hs x (List.dropLast_subset _ hx)
    · rw [if_neg h2]
      intro x hx
      rcases List.mem_append.mp hx with hx | hx
      · exact hs x hx
      · rw [List.mem_singleton.mp hx]
        exact ⟨fun h => h1 (Or.inl h), he, fun h => h1 (Or.inr h), h2⟩

theorem foldl_stackStep_plain (es : List Str) :
    ∀ stack : List Str, (∀ x ∈ stack, plainName x) → (∀ e ∈ es, sep ∉ e) →
      ∀ x ∈ es.foldl stackStep stack, plainName x := by
  induction es with
  | nil => intro stack hs _; exact hs
  | cons e es ih =>
    intro stack hs he
    rw [List.foldl_cons]
    exact ih _ (stackStep_plain stack e hs (he e (by simp))) (fun x hx => he x (by simp [hx]))

/-- The elements a name adds when it has no `..` element: its elements other than
the empty one and `.`. -/
theorem foldl_stackStep_no_dotdot (es : List Str) (h : [dot, dot] ∉ es) :
    ∀ stack : List Str,
      es.foldl stackStep stack = stack ++ es.filter (fun e => e ≠ [] ∧ e ≠ [dot]) := by
  induction es with
  | nil => intro stack; simp
  | cons e es ih =>
    intro stack
    have he : e ≠ [dot, dot] := fun h1 => h (by simp [h1])
    have hes : [dot, dot] ∉ es := fun h1 => h (by simp [h1])
    rw [List.foldl_cons, ih hes]
    unfold stackStep
    by_cases h1 : e = [] ∨ e = [dot]
    · rw [if_pos h1]
      have : ¬ (e ≠ [] ∧ e ≠ [dot]) := by
        rcases h1 with h1 | h1 <;> simp [h1]
      simp [List.filter_cons, this]
    · rw [if_neg h1, if_neg he]
      have : e ≠ [] ∧ e ≠ [dot] := by
        constructor
        · exact fun h2 => h1 (Or.inl h2)
        · exact fun h2 => h1 (Or.inr h2)
      simp [List.filter_cons, this]

/-- The stack of elements of the working directory `/d`, cleaned. -/
theorem filepath_Join_two (d x : Str) :
    filepath_Join [sep :: d, x] =
        rootedPath ((strings_Split sep x).foldl stackStep
          ((strings_Split sep d).foldl stackStep [])) ∧
      ∀ e ∈ (strings_Split sep x).foldl stackStep ((strings_Split sep d).foldl stackStep []),
        plainName e := by
  have hj : filepath_Join [sep :: d, x] = filepath_Clean (sep :: (d ++ sep :: x)) := by
    simp [filepath_Join, strings_Join]
  rw [hj, (filepath_Clean_rooted _).1, split_append_sep, List.foldl_append]
  refine ⟨rfl, ?_⟩
  exact foldl_stackStep_plain _ _
    (foldl_stackStep_plain _ _ (by simp) (split_no_sep d)) (split_no_sep x)

theorem filepath_Join_three (d x y : Str) :
    filepath_Join [sep :: d, x, y] =
      rootedPath ((strings_Split sep y).foldl stackStep
        ((strings_Split sep x).foldl stackStep ((strings_Split sep d).foldl stackStep []))) := by
  have hj : filepath_Join [sep :: d, x, y] =
      filepath_Clean (sep :: (d ++ sep :: (x ++ sep :: y))) := by
    simp [filepath_Join, strings_Join]
  rw [hj, (filepath_Clean_rooted _).1, split_append_sep, split_append_sep, List.foldl_append,
    List.foldl_append]

theorem rootedPath_append (F : List Str) :
    ∀ T : List Str, T ≠ [] →
      rootedPath (T ++ F) = rootedPath T ++ (F.map (fun e => sep :: e)).flatten := by
  induction F with
  | nil => intro T _; simp
  | cons f F ih =>
    intro T hT
    have h1 : T ++ f :: F = (T ++ [f]) ++ F := by simp
    rw [h1, ih (T ++ [f]) (by simp), rootedPath_snoc, if_neg hT]
    simp

theorem isWithin_append (T F : List Str) (hT : T ≠ []) :
    isWithin (rootedPath T) (rootedPath (T ++ F)) = true := by
  rw [rootedPath_append F T hT]
  unfold isWithin
  rcases F with _ | ⟨f, F⟩
  · simp
  · simp only [Bool.or_eq_true]
    right
    rw [List.isPrefixOf_iff_prefix]
    exact ⟨f ++ (F.map (fun e => sep :: e)).flatten, by simp⟩

theorem split_files : strings_Split sep (str "files") = [str "files"] := by
  decide

theorem stackStep_files (S : List Str) : stackStep S (str "files") = S ++ [str "files"] := by
  have h1 : ¬ (str "files" = [] ∨ str "files" = [dot]) := by decide
  have h2 : ¬ (str "files" = [dot, dot]) := by decide
  simp only [stackStep, if_neg h1, if_neg h2]

/-- The Storage Directory under the working directory `/d`. -/
theorem storage_eq (d : Str) :
    filepath_Join [sep :: d, str "files"] =
      rootedPath ((strings_Split sep d).foldl stackStep [] ++ [str "files"]) := by
  rw [(filepath_Join_two d (str "files")).1, split_files]
  simp [stackStep_files]

/-- The location of an upload under the working directory `/d`. -/
theorem location_eq (d fn : Str) :
    filepath_Join [sep :: d, str "files", fn] =
      rootedPath ((strings_Split sep fn).foldl stackStep
        ((strings_Split sep d).foldl stackStep [] ++ [str "files"])) := by
  rw [filepath_Join_three, split_files]
  simp [stackStep_files]

/-- Without a `..` element in the name, the location of an upload lies within the
Storage Directory. -/
theorem location_within (dir aliasVal name : Str)
    (hdir : dir.head? = some sep)
    (hname : [dot, dot] ∉ strings_Split sep (storedFilename aliasVal name)) :
    isWithin (filepath_Join [dir, str "files"]) (fileLocation dir aliasVal name) = true := by
  rcases dir with _ | ⟨c, d⟩
  · simp at hdir
  · have hc : c = sep := by simpa using hdir
    subst hc
    rw [fileLocation, location_eq, storage_eq, foldl_stackStep_no_dotdot _ hname]
    exact isWithin_append _ _ (by simp)

/-! ## The file system: lookups after a write -/

theorem find_replaceFile_same (n c : Str) (d : Dir) (c0 : Str)
    (h : d.find n = some (.file c0)) : (d.replaceFile n c).find n = some (.file c) := by
  induction d with
  | nil => simp [Dir.find] at h
  | file m c1 rest ih =>
    by_cases hm : m = n
    · simp [Dir.replaceFile, Dir.find, hm]
    · simp only [Dir.find, if_neg hm] at h
      simp [Dir.replaceFile, Dir.find, hm, ih h]
  | sub m ch rest _ ih =>
    by_cases hm : m = n
    · simp [Dir.find, hm] at h
    · simp only [Dir.find, if_neg hm] at h
      simp [Dir.replaceFile, Dir.find, hm, ih h]
  | special m rest ih =>
    by_cases hm : m = n
    · simp [Dir.find, hm] at h
    · simp only [Dir.find, if_neg hm] at h
      simp [Dir.replaceFile, Dir.find, hm, ih h]

theorem find_replaceFile_other (n c m : Str) (d : Dir) (h : m ≠ n) :
    (d.replaceFile n c).find m = d.find m := by
  induction d with
  | nil => rfl
  | file k c1 rest ih =>
    by_cases hk : k = n
    · have hkm : ¬ k = m := fun h1 => h (h1.symm.trans hk)
      subst hk
      simp [Dir.replaceFile, Dir.find, hkm]
    · by_cases hkm : k = m
      · subst hkm; simp [Dir.replaceFile, Dir.find, hk]
      · simp [Dir.replaceFile, Dir.find, hk, hkm, ih]
  | sub k ch rest _ ih =>
    by_cases hk : k = n
    · simp [Dir.replaceFile, Dir.find, hk]
    · by_cases hkm : k = m
      · subst hkm; simp [Dir.replaceFile, Dir.find, hk]
      · simp [Dir.replaceFile, Dir.find, hk, hkm, ih]
  | special k rest ih =>
    by_cases hk : k = n
    · simp [Dir.replaceFile, Dir.find, hk]
    · by_cases hkm : k = m
      · subst hkm; simp [Dir.replaceFile, Dir.find, hk]
      · simp [Dir.replaceFile, Dir.find, hk, hkm, ih]

theorem find_replaceFile_keep (n c : Str) (d : Dir) (x : Node)
    (h : d.find n = some x) (hx : x.isRegular = false) :
    (d.replaceFile n c).find n = some x := by
  induction d with
  | nil => simp [Dir.find] at h
  | file m c1 rest ih =>
    by_cases hm : m = n
    · simp only [Dir.find, if_pos hm, Option.some.injEq] at h
      subst h
      simp [Node.isRegular] at hx
    · simp only [Dir.find, if_neg hm] at h
      simp [Dir.replaceFile, Dir.find, hm, ih h]
  | sub m ch rest _ ih =>
    by_cases hm : m = n
    · simp only [Dir.find, if_pos hm] at h
      simp [Dir.replaceFile, Dir.find, hm, h]
    · simp only [Dir.find, if_neg hm] at h
      simp [Dir.replaceFile, Dir.find, hm, ih h]
  | special m rest ih =>
    by_cases hm : m = n
    · simp only [Dir.find, if_pos hm] at h
      simp [Dir.replaceFile, Dir.find, hm, h]
    · simp only [Dir.find, if_neg hm] at h
      simp [Dir.replaceFile, Dir.find, hm, ih h]

theorem find_insertFile_same (n c : Str) (d : Dir) (h : d.find n = none) :
    (d.insertFile n c).find n = some (.file c) := by
  induction d with
  | nil => simp [Dir.insertFile, Dir.find]
  | file m c1 rest ih =>
    by_cases hm : m = n
    · simp [Dir.find, hm] at h
    · simp only [Dir.find, if_neg hm] at h
      by_cases hl : strLess n m = true <;> simp [Dir.insertFile, Dir.find, hl, hm, ih h]
  | sub m ch rest _ ih =>
    by_cases hm : m = n
    · simp [Dir.find, hm] at h
    · simp only [Dir.find, if_neg hm] at h
      by_cases hl : strLess n m = true <;> simp [Dir.insertFile, Dir.find, hl, hm, ih h]
  | special m rest ih =>
    by_cases hm : m = n
    · simp [Dir.find, hm] at h
    · simp only [Dir.find, if_neg hm] at h
      by_cases hl : strLess n m = true <;> simp [Dir.insertFile, Dir.find, hl, hm, ih h]

theorem find_insertFile_other (n c m : Str) (d : Dir) (h : m ≠ n) :
    (d.insertFile n c).find m = d.find m := by
  have hnm : ¬ n = m := fun h1 => h h1.symm
  induction d with
  | nil => simp [Dir.insertFile, Dir.find, hnm]
  | file k c1 rest ih =>
    by_cases hl : strLess n k = true
    · simp [Dir.insertFile, Dir.find, hl, hnm]
    · by_cases hkm : k = m
      · subst hkm; simp [Dir.insertFile, Dir.find, hl]
      · simp [Dir.insertFile, Dir.find, hl, hkm, ih]
  | sub k ch rest _ ih =>
    by_cases hl : strLess n k = true
    · simp [Dir.insertFile, Dir.find, hl, hnm]
    · by_cases hkm : k = m
      · subst hkm; simp [Dir.insertFile, Dir.find, hl]
      · simp [Dir.insertFile, Dir.find, hl, hkm, ih]
  | special k rest ih =>
    by_cases hl : strLess n k = true
    · simp [Dir.insertFile, Dir.find, hl, hnm]
    · by_cases hkm : k = m
      · subst hkm; simp [Dir.insertFile, Dir.find, hl]
      · simp [Dir.insertFile, Dir.find, hl, hkm, ih]

theorem find_setFile_same (n c : Str) (d : Dir) (h : freeOrFile d n) :
    (d.setFile n c).find n = some (.file c) := by
  unfold Dir.setFile
  rcases h with hf | ⟨c0, hf⟩
  · rw [hf]; exact find_insertFile_same n c d hf
  · rw [hf]; exact find_replaceFile_same n c d c0 hf

theorem find_setFile_keep (n c : Str) (d : Dir) (x : Node)
    (h : d.find n = some x) (hx : x.isRegular = false) :
    (d.setFile n c).find n = some x := by
  unfold Dir.setFile
  rw [h]
  exact find_replaceFile_keep n c d x h hx

theorem find_setFile_other (n c m : Str) (d : Dir) (h : m ≠ n) :
    (d.setFile n c).find m = d.find m := by
  unfold Dir.setFile
  split
  · exact find_replaceFile_other n c m d h
  · exact find_insertFile_other n c m d h

theorem find_modifySub_same (e : Str) (g : Dir → Dir) (d d1 : Dir)
    (h : d.find e = some (.dir d1)) : (d.modifySub e g).find e = some (.dir (g d1)) := by
  induction d with
  | nil => simp [Dir.find] at h
  | file m c1 rest ih =>
    by_cases hm : m = e
    · simp [Dir.find, hm] at h
    · simp only [Dir.find, if_neg hm] at h
      simp [Dir.modifySub, Dir.find, hm, ih h]
  | sub m ch rest _ ih =>
    by_cases hm : m = e
    · simp only [Dir.find, if_pos hm, Option.some.injEq, Node.dir.injEq] at h
      simp [Dir.modifySub, Dir.find, hm, h]
    · simp only [Dir.find, if_neg hm] at h
      simp [Dir.modifySub, Dir.find, hm, ih h]
  | special m rest ih =>
    by_cases hm : m = e
    · simp [Dir.find, hm] at h
    · simp only [Dir.find, if_neg hm] at h
      simp [Dir.modifySub, Dir.find, hm, ih h]

theorem find_modifySub_other (e m : Str) (g : Dir → Dir) (d : Dir) (h : m ≠ e) :
    (d.modifySub e g).find m = d.find m := by
  induction d with
  | nil => rfl
  | file k c1 rest ih =>
    by_cases hk : k = e
    · have hkm : ¬ k = m := fun h1 => h (h1.symm.trans hk)
      subst hk
      simp [Dir.modifySub, Dir.find, hkm]
    · by_cases hkm : k = m
      · subst hkm; simp [Dir.modifySub, Dir.find, hk]
      · simp [Dir.modifySub, Dir.find, hk, hkm, ih]
  | sub k ch rest _ ih =>
    by_cases hk : k = e
    · have hkm : ¬ k = m := fun h1 => h (h1.symm.trans hk)
      subst hk
      simp [Dir.modifySub, Dir.find, hkm]
    · by_cases hkm : k = m
      · subst hkm; simp [Dir.modifySub, Dir.find, hk]
      · simp [Dir.modifySub, Dir.find, hk, hkm, ih]
  | special k rest ih =>
    by_cases hk : k = e
    · have hkm : ¬ k = m := fun h1 => h (h1.symm.trans hk)
      subst hk
      simp [Dir.modifySub, Dir.find, hkm]
    · by_cases hkm : k = m
      · subst hkm; simp [Dir.modifySub, Dir.find, hk]
      · simp [Dir.modifySub, Dir.find, hk, hkm, ih]

theorem find_modifySub_not_dir (e : Str) (g : Dir → Dir) (d : Dir)
    (h : ∀ x, d.find e ≠ some (.dir x)) : (d.modifySub e g).find e = d.find e := by
  induction d with
  | nil => rfl
  | file k c1 rest ih =>
    by_cases hk : k = e
    · simp [Dir.modifySub, Dir.find, hk]
    · simp only [Dir.find, if_neg hk] at h
      simp [Dir.modifySub, Dir.find, hk, ih h]
  | sub k ch rest _ ih =>
    by_cases hk : k = e
    · exact absurd (by simp [Dir.find, hk]) (h ch)
    · simp only [Dir.find, if_neg hk] at h
      simp [Dir.modifySub, Dir.find, hk, ih h]
  | special k rest ih =>
    by_cases hk : k = e
    · simp [Dir.modifySub, Dir.find, hk]
    · simp only [Dir.find, if_neg hk] at h
      simp [Dir.modifySub, Dir.find, hk, ih h]

theorem lookup_append (a b : List Str) :
    ∀ root : Dir, root.lookup (a ++ b) =
      match root.lookup a with
      | some (.dir d) => d.lookup b
      | some (.file c) => if b = [] then some (.file c) else none
      | some .special => if b = [] then some .special else none
      | none => none := by
  induction a with
  | nil => intro root; simp [Dir.lookup]
  | cons e a ih =>
    intro root
    simp only [List.cons_append, Dir.lookup]
    rcases root.find e with _ | ⟨c | d1 | _⟩
    · rfl
    · by_cases ha : a = []
      · subst ha; simp
      · simp [ha]
    · exact ih d1
    · by_cases ha : a = []
      · subst ha; simp
      · simp [ha]

theorem putFile_cons (e : Str) (T : List Str) (n c : Str) (root : Dir) :
    root.putFile (e :: T ++ [n]) c = root.modifySub e (Dir.putFile (T ++ [n]) c) := by
  rcases T with _ | ⟨e1, T⟩ <;> simp [Dir.putFile]

theorem lookup_putFile (n c : Str) :
    ∀ (T : List Str) (root d : Dir), root.lookup T = some (.dir d) →
      (root.putFile (T ++ [n]) c).lookup T = some (.dir (d.setFile n c)) := by
  intro T
  induction T with
  | nil =>
    intro root d h
    simp only [Dir.lookup, Option.some.injEq, Node.dir.injEq] at h
    subst h
    simp [Dir.putFile, Dir.lookup]
  | cons e T ih =>
    intro root d h
    simp only [Dir.lookup] at h
    rcases hf : root.find e with _ | ⟨c0 | d1 | _⟩
    · simp [hf] at h
    · rw [hf] at h
      by_cases hT : T = [] <;> simp [hT] at h
    · rw [hf] at h
      simp only at h
      rw [putFile_cons]
      simp only [Dir.lookup, find_modifySub_same e _ root d1 hf]
      exact ih d1 d h
    · rw [hf] at h
      by_cases hT : T = [] <;> simp [hT] at h

theorem lookup_putFile_file (n c : Str) (T : List Str) (root d : Dir)
    (h : root.lookup T = some (.dir d)) (hn : freeOrFile d n) :
    (root.putFile (T ++ [n]) c).lookup (T ++ [n]) = some (.file c) := by
  rw [lookup_append, lookup_putFile n c T root d h]
  simp [Dir.lookup, find_setFile_same n c d hn]

/-- A write at `L` leaves what is found at `T` as it was, unless `T` leads to `L`. -/
theorem putFile_frame (c : Str) (L : List Str) :
    ∀ (root : Dir) (T : List Str), ¬ T <+: L →
      (root.putFile L c).lookup T = root.lookup T := by
  induction L with
  | nil => intro root T _; simp [Dir.putFile]
  | cons e es ih =>
    intro root T hT
    rcases T with _ | ⟨x, xs⟩
    · exact absurd List.nil_prefix hT
    · by_cases hx : x = e
      · subst hx
        have hxs : ¬ xs <+: es := fun h => hT ((List.prefix_cons_inj x).mpr h)
        rcases es with _ | ⟨e1, es⟩
        · have hne : xs ≠ [] := fun h => hxs (by rw [h])
          simp only [Dir.putFile, Dir.lookup]
          rcases hf : root.find x with _ | ⟨c0 | d0 | _⟩
          · rw [find_setFile_same x c root (Or.inl hf)]
            simp [hne]
          · rw [find_setFile_same x c root (Or.inr ⟨c0, hf⟩)]
            simp [hne]
          · rw [find_setFile_keep x c root _ hf rfl]
          · rw [find_setFile_keep x c root _ hf rfl]
        · simp only [Dir.putFile, Dir.lookup]
          rcases hf : root.find x with _ | ⟨c0 | d0 | _⟩
          · rw [find_modifySub_not_dir x _ root (by simp [hf]), hf]
          · rw [find_modifySub_not_dir x _ root (by simp [hf]), hf]
          · rw [find_modifySub_same x _ root d0 hf]
            exact ih d0 xs hxs
          · rw [find_modifySub_not_dir x _ root (by simp [hf]), hf]
      · rcases es with _ | ⟨e1, es⟩
        · simp only [Dir.putFile, Dir.lookup, find_setFile_other e c x root hx]
        · simp only [Dir.putFile, Dir.lookup, find_modifySub_other e x _ root hx]

theorem find_removeEntry_other (n m : Str) (d : Dir) (h : m ≠ n) :
    (d.removeEntry n).find m = d.find m := by
  induction d with
  | nil => rfl
  | file k c1 rest ih =>
    by_cases hk : k = n
    · have hkm : ¬ k = m := fun h1 => h (h1.symm.trans hk)
      simp [Dir.removeEntry, Dir.find, hk, hkm]
      subst hk
      simp [hkm]
    · by_cases hkm : k = m
      · subst hkm; simp [Dir.removeEntry, Dir.find, hk]
      · simp [Dir.removeEntry, Dir.find, hk, hkm, ih]
  | sub k ch rest _ ih =>
    by_cases hk : k = n
    · simp [Dir.removeEntry, Dir.find, hk]
    · by_cases hkm : k = m
      · subst hkm; simp [Dir.removeEntry, Dir.find, hk]
      · simp [Dir.removeEntry, Dir.find, hk, hkm, ih]
  | special k rest ih =>
    by_cases hk : k = n
    · have hkm : ¬ k = m := fun h1 => h (h1.symm.trans hk)
      simp [Dir.removeEntry, Dir.find, hk, hkm]
      subst hk
      simp [hkm]
    · by_cases hkm : k = m
      · subst hkm; simp [Dir.removeEntry, Dir.find, hk]
      · simp [Dir.removeEntry, Dir.find, hk, hkm, ih]

theorem find_removeEntry_dir (n : Str) (d d1 : Dir) (h : d.find n = some (.dir d1)) :
    (d.removeEntry n).find n = some (.dir d1) := by
  induction d with
  | nil => simp [Dir.find] at h
  | file k c1 rest ih =>
    by_cases hk : k = n
    · simp [Dir.find, hk] at h
    · simp only [Dir.find, if_neg hk] at h
      simp [Dir.removeEntry, Dir.find, hk, ih h]
  | sub k ch rest _ ih =>
    by_cases hk : k = n
    · simp only [Dir.find, if_pos hk] at h
      simp [Dir.removeEntry, Dir.find, hk, h]
    · simp only [Dir.find, if_neg hk] at h
      simp [Dir.removeEntry, Dir.find, hk, ih h]
  | special k rest ih =>
    by_cases hk : k = n
    · simp [Dir.find, hk] at h
    · simp only [Dir.find, if_neg hk] at h
      simp [Dir.removeEntry, Dir.find, hk, ih h]

/-- Removing the entry at `L` leaves the directory found at `T` as it was, unless
`T` leads to `L`. -/
theorem removeFile_frame (L : List Str) :
    ∀ (root : Dir) (T : List Str) (d : Dir), ¬ T <+: L → root.lookup T = some (.dir d) →
      (root.removeFile L).lookup T = some (.dir d) := by
  induction L with
  | nil => intro root T d _ h; simpa [Dir.removeFile] using h
  | cons e es ih =>
    intro root T d hT h
    rcases T with _ | ⟨x, xs⟩
    · exact absurd List.nil_prefix hT
    · by_cases hx : x = e
      · subst hx
        have hxs : ¬ xs <+: es := fun h => hT ((List.prefix_cons_inj x).mpr h)
        simp only [Dir.lookup] at h
        rcases hf : root.find x with _ | ⟨c0 | d0 | _⟩
        · simp [hf] at h
        · rw [hf] at h
          by_cases hxe : xs = [] <;> simp [hxe] at h
        · rw [hf] at h
          simp only at h
          rcases es with _ | ⟨e1, es⟩
          · simp only [Dir.removeFile, Dir.lookup, find_removeEntry_dir x root d0 hf]
            exact h
          · simp only [Dir.removeFile, Dir.lookup, find_modifySub_same x _ root d0 hf]
            exact ih d0 xs d hxs h
        · rw [hf] at h
          by_cases hxe : xs = [] <;> simp [hxe] at h
      · rcases es with _ | ⟨e1, es⟩
        · simpa only [Dir.removeFile, Dir.lookup, find_removeEntry_other e x root hx] using h
        · simpa only [Dir.removeFile, Dir.lookup, find_modifySub_other e x _ root hx] using h

/-! ## Resolution of cleaned rooted paths -/

theorem split_no_sep_eq (e : Str) (h : sep ∉ e) : strings_Split sep e = [e] := by
  induction e with
  | nil => rfl
  | cons b bs ih =>
    have hb : b ≠ sep := fun h1 => h (by simp [h1])
    have hbs : sep ∉ bs := fun h1 => h (by simp [h1])
    rw [strings_Split, if_neg hb, ih hbs]

theorem split_Join (T : List Str) (hne : T ≠ []) (hT : ∀ e ∈ T, sep ∉ e) :
    strings_Split sep (strings_Join [sep] T) = T := by
  induction T with
  | nil => exact absurd rfl hne
  | cons a t ih =>
    rcases t with _ | ⟨b, t⟩
    · simpa [strings_Join] using split_no_sep_eq a (hT a (by simp))
    · rw [strings_Join_cons_cons, List.append_assoc, List.singleton_append, split_append_sep,
        ih (by simp) (fun e he => hT e (by simp [he])), split_no_sep_eq a (hT a (by simp))]
      rfl

theorem elems_rooted (env : World) (L : List Str) (hne : L ≠ []) (hL : ∀ e ∈ L, sep ∉ e) :
    env.elems (rootedPath L) = [] :: L := by
  simp [World.elems, rootedPath, strings_Split, split_Join L hne hL]

theorem namei_nil_cons (root : Dir) (es : List Str) :
    namei root ([] :: es) [] = namei root es [] := by
  simp [namei, Dir.lookup]

theorem namei_plain_ok (root : Dir) (es : List Str) :
    ∀ (st : List Str) (n : Node), (∀ e ∈ es, plainName e) → root.lookup (st ++ es) = some n →
      namei root es st = .ok (st ++ es) := by
  induction es with
  | nil => intro st n _ _; simp [namei]
  | cons e es ih =>
    intro st n hp hl
    have he := hp e (by simp)
    rw [lookup_append] at hl
    rcases hst : root.lookup st with _ | ⟨c | d | _⟩
    · simp [hst] at hl
    · simp [hst] at hl
    · rw [hst] at hl
      simp only [Dir.lookup] at hl
      rcases hf : d.find e with _ | m
      · simp [hf] at hl
      · have h1 : ¬ (e = [] ∨ e = [dot]) := fun h => h.elim he.1 he.2.2.1
        have hl2 : root.lookup ((st ++ [e]) ++ es) = some n := by
          rw [List.append_assoc, List.singleton_append, lookup_append, hst]
          simp only [Dir.lookup, hf]
          rw [hf] at hl
          exact hl
        rw [namei, hst]
        simp only [if_neg h1, if_neg he.2.2.2, hf]
        rw [ih (st ++ [e]) n (fun x hx => hp x (by simp [hx])) hl2]
        simp
    · simp [hst] at hl

/-- Where path resolution ends: the elements are applied to the stack one by one. -/
theorem namei_stack (root : Dir) (es : List Str) :
    ∀ (st st1 : List Str), namei root es st = .ok st1 → st1 = es.foldl stackStep st := by
  induction es with
  | nil => intro st st1 h; simp only [namei, Except.ok.injEq] at h; simp [h]
  | cons e es ih =>
    intro st st1 h
    rw [namei] at h
    rcases hst : root.lookup st with _ | ⟨c | d | _⟩
    · simp [hst] at h
    · simp [hst] at h
    · rw [hst] at h
      simp only at h
      by_cases h1 : e = [] ∨ e = [dot]
      · rw [if_pos h1] at h
        simp only [List.foldl_cons, stackStep, if_pos h1]
        exact ih _ _ h
      · rw [if_neg h1] at h
        by_cases h2 : e = [dot, dot]
        · rw [if_pos h2] at h
          simp only [List.foldl_cons, stackStep, if_neg h1, if_pos h2]
          exact ih _ _ h
        · rw [if_neg h2] at h
          simp only [List.foldl_cons, stackStep, if_neg h1, if_neg h2]
          rcases hf : d.find e with _ | m
          · simp [hf] at h
          · rw [hf] at h
            exact ih _ _ h
    · simp [hst] at h

theorem plain_no_sep {L : List Str} (hL : ∀ e ∈ L, plainName e) : ∀ e ∈ L, sep ∉ e :=
  fun e he => (hL e he).2.1

theorem foldl_stackStep_plain_id (T : List Str) (hT : ∀ e ∈ T, plainName e) (st : List Str) :
    T.foldl stackStep st = st ++ T := by
  have hdd : [dot, dot] ∉ T := fun h => (hT _ h).2.2.2 rfl
  rw [foldl_stackStep_no_dotdot T hdd st]
  congr 1
  apply List.filter_eq_self.mpr
  intro e he
  have := hT e he
  simp [this.1, this.2.2.1]

/-- A cleaned rooted path that is not refused resolves to what the lookup of its
elements finds. -/
theorem resolve_rooted (env : World) (L : List Str) (hL : ∀ e ∈ L, plainName e) (n : Node)
    (hpe : pathErr (rootedPath L) = none)
    (h : env.root.lookup L = some n) : env.resolve (rootedPath L) = .ok (L, n) := by
  have hne : rootedPath L ≠ [] := by simp [rootedPath]
  rw [World.resolve, if_neg hne, hpe]
  by_cases hnil : L = []
  · subst hnil
    simp only [Dir.lookup, Option.some.injEq] at h
    subst h
    simp [World.elems, rootedPath, strings_Join, strings_Split, namei, Dir.lookup]
  · simp only
    rw [elems_rooted env L hnil (plain_no_sep hL), namei_nil_cons,
      namei_plain_ok env.root L [] n hL (by simpa using h)]
    simp [h]

theorem resolve_ok_pathErr (env : World) (name : Str) (x : List Str × Node)
    (h : env.resolve name = .ok x) : pathErr name = none := by
  unfold World.resolve at h
  split at h
  · cases h
  · rcases hp : pathErr name with _ | e
    · rfl
    · simp [hp] at h

/-- Whatever a path resolves to is found at the stack its elements leave. -/
theorem resolve_ok_inv (env : World) (name : Str) (st : List Str) (n : Node)
    (h : env.resolve name = .ok (st, n)) :
    st = (env.elems name).foldl stackStep [] ∧ env.root.lookup st = some n := by
  have hp := resolve_ok_pathErr env name _ h
  unfold World.resolve at h
  split at h
  · cases h
  · rw [hp] at h
    simp only at h
    rcases hn : namei env.root (env.elems name) [] with e | st1
    · simp [hn] at h
    · rw [hn] at h
      simp only at h
      rcases hl : env.root.lookup st1 with _ | m
      · simp [hl] at h
      · rw [hl] at h
        simp only [Except.ok.injEq, Prod.mk.injEq] at h
        obtain ⟨h1, h2⟩ := h
        subst h1 h2
        exact ⟨namei_stack _ _ _ _ hn, hl⟩

theorem elems_rooted_stack (env : World) (L : List Str) (hL : ∀ e ∈ L, plainName e) :
    (env.elems (rootedPath L)).foldl stackStep [] = L := by
  by_cases hnil : L = []
  · subst hnil
    simp [World.elems, rootedPath, strings_Join, strings_Split, stackStep]
  · rw [elems_rooted env L hnil (plain_no_sep hL)]
    simp only [List.foldl_cons, stackStep, true_or, if_true]
    simpa using foldl_stackStep_plain_id L hL []

theorem resolve_rooted_inv (env : World) (L : List Str) (hL : ∀ e ∈ L, plainName e)
    (st : List Str) (n : Node) (h : env.resolve (rootedPath L) = .ok (st, n)) :
    st = L ∧ env.root.lookup L = some n := by
  obtain ⟨h1, h2⟩ := resolve_ok_inv env _ st n h
  rw [elems_rooted_stack env L hL] at h1
  subst h1
  exact ⟨rfl, h2⟩

theorem openCreate_ok_pathErr (excl : Bool) (env : World) (name : Str) (x : World × File)
    (h : openCreate excl env name = .ok x) : pathErr name = none := by
  unfold openCreate at h
  simp only at h
  split at h
  · cases h
  · rcases hp : pathErr name with _ | e
    · rfl
    · simp [hp] at h

/-- Opening for writing at a cleaned rooted path whose parent is the directory `d`. -/
theorem openCreate_at (excl : Bool) (env : World) (P : List Str) (n : Str) (d : Dir)
    (hL : ∀ e ∈ P ++ [n], plainName e) (hpe : pathErr (rootedPath (P ++ [n])) = none)
    (hl : env.root.lookup P = some (.dir d)) :
    openCreate excl env (rootedPath (P ++ [n])) =
      match d.find n with
      | some (.dir _) =>
        .error ⟨str "open", rootedPath (P ++ [n]), if excl then .EEXIST else .EISDIR⟩
      | some .special =>
        .error ⟨str "open", rootedPath (P ++ [n]), if excl then .EEXIST else .ENXIO6⟩
      | some (.file c) =>
        if excl then .error ⟨str "open", rootedPath (P ++ [n]), .EEXIST⟩
        else .ok (env, ⟨rootedPath (P ++ [n]), P ++ [n], .file c⟩)
      | none => .ok ({ env with root := env.root.putFile (P ++ [n]) [] },
          ⟨rootedPath (P ++ [n]), P ++ [n], .file []⟩) := by
  have hne : rootedPath (P ++ [n]) ≠ [] := by simp [rootedPath]
  have hn := hL n (by simp)
  have hP : ∀ e ∈ P, plainName e := fun e he => hL e (by simp [he])
  have hnot : ¬ (n = [] ∨ n = [dot] ∨ n = [dot, dot]) := by
    rintro (h | h | h)
    · exact hn.1 h
    · exact hn.2.2.1 h
    · exact hn.2.2.2 h
  have hdl : ([] :: (P ++ [n])).dropLast = [] :: P := by
    rw [List.dropLast_cons_of_ne_nil (by simp)]
    simp
  have hgl : ([] :: (P ++ [n])).getLastD [] = n := by
    have h1 : ([] : Str) :: (P ++ [n]) = ([] :: P) ++ [n] := rfl
    rw [h1, List.getLastD_eq_getLast?, List.getLast?_append]
    simp
  simp only [openCreate, if_neg hne, hpe, elems_rooted env _ (by simp) (plain_no_sep hL), hdl,
    hgl, namei_nil_cons, namei_plain_ok env.root P [] _ hP (by simpa using hl), List.nil_append,
    hl, if_neg hnot]

theorem openFile_at (env : World) (P : List Str) (n : Str) (d : Dir)
    (hL : ∀ e ∈ P ++ [n], plainName e) (hpe : pathErr (rootedPath (P ++ [n])) = none)
    (hl : env.root.lookup P = some (.dir d)) :
    os_OpenFile env (rootedPath (P ++ [n])) =
      match d.find n with
      | some (.dir _) => .error ⟨str "open", rootedPath (P ++ [n]), .EISDIR⟩
      | some .special => .error ⟨str "open", rootedPath (P ++ [n]), .ENXIO6⟩
      | some (.file c) => .ok (env, ⟨rootedPath (P ++ [n]), P ++ [n], .file c⟩)
      | none => .ok ({ env with root := env.root.putFile (P ++ [n]) [] },
          ⟨rootedPath (P ++ [n]), P ++ [n], .file []⟩) := by
  rw [os_OpenFile, openCreate_at false env P n d hL hpe hl]
  rcases d.find n with _ | ⟨c | x | _⟩ <;> rfl

/-- What a successful open for writing did: the directory part of the path led to
a directory, the file is at the stack the elements of the path leave, and the
tree is as before or has the file added, empty. -/
theorem openCreate_ok_inv (excl : Bool) (env : World) (name : Str) (env1 : World) (f : File)
    (h : openCreate excl env name = .ok (env1, f)) :
    f.loc = (env.elems name).foldl stackStep [] ∧ f.name = name ∧
      env1.wd = env.wd ∧ env1.getwdErr = env.getwdErr ∧ env1.tmp = env.tmp ∧
      ((env1.root = env.root ∧ excl = false ∧ ∃ c, f.node = .file c ∧
          env.root.lookup f.loc = some (.file c)) ∨
        (env1.root = env.root.putFile f.loc [] ∧ f.node = .file [])) := by
  have hp := openCreate_ok_pathErr excl env name _ h
  unfold openCreate at h
  simp only at h
  split at h
  · cases h
  · rw [hp] at h
    simp only at h
    have hes : env.elems name ≠ [] := strings_Split_ne_nil _ _
    have hsplit : (env.elems name).dropLast ++ [(env.elems name).getLastD []] = env.elems name := by
      rw [List.getLastD_eq_getLast?]
      rcases hg : (env.elems name).getLast? with _ | a
      · exact absurd (List.getLast?_eq_none_iff.mp hg) hes
      · simpa using List.dropLast_append_getLast? a hg
    generalize (env.elems name).getLastD [] = E at h hsplit
    rcases hn : namei env.root (env.elems name).dropLast [] with e | st
    · simp [hn] at h
    · rw [hn] at h
      simp only at h
      have hst := namei_stack _ _ _ _ hn
      rcases hl : env.root.lookup st with _ | ⟨c | d | _⟩
      · simp [hl] at h
      · simp [hl] at h
      · rw [hl] at h
        simp only at h
        split at h
        · cases h
        · rename_i hnot
          have h1 : ¬ (E = [] ∨ E = [dot]) :=
            fun hh => hnot (hh.elim Or.inl (fun x => Or.inr (Or.inl x)))
          have h2 : ¬ (E = [dot, dot]) := fun hh => hnot (Or.inr (Or.inr hh))
          have hloc : st ++ [E] = (env.elems name).foldl stackStep [] := by
            conv_rhs => rw [← hsplit]
            rw [List.foldl_append, ← hst]
            simp only [List.foldl_cons, List.foldl_nil, stackStep, if_neg h1, if_neg h2]
          rcases hf : d.find E with _ | ⟨c | x | _⟩
          · rw [hf] at h
            simp only [Except.ok.injEq, Prod.mk.injEq] at h
            obtain ⟨h3, h4⟩ := h
            subst h3 h4
            exact ⟨hloc, rfl, rfl, rfl, rfl, Or.inr ⟨rfl, rfl⟩⟩
          · rw [hf] at h
            simp only at h
            split at h
            · cases h
            · rename_i hex
              simp only [Except.ok.injEq, Prod.mk.injEq] at h
              obtain ⟨h3, h4⟩ := h
              subst h3 h4
              refine ⟨hloc, rfl, rfl, rfl, rfl, Or.inl ⟨rfl, by simpa using hex, c, rfl, ?_⟩⟩
              simp only
              rw [lookup_append, hl]
              simp [Dir.lookup, hf]
          · rw [hf] at h
            cases h
          · rw [hf] at h
            cases h
      · simp [hl] at h

theorem openFile_ok_inv (env : World) (L : List Str) (hL : ∀ e ∈ L, plainName e)
    (env1 : World) (f : File) (h : os_OpenFile env (rootedPath L) = .ok (env1, f)) :
    ∃ P n d, L = P ++ [n] ∧ env.root.lookup P = some (.dir d) := by
  have hp := openCreate_ok_pathErr false env _ _ h
  rcases List.eq_nil_or_concat L with hnil | ⟨P, n, hPn⟩
  · subst hnil
    have hp1 : pathErr [sep] = none := hp
    simp [os_OpenFile, openCreate, hp1, rootedPath, strings_Join, World.elems, strings_Split,
      namei, Dir.lookup] at h
  · rw [List.concat_eq_append] at hPn
    subst hPn
    refine ⟨P, n, ?_⟩
    have hP : ∀ e ∈ P, plainName e := fun e he => hL e (by simp [he])
    have hne : rootedPath (P ++ [n]) ≠ [] := by simp [rootedPath]
    have hdl : ([] :: (P ++ [n])).dropLast = [] :: P := by
      rw [List.dropLast_cons_of_ne_nil (by simp)]
      simp
    simp only [os_OpenFile, openCreate, if_neg hne, hp,
      elems_rooted env _ (by simp) (plain_no_sep hL), hdl, namei_nil_cons] at h
    rcases hn : namei env.root P [] with e | st
    · simp [hn] at h
    · have hst := namei_stack env.root P [] st hn
      rw [foldl_stackStep_plain_id P hP] at hst
      simp only [List.nil_append] at hst
      subst hst
      rw [hn] at h
      simp only at h
      rcases hlk : env.root.lookup st with _ | ⟨c | d | _⟩
      · simp [hlk] at h
      · simp [hlk] at h
      · exact ⟨d, rfl, rfl⟩
      · simp [hlk] at h

/-! ## A successful upload -/

theorem files_plain : plainName (str "files") := by
  decide

theorem location_plain (d fn : Str) :
    ∃ L, filepath_Join [sep :: d, str "files", fn] = rootedPath L ∧ ∀ e ∈ L, plainName e := by
  refine ⟨_, location_eq d fn, ?_⟩
  apply foldl_stackStep_plain _ _ _ (split_no_sep fn)
  intro e he
  rcases List.mem_append.mp he with h | h
  · exact foldl_stackStep_plain _ _ (by simp) (split_no_sep d) e h
  · rw [List.mem_singleton.mp h]; exact files_plain

theorem io_Copy_file_ok_inv (env : World) (f : File) (data : Str) (env1 : World)
    (h : io_Copy_file env f data = .ok env1) :
    ∃ old, f.node = .file old ∧
      env1 = { env with root := env.root.putFile f.loc (overwrite old data) } := by
  unfold io_Copy_file at h
  rcases hn : f.node with c | d | _
  · rw [hn] at h
    simp only [Except.ok.injEq] at h
    exact ⟨c, rfl, h.symm⟩
  · rw [hn] at h; cases h
  · rw [hn] at h; cases h

/-- What parsing the multipart body leaves: the environment as it was, or with
the temporary file written. -/
theorem parse_ok_inv (env : World) (r : Request) (m : Nat) (env0 : World)
    (h : ParseMultipartForm env r m = .ok env0) :
    env0.wd = env.wd ∧ env0.getwdErr = env.getwdErr ∧ env0.tmp = env.tmp ∧
      (env0.root = env.root ∨
        ∃ c, env0.root =
          (env.root.putFile ((env.elems (joinPath env.tmp r.tmpName)).foldl stackStep [])
            []).putFile ((env.elems (joinPath env.tmp r.tmpName)).foldl stackStep []) c) := by
  unfold ParseMultipartForm at h
  rcases hp : r.parseErr with _ | e
  · rw [hp] at h
    simp only at h
    rcases hs : spilled m r.fileParts with _ | ⟨c, cs⟩
    · rw [hs] at h
      simp only [Except.ok.injEq] at h
      subst h
      exact ⟨rfl, rfl, rfl, Or.inl rfl⟩
    · rw [hs] at h
      simp only at h
      rcases ho : os_CreateTemp env env.tmp r.tmpName with e | ⟨env1, f⟩
      · rw [ho] at h; cases h
      · rw [ho] at h
        simp only at h
        obtain ⟨hloc, _, h1, h2, h3, h4⟩ := openCreate_ok_inv true env _ env1 f ho
        obtain ⟨old, _, h5⟩ := io_Copy_file_ok_inv env1 f _ env0 h
        subst h5
        refine ⟨h1, h2, h3, Or.inr ⟨overwrite old (c :: cs).flatten, ?_⟩⟩
        rcases h4 with ⟨_, hex, _⟩ | ⟨h6, _⟩
        · cases hex
        · simp only
          rw [h6, hloc]
  · rw [hp] at h; cases h

/-- An upload whose location is the entry `n` of the existing directory at `P`,
missing or a regular file: the handler answers `done`, the directory becomes
`uploadedDir d n B`, and what is found elsewhere stays. -/
theorem upload_at_full (env env0 : World) (r : Request) (B : Str) (handler : FileHeader)
    (P : List Str) (n : Str) (d : Dir)
    (hm : r.Method = str "POST") (hp : ParseMultipartForm env r 1024 = .ok env0)
    (hfile : r.FormFile (str "file") = .ok (B, handler))
    (hwd : env0.getwdErr = none)
    (hloc : fileLocation env0.wd (r.FormValue (str "alias")) handler.Filename =
      rootedPath (P ++ [n]))
    (hL : ∀ e ∈ P ++ [n], plainName e) (hpe : pathErr (rootedPath (P ++ [n])) = none)
    (hl : env0.root.lookup P = some (.dir d))
    (hnd : freeOrFile d n) :
    ∃ env2, routeSubmitPost env r = .returned ⟨200, [], str "done"⟩ env2 ∧
      env2.wd = env0.wd ∧ env2.getwdErr = env0.getwdErr ∧ env2.tmp = env0.tmp ∧
      env2.root.lookup P = some (.dir (uploadedDir d n B)) ∧
      ∀ T, ¬ T <+: P ++ [n] → env2.root.lookup T = env0.root.lookup T := by
  have hm2 : ¬ r.Method ≠ str "POST" := by simp [hm]
  have hg : os_Getwd env0 = .ok env0.wd := by simp [os_Getwd, hwd]
  simp only [routeSubmitPost, if_neg hm2, hp, hfile, hg, hloc, openFile_at env0 P n d hL hpe hl]
  rcases hnd with hf | ⟨c, hf⟩
  · rw [hf]
    refine ⟨_, rfl, rfl, rfl, rfl, ?_, ?_⟩
    · simp only [uploadedDir, hf]
      exact lookup_putFile n _ P _ _ (lookup_putFile n [] P env0.root d hl)
    · intro T hT
      show ((env0.root.putFile (P ++ [n]) []).putFile (P ++ [n]) _).lookup T = _
      rw [putFile_frame _ _ _ T hT, putFile_frame _ _ _ T hT]
  · rw [hf]
    refine ⟨_, rfl, rfl, rfl, rfl, ?_, ?_⟩
    · simp only [uploadedDir, hf]
      exact lookup_putFile n _ P env0.root d hl
    · intro T hT
      show (env0.root.putFile (P ++ [n]) _).lookup T = _
      rw [putFile_frame _ _ _ T hT]

theorem upload_at (env env0 : World) (r : Request) (B : Str) (handler : FileHeader)
    (P : List Str) (n : Str) (d : Dir)
    (hm : r.Method = str "POST") (hp : ParseMultipartForm env r 1024 = .ok env0)
    (hfile : r.FormFile (str "file") = .ok (B, handler))
    (hwd : env0.getwdErr = none)
    (hloc : fileLocation env0.wd (r.FormValue (str "alias")) handler.Filename =
      rootedPath (P ++ [n]))
    (hL : ∀ e ∈ P ++ [n], plainName e) (hpe : pathErr (rootedPath (P ++ [n])) = none)
    (hl : env0.root.lookup P = some (.dir d))
    (hnd : freeOrFile d n) :
    ∃ env2, routeSubmitPost env r = .returned ⟨200, [], str "done"⟩ env2 ∧
      env2.wd = env0.wd ∧ env2.getwdErr = env0.getwdErr ∧ env2.tmp = env0.tmp ∧
      env2.root.lookup P = some (.dir (uploadedDir d n B)) := by
  obtain ⟨env2, h1, h2, h3, h4, h5, _⟩ :=
    upload_at_full env env0 r B handler P n d hm hp hfile hwd hloc hL hpe hl hnd
  exact ⟨env2, h1, h2, h3, h4, h5⟩

/-- Parsing a multipart body with a part that does not fit in memory: the
temporary file is created and holds the parts that did not fit. -/
theorem parse_spill (env env1 : World) (r : Request) (m : Nat) (f : File) (c : Str)
    (cs : List Str) (hpe : r.parseErr = none) (hs : spilled m r.fileParts = c :: cs)
    (ho : os_CreateTemp env env.tmp r.tmpName = .ok (env1, f)) :
    ParseMultipartForm env r m =
      .ok { env1 with root := env1.root.putFile f.loc (overwrite [] (c :: cs).flatten) } := by
  obtain ⟨_, _, _, _, _, h4⟩ := openCreate_ok_inv true env _ env1 f ho
  have hnode : f.node = .file [] := by
    rcases h4 with ⟨_, hex, _⟩ | ⟨_, h5⟩
    · cases hex
    · exact h5
  simp only [ParseMultipartForm, hpe, hs, ho, io_Copy_file, hnode]

theorem uploadedDir_find (d : Dir) (n B : Str) (hnd : freeOrFile d n) :
    (uploadedDir d n B).find n =
      some (.file (overwrite (match d.find n with
        | some (.file c) => c
        | _ => []) B)) := by
  unfold uploadedDir
  rcases hnd with hf | ⟨c, hf⟩
  · rw [hf]
    simp only
    apply find_setFile_same
    exact Or.inr ⟨[], find_setFile_same n [] d (Or.inl hf)⟩
  · rw [hf]
    simp only
    exact find_setFile_same n _ d (Or.inr ⟨c, hf⟩)

theorem readFile_rooted (env : World) (L : List Str) (hL : ∀ e ∈ L, plainName e) (c : Str)
    (hpe : pathErr (rootedPath L) = none)
    (h : env.root.lookup L = some (.file c)) : ioutil_ReadFile env (rootedPath L) = .ok c := by
  simp [ioutil_ReadFile, os_Open, resolve_rooted env L hL _ hpe h, File.readAll]

/-- C10: with an empty (or absent) alias the stored filename is the original
filename as it is, and when the multipart body is parsed (which leaves the file
system `env0`) and the location `filepath.Join(workingDir, "files", filename)`
can be opened for writing, the handler answers `done` and the file at that
location then holds the uploaded bytes written from offset 0 over what the file
held when it was opened. -/
theorem upload_without_alias (env env0 : World) (r : Request) (B : Str) (handler : FileHeader)
    (env1 : World) (f : File)
    (hm : r.Method = str "POST") (hp : ParseMultipartForm env r 1024 = .ok env0)
    (halias : r.FormValue (str "alias") = str "")
    (hfile : r.FormFile (str "file") = .ok (B, handler))
    (hwd : env.getwdErr = none) (hroot : env.wd.head? = some sep)
    (hopen : os_OpenFile env0 (filepath_Join [env.wd, str "files", handler.Filename]) =
      .ok (env1, f)) :
    storedFilename (r.FormValue (str "alias")) handler.Filename = handler.Filename ∧
      ∃ env2 old, f.node = .file old ∧
        routeSubmitPost env r = .returned ⟨200, [], str "done"⟩ env2 ∧
        ioutil_ReadFile env2 (filepath_Join [env.wd, str "files", handler.Filename]) =
          .ok (overwrite old B) := by
  have hname : storedFilename (r.FormValue (str "alias")) handler.Filename = handler.Filename := by
    simp [storedFilename, halias]
  refine ⟨hname, ?_⟩
  obtain ⟨hw0, hg0, _, _⟩ := parse_ok_inv env r 1024 env0 hp
  rcases hw : env.wd with _ | ⟨c, dd⟩
  · simp [hw] at hroot
  · have hc : c = sep := by simpa [hw] using hroot
    subst hc
    rw [hw] at hopen
    obtain ⟨L, hLeq, hL⟩ := location_plain dd handler.Filename
    rw [hLeq] at hopen ⊢
    obtain ⟨P, n, d, hPn, hl⟩ := openFile_ok_inv env0 L hL env1 f hopen
    subst hPn
    have hpe := openCreate_ok_pathErr false env0 _ _ hopen
    have hloc : fileLocation env0.wd (r.FormValue (str "alias")) handler.Filename =
        rootedPath (P ++ [n]) := by
      rw [fileLocation, hname, hw0, hw, hLeq]
    rw [openFile_at env0 P n d hL hpe hl] at hopen
    have hnd : freeOrFile d n := by
      rcases hf : d.find n with _ | ⟨c | x | _⟩
      · exact Or.inl hf
      · exact Or.inr ⟨c, hf⟩
      · simp [hf] at hopen
      · simp [hf] at hopen
    obtain ⟨env2, hret, _, _, _, hlk⟩ :=
      upload_at env env0 r B handler P n d hm hp hfile (by rw [hg0, hwd]) hloc hL hpe hl hnd
    have hread : ∀ old, (match d.find n with
        | some (.file c) => c
        | _ => []) = old →
        ioutil_ReadFile env2 (rootedPath (P ++ [n])) = .ok (overwrite old B) := by
      intro old hold
      apply readFile_rooted env2 _ hL _ hpe
      rw [lookup_append, hlk]
      simp [Dir.lookup, uploadedDir_find d n B hnd, hold]
    rcases hnd with hf | ⟨c, hf⟩
    · rw [hf] at hopen
      simp only [Except.ok.injEq, Prod.mk.injEq] at hopen
      refine ⟨env2, [], ?_, hret, hread [] (by simp [hf])⟩
      rw [← hopen.2]
    · rw [hf] at hopen
      simp only [Except.ok.injEq, Prod.mk.injEq] at hopen
      refine ⟨env2, c, ?_, hret, hread c (by simp [hf])⟩
      rw [← hopen.2]

theorem upload_without_alias_witness :
    storedFilename ((uploadRequest [] (str "b.tar.gz") (str "hi")).FormValue (str "alias"))
        (str "b.tar.gz") = str "b.tar.gz" ∧
      ∃ env2 old, (File.mk (str "/srv/files/b.tar.gz") [str "srv", str "files", str "b.tar.gz"]
          (.file [])).node = .file old ∧
        routeSubmitPost sampleWorld (uploadRequest [] (str "b.tar.gz") (str "hi")) =
          .returned ⟨200, [], str "done"⟩ env2 ∧
        ioutil_ReadFile env2 (filepath_Join [sampleWorld.wd, str "files", str "b.tar.gz"]) =
          .ok (overwrite old (str "hi")) :=
  upload_without_alias sampleWorld sampleWorld (uploadRequest [] (str "b.tar.gz") (str "hi"))
    (str "hi") ⟨str "b.tar.gz"⟩
    ⟨.sub (str "srv") (.sub (str "files")
      (.file (str "a.txt") (str "hello world") (.file (str "b.tar.gz") [] .nil)) .nil)
      (.sub (str "tmp") .nil .nil), str "/srv", none, str "/tmp"⟩
    ⟨str "/srv/files/b.tar.gz", [str "srv", str "files", str "b.tar.gz"], .file []⟩
    rfl rfl rfl rfl rfl rfl (by decide)

/-! ## JSON arrays of entries: decoding what `json.Marshal` wrote -/

theorem jsonChars_quote (r : Str) : jsonChars (34 :: r) = some ([], r) := by
  rw [jsonChars.eq_def]
  simp

theorem jsonChars_plain (b : Nat) (X s r : Str) (h1 : b ≠ 34) (h2 : b ≠ 92) (h3 : ¬ b < 32)
    (h : jsonChars X = some (s, r)) : jsonChars (b :: X) = some (b :: s, r) := by
  rw [jsonChars.eq_def]
  simp only [if_neg h1, if_neg h2, if_neg h3, h]

theorem jsonChars_esc (e c : Nat) (X s r : Str) (h1 : e ≠ 117) (h2 : unescape e = some c)
    (h : jsonChars X = some (s, r)) : jsonChars (92 :: e :: X) = some (c :: s, r) := by
  rw [jsonChars.eq_def]
  simp only [if_neg h1, h2, h]
  simp

theorem jsonChars_u (h1 h2 h3 h4 x1 x2 x3 x4 : Nat) (X s r : Str)
    (e1 : unhex h1 = some x1) (e2 : unhex h2 = some x2) (e3 : unhex h3 = some x3)
    (e4 : unhex h4 = some x4)
    (hs : ¬ (55296 ≤ x1 * 4096 + x2 * 256 + x3 * 16 + x4 ∧
      x1 * 4096 + x2 * 256 + x3 * 16 + x4 < 57344))
    (h : jsonChars X = some (s, r)) :
    jsonChars (92 :: 117 :: h1 :: h2 :: h3 :: h4 :: X) =
      some (utf8Encode (x1 * 4096 + x2 * 256 + x3 * 16 + x4) ++ s, r) := by
  rw [jsonChars.eq_def]
  simp only [e1, e2, e3, e4, h, if_neg hs]
  simp

theorem jsonEscape_cases : ∀ b, b < 128 → htmlSafe b = false →
    (jsonEscape b = [92, (jsonEscape b).getD 1 0] ∧ (jsonEscape b).getD 1 0 ≠ 117 ∧
        unescape ((jsonEscape b).getD 1 0) = some b) ∨
      (jsonEscape b = [92, 117, 48, 48, hexDigit (b / 16), hexDigit (b % 16)] ∧
        unhex (hexDigit (b / 16)) = some (b / 16) ∧
        unhex (hexDigit (b % 16)) = some (b % 16)) := by
  decide

theorem jsonChars_escape (b : Nat) (X s r : Str) (hb : b < 128) (hs : htmlSafe b = false)
    (h : jsonChars X = some (s, r)) : jsonChars (jsonEscape b ++ X) = some (b :: s, r) := by
  rcases jsonEscape_cases b hb hs with ⟨h1, h2, h3⟩ | ⟨h1, h2, h3⟩
  · rw [h1]
    exact jsonChars_esc _ b X s r h2 h3 h
  · rw [h1]
    have h0 : unhex 48 = some 0 := by decide
    have hcp : 0 * 4096 + 0 * 256 + b / 16 * 16 + b % 16 = b := by omega
    have := jsonChars_u 48 48 (hexDigit (b / 16)) (hexDigit (b % 16)) 0 0 (b / 16) (b % 16) X s r
      h0 h0 h2 h3 (by omega) h
    rw [hcp] at this
    simpa [utf8Encode, hb] using this

theorem jsonStringLoop_zero (s : Str) : jsonStringLoop false 0 s = jsonStringLoop true 0 s := by
  rcases s with _ | ⟨b, t⟩
  · simp [jsonStringLoop]
  · rw [jsonStringLoop, jsonStringLoop]

/-- The bytes after the first of an accepted UTF-8 sequence are 128 or more. -/
theorem utf8Len_tail (b : Nat) (t : Str) (h : utf8Len (b :: t) ≠ 0) :
    ∀ c ∈ t.take (utf8Len (b :: t) - 1), 128 ≤ c := by
  rcases t with _ | ⟨b1, t⟩
  · simp [utf8Len] at h
  · have key : ∀ L, utf8Len (b :: b1 :: t) = L → L ≠ 0 → ∀ c ∈ (b1 :: t).take (L - 1), 128 ≤ c := by
      intro L hL hne
      have hlo : 128 ≤ (if b = 224 then 160 else if b = 240 then 144 else 128) := by
        split_ifs <;> omega
      simp only [utf8Len] at hL
      generalize (if b = 224 then 160 else if b = 240 then 144 else 128) = lo at hL hlo
      generalize (if b = 237 then 159 else if b = 244 then 143 else 191) = hi at hL
      split_ifs at hL with h1 h2 h3 h4
      · subst hL
        intro c hc
        simp at hc
        omega
      · rcases t with _ | ⟨b2, t⟩
        · exact absurd hL.symm hne
        · simp only at hL
          split_ifs at hL with h5
          · subst hL
            intro c hc
            simp only [utf8Cont, decide_eq_true_eq] at h5
            simp at hc
            omega
          · exact absurd hL.symm hne
      · rcases t with _ | ⟨b2, _ | ⟨b3, t⟩⟩
        · exact absurd hL.symm hne
        · exact absurd hL.symm hne
        · simp only at hL
          split_ifs at hL with h5
          · subst hL
            intro c hc
            simp only [utf8Cont, decide_eq_true_eq] at h5
            simp at hc
            omega
          · exact absurd hL.symm hne
      · exact absurd hL.symm hne
      · exact absurd hL.symm hne
    exact key _ rfl h

/-- Decoding undoes the string encoder on well-formed UTF-8. -/
theorem jsonChars_loop (rest : Str) :
    ∀ (n : Nat) (s : Str) (k : Nat), s.length ≤ n → utf8ValidFrom k s = true →
      (∀ c ∈ s.take k, 128 ≤ c) →
      jsonChars (jsonStringLoop true k s ++ 34 :: rest) = some (s, rest) := by
  intro n
  induction n with
  | zero =>
    intro s k hlen _ _
    have : s = [] := List.length_eq_zero.mp (Nat.le_zero.mp hlen)
    subst this
    simpa [jsonStringLoop] using jsonChars_quote rest
  | succ n ih =>
    intro s k hlen hv hk
    rcases s with _ | ⟨b, t⟩
    · simpa [jsonStringLoop] using jsonChars_quote rest
    · have hlen1 : t.length ≤ n := by simpa using hlen
      rcases k with _ | k
      · rw [utf8ValidFrom] at hv
        rw [jsonStringLoop]
        by_cases hb : b < 128
        · rw [if_pos hb] at hv ⊢
          have ht := ih t 0 hlen1 hv (by simp)
          by_cases hs : htmlSafe b = true
          · rw [if_pos hs]
            have := htmlSafe_bounds hs
            simp only [List.singleton_append, List.cons_append]
            exact jsonChars_plain b _ t rest (by omega) (by omega) (by omega) ht
          · rw [if_neg hs, List.append_assoc]
            exact jsonChars_escape b _ t rest hb (by simpa using hs) ht
        · rw [if_neg hb] at hv ⊢
          by_cases hz : utf8Len (b :: t) = 0
          · simp [hz] at hv
          · rw [if_neg hz] at hv ⊢
            by_cases hu : b = 226 ∧ t.head? = some 128 ∧
                (t.tail.head? = some 168 ∨ t.tail.head? = some 169)
            · rw [if_pos hu]
              obtain ⟨hb1, ht1, ht2⟩ := hu
              rcases t with _ | ⟨b1, _ | ⟨b2, t2⟩⟩
              · simp at ht1
              · simp at ht2
              · simp only [List.head?_cons, Option.some.injEq, List.tail_cons] at ht1 ht2
                subst hb1 ht1
                have hL : utf8Len (226 :: 128 :: b2 :: t2) = 3 := by
                  rcases ht2 with h | h <;> subst h <;> simp [utf8Len, utf8Cont]
                rw [hL] at hv
                simp only [Nat.add_one_sub_one, utf8ValidFrom] at hv
                have ht := ih t2 0 (by simp at hlen1; omega) hv (by simp)
                simp only [jsonStringLoop, List.headD_cons, List.tail_cons, if_false,
                  List.nil_append, jsonStringLoop_zero, List.cons_append]
                have e2 : unhex 50 = some 2 := by decide
                have e0 : unhex 48 = some 0 := by decide
                rcases ht2 with h | h
                · subst h
                  have := jsonChars_u 50 48 50 (hexDigit (168 % 16)) 2 0 2 8 _ t2 rest e2 e0 e2
                    (by decide) (by omega) ht
                  simpa [utf8Encode] using this
                · subst h
                  have := jsonChars_u 50 48 50 (hexDigit (169 % 16)) 2 0 2 9 _ t2 rest e2 e0 e2
                    (by decide) (by omega) ht
                  simpa [utf8Encode] using this
            · rw [if_neg hu]
              have ht := ih t (utf8Len (b :: t) - 1) hlen1 hv (utf8Len_tail b t hz)
              simp only [List.cons_append]
              exact jsonChars_plain b _ t rest (by omega) (by omega) (by omega) ht
      · rw [utf8ValidFrom] at hv
        rw [jsonStringLoop]
        have hb : 128 ≤ b := hk b (by simp)
        have ht := ih t k hlen1 hv (fun c hc => hk c (by simp [hc]))
        simp only [if_true, List.singleton_append, List.cons_append]
        exact jsonChars_plain b _ t rest (by omega) (by omega) (by omega) ht

theorem jsonStringAt_marshal (s rest : Str) (h : utf8Valid s = true) :
    jsonStringAt (json_Marshal_string s ++ rest) = some (s, rest) := by
  simp only [json_Marshal_string, List.singleton_append, List.cons_append, List.append_assoc,
    List.nil_append, jsonStringAt, if_true]
  exact jsonChars_loop rest s.length s 0 (le_refl _) h (by simp)

theorem jsonEntryAt_marshal (e : Entry) (rest : Str) (h1 : utf8Valid e.filename = true)
    (h2 : utf8Valid e.path = true) : jsonEntryAt (json_Marshal_M e ++ rest) = some (e, rest) := by
  have k1 : utf8Valid (str "filename") = true := by decide
  have k2 : utf8Valid (str "path") = true := by decide
  simp only [json_Marshal_M, List.singleton_append, List.cons_append, List.append_assoc,
    jsonEntryAt, expectByte, if_true, Option.bind_eq_bind, Option.some_bind,
    jsonStringAt_marshal _ _ k1, jsonStringAt_marshal _ _ k2, jsonStringAt_marshal _ _ h1,
    jsonStringAt_marshal _ _ h2, ne_eq, not_true_eq_false, if_false, List.nil_append]

theorem json_Marshal_M_ne_nil (e : Entry) : json_Marshal_M e ≠ [] := by
  simp [json_Marshal_M]

theorem jsonEntries_marshal (es : List Entry) :
    ∀ (e : Entry) (fuel : Nat), es.length < fuel →
      (∀ x ∈ e :: es, utf8Valid x.filename = true ∧ utf8Valid x.path = true) →
      jsonEntries fuel (strings_Join [44] ((e :: es).map json_Marshal_M) ++ [93]) =
        some (e :: es) := by
  induction es with
  | nil =>
    intro e fuel hf hv
    rcases fuel with _ | fuel
    · omega
    · have h := hv e (by simp)
      simp [strings_Join, jsonEntries, jsonEntryAt_marshal e [93] h.1 h.2]
  | cons e1 es ih =>
    intro e fuel hf hv
    rcases fuel with _ | fuel
    · omega
    · have h := hv e (by simp)
      have hrec := ih e1 fuel (by simpa using hf) (fun x hx => hv x (by simp [hx]))
      simp only [List.map_cons] at hrec ⊢
      rw [strings_Join_cons_cons, List.append_assoc, List.append_assoc, jsonEntries,
        jsonEntryAt_marshal e _ h.1 h.2]
      simp only [List.singleton_append, hrec]
      simp

theorem strings_Join_length (l : List Str) (h : ∀ x ∈ l, x ≠ []) :
    l.length ≤ (strings_Join [44] l).length := by
  induction l with
  | nil => simp
  | cons a t ih =>
    have ha : 0 < a.length := List.length_pos.mpr (h a (by simp))
    rcases t with _ | ⟨b, t⟩
    · simp only [strings_Join, List.length_singleton]
      omega
    · rw [strings_Join_cons_cons]
      have := ih (fun x hx => h x (by simp [hx]))
      simp only [List.length_append, List.length_cons] at this ⊢
      omega

/-- Decoding the JSON array written for `files` gives `files` back when all
their strings are well-formed UTF-8. -/
theorem json_files_round_trip (files : List Entry)
    (hv : ∀ x ∈ files, utf8Valid x.filename = true ∧ utf8Valid x.path = true) :
    json_Unmarshal_files (json_Marshal_files files) = some files := by
  rcases files with _ | ⟨e, es⟩
  · rfl
  · have hne : strings_Join [44] ((e :: es).map json_Marshal_M) ++ [93] ≠ [93] := by
      rcases es with _ | ⟨e1, es⟩
      · simp [strings_Join, json_Marshal_M]
      · simp [strings_Join_cons_cons, json_Marshal_M]
    have hlen := strings_Join_length ((e :: es).map json_Marshal_M) (by
      intro x hx
      obtain ⟨y, _, hy⟩ := List.mem_map.mp hx
      rw [← hy]
      exact json_Marshal_M_ne_nil y)
    simp only [json_Marshal_files, List.singleton_append, List.cons_append, List.nil_append,
      json_Unmarshal_files, ne_eq, not_true_eq_false, if_false, if_neg hne]
    apply jsonEntries_marshal es e _ _ hv
    simp only [List.length_map, List.length_cons, List.length_append, List.length_singleton]
      at hlen ⊢
    omega

/-! ## The listing -/

/-- A walk that ends without error has appended the entries of the tree. -/
theorem walkDir_ok (d : Dir) :
    ∀ (path : Str) (s s1 : List Entry),
      walkDir listFilesFn path d s = (s1, none) → s1 = s ++ d.entries path := by
  induction d with
  | nil =>
    intro path s s1 h
    simp only [walkDir, Prod.mk.injEq, and_true] at h
    simp [Dir.entries, h]
  | file n c rest ih =>
    intro path s s1 h
    rcases hp : pathErr (filepath_Join [path, n]) with _ | e
    · simp only [walkDir, lstatEntry, hp, listFilesFn, Bool.false_eq_true, if_false] at h
      rw [ih path _ s1 h]
      simp [Dir.entries]
    · simp [walkDir, lstatEntry, hp, listFilesFn] at h
  | special n rest ih =>
    intro path s s1 h
    rcases hp : pathErr (filepath_Join [path, n]) with _ | e
    · simp only [walkDir, lstatEntry, hp, listFilesFn, Bool.false_eq_true, if_false] at h
      rw [ih path _ s1 h]
      simp [Dir.entries]
    · simp [walkDir, lstatEntry, hp, listFilesFn] at h
  | sub n ch rest ihc ihr =>
    intro path s s1 h
    rcases hp : pathErr (filepath_Join [path, n]) with _ | e
    · simp only [walkDir, lstatEntry, hp, listFilesFn, if_true] at h
      rcases hw : walkDir listFilesFn (filepath_Join [path, n]) ch s with ⟨s2, _ | e⟩
      · rw [hw] at h
        simp only at h
        rw [ihr path _ s1 h, ihc _ _ s2 hw]
        simp [Dir.entries]
      · rw [hw] at h
        simp at h
    · simp [walkDir, lstatEntry, hp, listFilesFn] at h

/-- The walk of a directory of regular files none of whose paths is refused. -/
theorem walkDir_flat (d : Dir) :
    ∀ (path : Str) (s : List Entry), d.flat →
      (∀ n ∈ d.names, pathErr (filepath_Join [path, n]) = none) →
      walkDir listFilesFn path d s = (s ++ d.entries path, none) := by
  induction d with
  | nil => intro path s _ _; simp [walkDir, Dir.entries]
  | file n c rest ih =>
    intro path s hf hp
    have h1 := hp n (by simp [Dir.names])
    simp only [walkDir, lstatEntry, h1, listFilesFn, Bool.false_eq_true, if_false]
    rw [ih path _ hf (fun m hm => hp m (by simp [Dir.names, hm]))]
    simp [Dir.entries]
  | special n rest _ => intro path s hf _; exact absurd hf (by simp [Dir.flat])
  | sub n ch rest _ _ => intro path s hf _; exact absurd hf (by simp [Dir.flat])

theorem join_plain (T : List Str) (n : Str) (hne : T ≠ []) (hT : ∀ e ∈ T, plainName e)
    (hn : plainName n) : filepath_Join [rootedPath T, n] = rootedPath (T ++ [n]) := by
  rw [rootedPath, (filepath_Join_two _ n).1, split_Join T hne (plain_no_sep hT),
    split_no_sep_eq n hn.2.1, foldl_stackStep_plain_id T hT]
  simp only [List.nil_append, List.foldl_cons, List.foldl_nil]
  have h1 : ¬ (n = [] ∨ n = [dot]) := fun h => h.elim hn.1 hn.2.2.1
  simp only [stackStep, if_neg h1, if_neg hn.2.2.2]

theorem nonDirs_ne_nil (d : Dir) : ∀ p ∈ d.nonDirs, p ≠ [] := by
  induction d with
  | nil => simp [Dir.nonDirs]
  | file n c rest ih =>
    intro p hp
    simp only [Dir.nonDirs, List.mem_cons] at hp
    rcases hp with h | h
    · simp [h]
    · exact ih p h
  | special n rest ih =>
    intro p hp
    simp only [Dir.nonDirs, List.mem_cons] at hp
    rcases hp with h | h
    · simp [h]
    · exact ih p h
  | sub n ch rest _ ihr =>
    intro p hp
    simp only [Dir.nonDirs, List.mem_append, List.mem_map] at hp
    rcases hp with ⟨q, _, h⟩ | h
    · simp [← h]
    · exact ihr p h

theorem entries_eq (d : Dir) :
    ∀ T : List Str, T ≠ [] → (∀ e ∈ T, plainName e) → d.WF →
      d.entries (rootedPath T) = d.nonDirs.map (entryOf (rootedPath T)) := by
  induction d with
  | nil => intro T _ _ _; rfl
  | file n c rest ih =>
    intro T hne hT hwf
    obtain ⟨hn, _, hr⟩ := hwf
    simp only [Dir.entries, Dir.nonDirs, List.map_cons, ih T hne hT hr, join_plain T n hne hT hn]
    congr 1
    simp [entryOf, rootedPath_snoc, hne, strings_Join]
  | special n rest ih =>
    intro T hne hT hwf
    obtain ⟨hn, _, hr⟩ := hwf
    simp only [Dir.entries, Dir.nonDirs, List.map_cons, ih T hne hT hr, join_plain T n hne hT hn]
    congr 1
    simp [entryOf, rootedPath_snoc, hne, strings_Join]
  | sub n ch rest ihc ihr =>
    intro T hne hT hwf
    obtain ⟨hn, _, hc, hr⟩ := hwf
    have hT2 : ∀ e ∈ T ++ [n], plainName e := by
      intro e he
      rcases List.mem_append.mp he with h | h
      · exact hT e h
      · rw [List.mem_singleton.mp h]; exact hn
    simp only [Dir.entries, Dir.nonDirs, List.map_append, List.map_map,
      join_plain T n hne hT hn, ihc (T ++ [n]) (by simp) hT2 hc, ihr T hne hT hr]
    congr 1
    apply List.map_congr_left
    intro p hp
    have hpne := nonDirs_ne_nil ch p hp
    obtain ⟨a, t, hat⟩ := List.exists_cons_of_ne_nil hpne
    subst hat
    simp only [entryOf, Function.comp, List.getLastD_cons, Entry.mk.injEq]
    refine ⟨by simp [List.getLast?_cons_cons], ?_⟩
    rw [rootedPath_snoc, if_neg hne, strings_Join_cons_cons]
    simp

theorem find_none_of_not_mem (d : Dir) (n : Str) (h : n ∉ d.names) : d.find n = none := by
  induction d with
  | nil => rfl
  | file m c rest ih =>
    simp only [Dir.names, List.mem_cons, not_or] at h
    have hm : ¬ m = n := fun h1 => h.1 h1.symm
    simp [Dir.find, hm, ih h.2]
  | special m rest ih =>
    simp only [Dir.names, List.mem_cons, not_or] at h
    have hm : ¬ m = n := fun h1 => h.1 h1.symm
    simp [Dir.find, hm, ih h.2]
  | sub m ch rest _ ih =>
    simp only [Dir.names, List.mem_cons, not_or] at h
    have hm : ¬ m = n := fun h1 => h.1 h1.symm
    simp [Dir.find, hm, ih h.2]

theorem lookup_cons_not_mem (d : Dir) (n : Str) (es : List Str) (h : n ∉ d.names) :
    d.lookup (n :: es) = none := by
  simp [Dir.lookup, find_none_of_not_mem d n h]

theorem nonDirAt_nil (d : Dir) : ¬ nonDirAt d [] := by
  rintro ⟨n, h, hn⟩
  simp only [Dir.lookup, Option.some.injEq] at h
  subst h
  simp [Node.isDir] at hn

theorem nonDirAt_not_mem (d : Dir) (n : Str) (es : List Str) (h : n ∉ d.names) :
    ¬ nonDirAt d (n :: es) := by
  rintro ⟨m, hm, _⟩
  rw [lookup_cons_not_mem d n es h] at hm
  cases hm

/-- In a well-formed tree the list `nonDirs` holds exactly the locations at
which something other than a directory is found. -/
theorem mem_nonDirs (d : Dir) : d.WF → ∀ p, p ∈ d.nonDirs ↔ nonDirAt d p := by
  induction d with
  | nil =>
    intro _ p
    rcases p with _ | ⟨e, es⟩
    · simp [Dir.nonDirs, nonDirAt_nil]
    · simp [Dir.nonDirs, nonDirAt, Dir.lookup, Dir.find]
  | file n c rest ih =>
    intro hwf p
    obtain ⟨_, hnot, hr⟩ := hwf
    rcases p with _ | ⟨e, es⟩
    · have := (ih hr []).not.mpr (nonDirAt_nil rest)
      simp [Dir.nonDirs, nonDirAt_nil, this]
    · by_cases he : n = e
      · subst he
        have h1 : n :: es ∉ rest.nonDirs := fun h => nonDirAt_not_mem rest n es hnot ((ih hr _).mp h)
        by_cases hes : es = []
        · subst hes
          simp [Dir.nonDirs, nonDirAt, Dir.lookup, Dir.find, Node.isDir]
        · simp [Dir.nonDirs, nonDirAt, Dir.lookup, Dir.find, hes, h1]
      · have h1 : ¬ (e = n ∧ es = []) := fun h => he h.1.symm
        have h2 := ih hr (e :: es)
        simp only [nonDirAt, Dir.lookup] at h2
        simp [Dir.nonDirs, nonDirAt, Dir.lookup, Dir.find, he, h1, h2]
  | special n rest ih =>
    intro hwf p
    obtain ⟨_, hnot, hr⟩ := hwf
    rcases p with _ | ⟨e, es⟩
    · have := (ih hr []).not.mpr (nonDirAt_nil rest)
      simp [Dir.nonDirs, nonDirAt_nil, this]
    · by_cases he : n = e
      · subst he
        have h1 : n :: es ∉ rest.nonDirs := fun h => nonDirAt_not_mem rest n es hnot ((ih hr _).mp h)
        by_cases hes : es = []
        · subst hes
          simp [Dir.nonDirs, nonDirAt, Dir.lookup, Dir.find, Node.isDir]
        · simp [Dir.nonDirs, nonDirAt, Dir.lookup, Dir.find, hes, h1]
      · have h1 : ¬ (e = n ∧ es = []) := fun h => he h.1.symm
        have h2 := ih hr (e :: es)
        simp only [nonDirAt, Dir.lookup] at h2
        simp [Dir.nonDirs, nonDirAt, Dir.lookup, Dir.find, he, h1, h2]
  | sub n ch rest ihc ihr =>
    intro hwf p
    obtain ⟨_, hnot, hc, hr⟩ := hwf
    rcases p with _ | ⟨e, es⟩
    · have := (ihr hr []).not.mpr (nonDirAt_nil rest)
      simp [Dir.nonDirs, nonDirAt_nil, this]
    · by_cases he : n = e
      · subst he
        have h1 : n :: es ∉ rest.nonDirs := fun h => nonDirAt_not_mem rest n es hnot ((ihr hr _).mp h)
        have h2 := ihc hc es
        simp only [nonDirAt] at h2
        simp [Dir.nonDirs, nonDirAt, Dir.lookup, Dir.find, h1, h2]
      · have h2 := ihr hr (e :: es)
        simp only [nonDirAt, Dir.lookup] at h2
        have h3 : ¬ ∃ a, a ∈ ch.nonDirs ∧ n :: a = e :: es := by
          rintro ⟨a, _, h⟩
          simp only [List.cons.injEq] at h
          exact he h.1
        simp only [Dir.nonDirs, List.mem_append, List.mem_map, h3, false_or, h2, nonDirAt,
          Dir.lookup, Dir.find, if_neg he]

theorem nodup_nonDirs (d : Dir) : d.WF → d.nonDirs.Nodup := by
  induction d with
  | nil => intro _; simp [Dir.nonDirs]
  | file n c rest ih =>
    intro hwf
    obtain ⟨_, hnot, hr⟩ := hwf
    have h1 : [n] ∉ rest.nonDirs :=
      fun h => nonDirAt_not_mem rest n [] hnot ((mem_nonDirs rest hr _).mp h)
    simp only [Dir.nonDirs, List.nodup_cons]
    exact ⟨h1, ih hr⟩
  | special n rest ih =>
    intro hwf
    obtain ⟨_, hnot, hr⟩ := hwf
    have h1 : [n] ∉ rest.nonDirs :=
      fun h => nonDirAt_not_mem rest n [] hnot ((mem_nonDirs rest hr _).mp h)
    simp only [Dir.nonDirs, List.nodup_cons]
    exact ⟨h1, ih hr⟩
  | sub n ch rest ihc ihr =>
    intro hwf
    obtain ⟨_, hnot, hc, hr⟩ := hwf
    simp only [Dir.nonDirs]
    rw [List.nodup_append]
    refine ⟨(ihc hc).map (fun a b h => by simpa using h), ihr hr, ?_⟩
    intro p hp1 hp2
    obtain ⟨a, _, ha⟩ := List.mem_map.mp hp1
    subst ha
    exact nonDirAt_not_mem rest n a hnot ((mem_nonDirs rest hr _).mp hp2)

/-- The stack of elements of the Storage Directory under a rooted working directory. -/
theorem filesLocation_eq (env : World) (dd : Str) (hwd : env.getwdErr = none)
    (hw : env.wd = sep :: dd) :
    filesLocation env = rootedPath ((strings_Split sep dd).foldl stackStep [] ++ [str "files"]) ∧
      ∀ e ∈ (strings_Split sep dd).foldl stackStep [] ++ [str "files"], plainName e := by
  constructor
  · simp only [filesLocation, os_Getwd, hwd, hw]
    exact storage_eq dd
  · intro e he
    rcases List.mem_append.mp he with h | h
    · exact foldl_stackStep_plain _ _ (by simp) (split_no_sep dd) e h
    · rw [List.mem_singleton.mp h]; exact files_plain

/-- The walk of `handleListFiles` over a Storage Directory that holds the tree `d`. -/
theorem walk_of_tree (env : World) (loc : List Str) (d : Dir)
    (hres : env.resolve (filesLocation env) = .ok (loc, .dir d)) :
    filepath_Walk env (filesLocation env) listFilesFn [] =
      walkDir listFilesFn (filesLocation env) d [] := by
  simp only [filepath_Walk, os_Lstat, hres, listFilesFn, if_true]

theorem handleListFiles_ok (env : World) (q : Request) (files : List Entry)
    (h : filepath_Walk env (filesLocation env) listFilesFn [] = (files, none)) :
    handleListFiles env q = .returned ⟨200, jsonHeader, json_Marshal_files files⟩ env := by
  simp only [handleListFiles, h]
  rfl

/-- C7: when the Storage Directory exists, holds a well-formed tree (entry names
plain and distinct within a directory) and is walked without error,
`handleListFiles` answers with status 200, `Content-Type: application/json` and
the JSON array of `files`, which has one entry for every entry of the tree that
is not a directory, at any depth (regular files, and also special entries such as
sockets or symbolic links): the `filename` is the last entry name and the `path`
is the path of the Storage Directory followed by the names on the way, joined by
`/`.  That list has no repetition and holds exactly the locations at which
something other than a directory is found.  When all these strings are
well-formed UTF-8, decoding the body gives `files` back; and when the tree holds
directories only, the body is `[]`. -/
theorem listing_enumerates_non_directories (env : World) (q : Request) (loc : List Str)
    (d : Dir) (files : List Entry)
    (hwd : env.getwdErr = none) (hroot : env.wd.head? = some sep)
    (hstore : env.resolve (filesLocation env) = .ok (loc, .dir d)) (hwf : d.WF)
    (hwalk : filepath_Walk env (filesLocation env) listFilesFn [] = (files, none)) :
    handleListFiles env q = .returned ⟨200, jsonHeader, json_Marshal_files files⟩ env ∧
      files = d.nonDirs.map (entryOf (filesLocation env)) ∧
      d.nonDirs.Nodup ∧
      (∀ p, p ∈ d.nonDirs ↔ ∃ n, d.lookup p = some n ∧ n.isDir = false) ∧
      ((∀ e ∈ files, utf8Valid e.filename = true ∧ utf8Valid e.path = true) →
        json_Unmarshal_files (json_Marshal_files files) = some files) ∧
      ((∀ p n, d.lookup p = some n → n.isDir = true) →
        handleListFiles env q = .returned ⟨200, jsonHeader, str "[]"⟩ env) := by
  rcases hw : env.wd with _ | ⟨c, dd⟩
  · simp [hw] at hroot
  · have hc : c = sep := by simpa [hw] using hroot
    subst hc
    obtain ⟨hloc, hT⟩ := filesLocation_eq env dd hwd hw
    have hlist := handleListFiles_ok env q files hwalk
    rw [walk_of_tree env loc d hstore] at hwalk
    have hfiles := walkDir_ok d _ [] files hwalk
    rw [List.nil_append, hloc, entries_eq d _ (by simp) hT hwf, ← hloc] at hfiles
    refine ⟨hlist, hfiles, nodup_nonDirs d hwf, mem_nonDirs d hwf,
      json_files_round_trip files, ?_⟩
    intro hdirs
    have hnil : d.nonDirs = [] := by
      apply List.eq_nil_iff_forall_not_mem.mpr
      intro p hp
      obtain ⟨n, hn, hnd⟩ := (mem_nonDirs d hwf p).mp hp
      rw [hdirs p n hn] at hnd
      cases hnd
    rw [hlist, hfiles, hnil]
    rfl

/-- The listing of `treeWorld`: the file `a.txt`, the special entry `sock` and the
file `b` in the directory `sub`. -/
theorem listing_enumerates_non_directories_witness :
    handleListFiles treeWorld (plainRequest (str "GET") [] []) =
      .returned ⟨200, jsonHeader,
        json_Marshal_files [⟨str "a.txt", str "/srv/files/a.txt"⟩,
          ⟨str "sock", str "/srv/files/sock"⟩, ⟨str "b", str "/srv/files/sub/b"⟩]⟩ treeWorld :=
  (listing_enumerates_non_directories treeWorld (plainRequest (str "GET") [] [])
    [str "srv", str "files"]
    (.file (str "a.txt") (str "A") (.special (str "sock")
      (.sub (str "sub") (.file (str "b") (str "B") .nil) .nil)))
    [⟨str "a.txt", str "/srv/files/a.txt"⟩, ⟨str "sock", str "/srv/files/sock"⟩,
      ⟨str "b", str "/srv/files/sub/b"⟩]
    rfl (by decide) (by decide) (by decide) (by decide)).1

/-- C7, counterexample: a Storage Directory that holds nothing but a special entry
(a socket, or a symbolic link) is listed with one entry although the tree holds no
regular file; and a regular file whose name is the byte 255 is listed with the
`filename` escape of U+FFFD, which decodes to the three bytes 239, 191, 189, not
to the last path element of the file. -/
theorem listing_has_entry_for_special_file :
    (handleListFiles socketWorld (plainRequest (str "GET") [] []) =
        .returned ⟨200, jsonHeader,
          str "[\x7b\"filename\":\"sock\",\"path\":\"/srv/files/sock\"\x7d]"⟩ socketWorld ∧
      socketWorld.resolve (filesLocation socketWorld) =
        .ok ([str "srv", str "files"], .dir (.special (str "sock") .nil)) ∧
      ∀ p c, (Dir.special (str "sock") .nil).lookup p ≠ some (.file c)) ∧
    (handleListFiles latin1World (plainRequest (str "GET") [] []) =
        .returned ⟨200, jsonHeader,
          str "[\x7b\"filename\":\"\\ufffd\",\"path\":\"/srv/files/\\ufffd\"\x7d]"⟩ latin1World ∧
      json_Unmarshal_files
          (str "[\x7b\"filename\":\"\\ufffd\",\"path\":\"/srv/files/\\ufffd\"\x7d]") =
        some [⟨[239, 191, 189], str "/srv/files/" ++ [239, 191, 189]⟩] ∧
      ioutil_ReadFile latin1World (str "/srv/files/" ++ [255]) = .ok (str "A")) := by
  refine ⟨⟨by decide, by decide, ?_⟩, by decide, by decide, by decide⟩
  intro p c h
  rcases p with _ | ⟨e, es⟩
  · simp [Dir.lookup] at h
  · simp only [Dir.lookup, Dir.find] at h
    split at h <;> simp_all

/-! ## Listing after uploads -/

theorem names_insertFile (n c : Str) (d : Dir) : (d.insertFile n c).names.Perm (n :: d.names) := by
  induction d with
  | nil => simp [Dir.insertFile, Dir.names]
  | file m c1 rest ih =>
    by_cases hl : strLess n m = true
    · simp [Dir.insertFile, Dir.names, hl]
    · simp only [Dir.insertFile, hl, Dir.names]
      exact (List.Perm.cons m ih).trans (List.Perm.swap n m rest.names)
  | sub m ch rest _ ih =>
    by_cases hl : strLess n m = true
    · simp [Dir.insertFile, Dir.names, hl]
    · simp only [Dir.insertFile, hl, Dir.names]
      exact (List.Perm.cons m ih).trans (List.Perm.swap n m rest.names)
  | special m rest ih =>
    by_cases hl : strLess n m = true
    · simp [Dir.insertFile, Dir.names, hl]
    · simp only [Dir.insertFile, hl, Dir.names]
      exact (List.Perm.cons m ih).trans (List.Perm.swap n m rest.names)

theorem names_replaceFile (n c : Str) (d : Dir) : (d.replaceFile n c).names = d.names := by
  induction d with
  | nil => rfl
  | file m c1 rest ih =>
    by_cases hm : m = n <;> simp [Dir.replaceFile, Dir.names, hm, ih]
  | sub m ch rest _ ih =>
    by_cases hm : m = n <;> simp [Dir.replaceFile, Dir.names, hm, ih]
  | special m rest ih =>
    by_cases hm : m = n <;> simp [Dir.replaceFile, Dir.names, hm, ih]

theorem flat_insertFile (n c : Str) (d : Dir) (h : d.flat) : (d.insertFile n c).flat := by
  induction d with
  | nil => simp [Dir.insertFile, Dir.flat]
  | file m c1 rest ih =>
    by_cases hl : strLess n m = true
    · simpa [Dir.insertFile, Dir.flat, hl] using h
    · simpa [Dir.insertFile, Dir.flat, hl] using ih h
  | sub m ch rest _ _ => exact absurd h (by simp [Dir.flat])
  | special m rest _ => exact absurd h (by simp [Dir.flat])

theorem flat_replaceFile (n c : Str) (d : Dir) (h : d.flat) : (d.replaceFile n c).flat := by
  induction d with
  | nil => simp [Dir.replaceFile, Dir.flat]
  | file m c1 rest ih =>
    by_cases hm : m = n
    · simpa [Dir.replaceFile, Dir.flat, hm] using h
    · simpa [Dir.replaceFile, Dir.flat, hm] using ih h
  | sub m ch rest _ _ => exact absurd h (by simp [Dir.flat])
  | special m rest _ => exact absurd h (by simp [Dir.flat])

theorem uploadedDir_new (d : Dir) (n B : Str) (h : d.flat) (hn : n ∉ d.names) :
    (uploadedDir d n B).flat ∧ (uploadedDir d n B).names.Perm (n :: d.names) := by
  have hf := find_none_of_not_mem d n hn
  have h1 : d.setFile n [] = d.insertFile n [] := by simp [Dir.setFile, hf]
  have h2 : (d.insertFile n []).find n = some (.file []) := find_insertFile_same n [] d hf
  have h3 : (d.insertFile n []).setFile n (overwrite [] B) =
      (d.insertFile n []).replaceFile n (overwrite [] B) := by simp [Dir.setFile, h2]
  simp only [uploadedDir, hf, h1, h3]
  refine ⟨flat_replaceFile _ _ _ (flat_insertFile _ _ _ h), ?_⟩
  rw [names_replaceFile]
  exact names_insertFile n [] d

theorem flat_WF (d : Dir) (h : d.flat) (hp : ∀ n ∈ d.names, plainName n) (hn : d.names.Nodup) :
    d.WF := by
  induction d with
  | nil => trivial
  | file m c1 rest ih =>
    simp only [Dir.names, List.nodup_cons] at hn
    exact ⟨hp m (by simp [Dir.names]), hn.1,
      ih h (fun n hn1 => hp n (by simp [Dir.names, hn1])) hn.2⟩
  | sub m ch rest _ _ => exact absurd h (by simp [Dir.flat])
  | special m rest _ => exact absurd h (by simp [Dir.flat])

theorem nonDirs_flat (d : Dir) (h : d.flat) : d.nonDirs = d.names.map (fun n => [n]) := by
  induction d with
  | nil => rfl
  | file m c1 rest ih => simp [Dir.nonDirs, Dir.names, ih h]
  | sub m ch rest _ _ => exact absurd h (by simp [Dir.flat])
  | special m rest _ => exact absurd h (by simp [Dir.flat])

theorem location_plain_name (dd n : Str) (hn : plainName n) :
    filepath_Join [sep :: dd, str "files", n] =
      rootedPath (((strings_Split sep dd).foldl stackStep [] ++ [str "files"]) ++ [n]) := by
  rw [location_eq, split_no_sep_eq n hn.2.1]
  have h1 : ¬ (n = [] ∨ n = [dot]) := fun h => h.elim hn.1 hn.2.2.1
  simp only [List.foldl_cons, List.foldl_nil, stackStep, if_neg h1, if_neg hn.2.2.2]

theorem elems_congr (env env2 : World) (h : env2.wd = env.wd) (p : Str) :
    env2.elems p = env.elems p := by
  simp [World.elems, h]

/-- Parsing the multipart body leaves a directory as it was when the temporary
file is not at or below it. -/
theorem parse_frame (env : World) (r : Request) (env0 : World) (T : List Str)
    (hout : ¬ T <+: (env.elems (joinPath env.tmp r.tmpName)).foldl stackStep [])
    (h : ParseMultipartForm env r 1024 = .ok env0) :
    env0.root.lookup T = env.root.lookup T := by
  obtain ⟨_, _, _, h1 | ⟨c, h1⟩⟩ := parse_ok_inv env r 1024 env0 h
  · rw [h1]
  · rw [h1, putFile_frame _ _ _ T hout, putFile_frame _ _ _ T hout]

/-- Finishing the request leaves a directory as it was when the temporary file is
not at or below it. -/
theorem finishRequest_frame (env : World) (r : Request) (T : List Str) (d : Dir)
    (hout : ¬ T <+: (env.elems (joinPath env.tmp r.tmpName)).foldl stackStep [])
    (hl : env.root.lookup T = some (.dir d)) :
    (finishRequest env r).wd = env.wd ∧ (finishRequest env r).getwdErr = env.getwdErr ∧
      (finishRequest env r).tmp = env.tmp ∧
      (finishRequest env r).root.lookup T = some (.dir d) := by
  unfold finishRequest
  split
  · exact ⟨rfl, rfl, rfl, hl⟩
  · unfold os_Remove
    rcases hr : env.resolve (joinPath env.tmp r.tmpName) with e | ⟨loc, c | x | _⟩
    · exact ⟨rfl, rfl, rfl, hl⟩
    · have h1 := (resolve_ok_inv env _ loc _ hr).1
      subst h1
      exact ⟨rfl, rfl, rfl, removeFile_frame _ _ T d hout hl⟩
    · exact ⟨rfl, rfl, rfl, hl⟩
    · have h1 := (resolve_ok_inv env _ loc _ hr).1
      subst h1
      exact ⟨rfl, rfl, rfl, removeFile_frame _ _ T d hout hl⟩

theorem errorResponse_ne_done (code : Nat) (e : Str) (hc : code ≠ 200) :
    errorResponse code e ≠ ⟨200, [], str "done"⟩ := by
  intro h
  simp only [errorResponse, Response.mk.injEq] at h
  exact hc h.1

theorem openFile_refused (env : World) (name : Str) (e : Errno) (h : pathErr name = some e) :
    ∃ pe, os_OpenFile env name = .error pe := by
  unfold os_OpenFile openCreate
  simp only [h]
  split
  · exact ⟨_, rfl⟩
  · exact ⟨_, rfl⟩

/-- One upload of a new plain name into the flat directory at `T`, answered with
`done`, and the end of the request. -/
theorem upload_step (env envA : World) (r : Request) (dd : Str) (d : Dir)
    (hwd : env.getwdErr = none) (hw : env.wd = sep :: dd)
    (hout : ¬ ((strings_Split sep dd).foldl stackStep [] ++ [str "files"]) <+:
      (env.elems (joinPath env.tmp r.tmpName)).foldl stackStep [])
    (hl : env.root.lookup ((strings_Split sep dd).foldl stackStep [] ++ [str "files"]) =
      some (.dir d))
    (hflat : d.flat) (hplain : plainName r.storedName) (hnew : r.storedName ∉ d.names)
    (hdone : routeSubmitPost env r = .returned ⟨200, [], str "done"⟩ envA) :
    (finishRequest envA r).wd = env.wd ∧ (finishRequest envA r).getwdErr = env.getwdErr ∧
      (finishRequest envA r).tmp = env.tmp ∧
      pathErr (rootedPath (((strings_Split sep dd).foldl stackStep [] ++ [str "files"]) ++
        [r.storedName])) = none ∧
      ∃ d1, (finishRequest envA r).root.lookup
          ((strings_Split sep dd).foldl stackStep [] ++ [str "files"]) = some (.dir d1) ∧
        d1.flat ∧ d1.names.Perm (r.storedName :: d.names) := by
  have hT := (filesLocation_eq env dd hwd hw).2
  by_cases hm : r.Method = str "POST"
  · have hm2 : ¬ r.Method ≠ str "POST" := by simp [hm]
    rcases hp : ParseMultipartForm env r 1024 with e | env0
    · simp only [routeSubmitPost, if_neg hm2, hp, http_Error_new, Outcome.returned.injEq] at hdone
      exact absurd hdone.1 (errorResponse_ne_done _ _ (by decide))
    · obtain ⟨hw0, hg0, ht0, _⟩ := parse_ok_inv env r 1024 env0 hp
      have hl0 : env0.root.lookup ((strings_Split sep dd).foldl stackStep [] ++ [str "files"]) =
          some (.dir d) := by
        rw [parse_frame env r env0 _ hout hp, hl]
      rcases hfile : r.FormFile (str "file") with e | ⟨B, h⟩
      · simp only [routeSubmitPost, if_neg hm2, hp, hfile, http_Error_new,
          Outcome.returned.injEq] at hdone
        exact absurd hdone.1 (errorResponse_ne_done _ _ (by decide))
      · have hname : r.storedName = storedFilename (r.FormValue (str "alias")) h.Filename := by
          simp [Request.storedName, hfile]
        have hloc : fileLocation env0.wd (r.FormValue (str "alias")) h.Filename =
            rootedPath (((strings_Split sep dd).foldl stackStep [] ++ [str "files"]) ++
              [r.storedName]) := by
          rw [fileLocation, ← hname, hw0, hw, location_plain_name dd _ hplain]
        have hL : ∀ e ∈ ((strings_Split sep dd).foldl stackStep [] ++ [str "files"]) ++
            [r.storedName], plainName e := by
          intro e he
          rcases List.mem_append.mp he with h1 | h1
          · exact hT e h1
          · rw [List.mem_singleton.mp h1]; exact hplain
        have hg : os_Getwd env0 = .ok env0.wd := by simp [os_Getwd, hg0, hwd]
        rcases hpe : pathErr (rootedPath (((strings_Split sep dd).foldl stackStep [] ++
            [str "files"]) ++ [r.storedName])) with _ | e
        · have hfn := find_none_of_not_mem d _ hnew
          obtain ⟨env2, hret, hw2, hg2, ht2, hl2⟩ := upload_at env env0 r B h _ _ d hm hp hfile
            (by rw [hg0, hwd]) hloc hL hpe hl0 (Or.inl hfn)
          rw [hret] at hdone
          simp only [Outcome.returned.injEq, true_and] at hdone
          subst hdone
          have hout2 : ¬ ((strings_Split sep dd).foldl stackStep [] ++ [str "files"]) <+:
              (env2.elems (joinPath env2.tmp r.tmpName)).foldl stackStep [] := by
            rw [elems_congr env env2 (hw2.trans hw0), ht2, ht0]
            exact hout
          obtain ⟨f1, f2, f3, f4⟩ := finishRequest_frame env2 r _ _ hout2 hl2
          obtain ⟨hflat2, hperm2⟩ := uploadedDir_new d r.storedName B hflat hnew
          exact ⟨f1.trans (hw2.trans hw0), f2.trans (hg2.trans hg0), f3.trans (ht2.trans ht0),
            rfl, _, f4, hflat2, hperm2⟩
        · obtain ⟨pe, hpe2⟩ := openFile_refused env0 _ e hpe
          simp only [routeSubmitPost, if_neg hm2, hp, hfile, hg, hloc, hpe2, http_Error_new,
            Outcome.returned.injEq] at hdone
          exact absurd hdone.1 (errorResponse_ne_done _ _ (by decide))
  · have hm2 : r.Method ≠ str "POST" := hm
    simp only [routeSubmitPost, if_pos hm2, http_Error_new, Outcome.returned.injEq] at hdone
    exact absurd hdone.1 (errorResponse_ne_done _ _ (by decide))

/-- Uploads of new plain names into a flat directory, one after the other, each
answered with `done`. -/
theorem serveUploads_flat (dd : Str) (rs : List Request) :
    ∀ (env env1 : World) (d : Dir), env.getwdErr = none → env.wd = sep :: dd →
      env.root.lookup ((strings_Split sep dd).foldl stackStep [] ++ [str "files"]) =
        some (.dir d) →
      d.flat →
      (∀ n ∈ d.names, pathErr (rootedPath
        (((strings_Split sep dd).foldl stackStep [] ++ [str "files"]) ++ [n])) = none) →
      (∀ r ∈ rs, plainName r.storedName) →
      (∀ r ∈ rs, ¬ ((strings_Split sep dd).foldl stackStep [] ++ [str "files"]) <+:
        (env.elems (joinPath env.tmp r.tmpName)).foldl stackStep []) →
      (rs.map Request.storedName).Nodup → (∀ r ∈ rs, r.storedName ∉ d.names) →
      serveUploads env rs = some env1 →
      env1.getwdErr = none ∧ env1.wd = sep :: dd ∧
        ∃ d1, env1.root.lookup ((strings_Split sep dd).foldl stackStep [] ++ [str "files"]) =
            some (.dir d1) ∧
          d1.flat ∧ d1.names.Perm (d.names ++ rs.map Request.storedName) ∧
          ∀ n ∈ d1.names, pathErr (rootedPath
            (((strings_Split sep dd).foldl stackStep [] ++ [str "files"]) ++ [n])) = none := by
  induction rs with
  | nil =>
    intro env env1 d hwd hw hl hflat hpe _ _ _ _ hs
    simp only [serveUploads, Option.some.injEq] at hs
    subst hs
    exact ⟨hwd, hw, d, hl, hflat, by simp, hpe⟩
  | cons r rs ih =>
    intro env env1 d hwd hw hl hflat hpe hplain hout hnd hnew hs
    rw [serveUploads] at hs
    rcases ho : routeSubmitPost env r with ⟨resp, envA⟩ | msg | msg
    · rw [ho] at hs
      simp only at hs
      by_cases hresp : resp = ⟨200, [], str "done"⟩
      · rw [if_pos hresp] at hs
        subst hresp
        obtain ⟨f1, f2, f3, f4, d2, hl2, hflat2, hperm2⟩ := upload_step env envA r dd d hwd hw
          (hout r (by simp)) hl hflat (hplain r (by simp)) (hnew r (by simp)) ho
        simp only [List.map_cons, List.nodup_cons] at hnd
        have hnew2 : ∀ r1 ∈ rs, r1.storedName ∉ d2.names := by
          intro r1 hr1 hmem
          rcases List.mem_cons.mp (hperm2.subset hmem) with h1 | h1
          · exact hnd.1 (by rw [← h1]; exact List.mem_map_of_mem _ hr1)
          · exact hnew r1 (by simp [hr1]) h1
        have hpe2 : ∀ n ∈ d2.names, pathErr (rootedPath
            (((strings_Split sep dd).foldl stackStep [] ++ [str "files"]) ++ [n])) = none := by
          intro n hn
          rcases List.mem_cons.mp (hperm2.subset hn) with h1 | h1
          · rw [h1]; exact f4
          · exact hpe n h1
        have hout2 : ∀ r1 ∈ rs,
            ¬ ((strings_Split sep dd).foldl stackStep [] ++ [str "files"]) <+:
              ((finishRequest envA r).elems
                (joinPath (finishRequest envA r).tmp r1.tmpName)).foldl stackStep [] := by
          intro r1 hr1
          rw [elems_congr env _ f1, f3]
          exact hout r1 (by simp [hr1])
        obtain ⟨g1, g2, d1, hl1, hflat1, hperm1, hpe1⟩ :=
          ih (finishRequest envA r) env1 d2 (f2.trans hwd) (f1.trans hw) hl2 hflat2 hpe2
            (fun r1 hr1 => hplain r1 (by simp [hr1])) hout2 hnd.2 hnew2 hs
        refine ⟨g1, g2, d1, hl1, hflat1, ?_, hpe1⟩
        refine hperm1.trans ?_
        refine (List.Perm.append_right _ hperm2).trans ?_
        simp only [List.map_cons, List.cons_append]
        exact List.perm_middle.symm
      · rw [if_neg hresp] at hs
        cases hs
    · rw [ho] at hs
      cases hs
    · rw [ho] at hs
      cases hs

/-- A temporary file whose cleaned path is not within the directory with the
elements `T` is not at or below that directory. -/
theorem tmp_outside (env : World) (T : List Str) (nm : Str) (hT : T ≠ [])
    (htmp : env.tmp.head? = some sep)
    (h : isWithin (rootedPath T) (filepath_Clean (joinPath env.tmp nm)) = false) :
    ¬ T <+: (env.elems (joinPath env.tmp nm)).foldl stackStep [] := by
  have hj : ∃ X, joinPath env.tmp nm = sep :: X := by
    rcases ht : env.tmp with _ | ⟨c, tt⟩
    · simp [ht] at htmp
    · have hc : c = sep := by simpa [ht] using htmp
      subst hc
      unfold joinPath
      split
      · exact ⟨_, rfl⟩
      · exact ⟨_, rfl⟩
  obtain ⟨X, hX⟩ := hj
  rw [hX] at h ⊢
  rw [(filepath_Clean_rooted X).1] at h
  have he : env.elems (sep :: X) = [] :: strings_Split sep X := by
    simp [World.elems, strings_Split]
  rw [he]
  simp only [List.foldl_cons, stackStep, true_or, if_true]
  rintro ⟨F, hF⟩
  rw [← hF, isWithin_append T F hT] at h
  cases h

/-! ## Names the system refuses -/

/-- A path with an element of more than 255 bytes is refused. -/
theorem pathErr_long_element (p n : Str) (h0 : 0 ∉ p ++ sep :: n) (hs : sep ∉ n)
    (hl : 255 < n.length) : pathErr (p ++ sep :: n) = some .ENAMETOOLONG := by
  unfold pathErr
  rw [if_neg h0, if_pos]
  right
  rw [split_append_sep, split_no_sep_eq n hs]
  simp [hl]

/-- An upload whose location is refused is answered with status 500 and the text
of the error of `os.OpenFile`; nothing is stored. -/
theorem upload_refused_name (env env0 : World) (r : Request) (B : Str) (handler : FileHeader)
    (e : Errno) (hm : r.Method = str "POST") (hp : ParseMultipartForm env r 1024 = .ok env0)
    (hfile : r.FormFile (str "file") = .ok (B, handler)) (hwd : env0.getwdErr = none)
    (hpe : pathErr (fileLocation env0.wd (r.FormValue (str "alias")) handler.Filename) =
      some e) :
    routeSubmitPost env r =
      .returned (errorResponse 500 (PathError.Error ⟨str "open",
        fileLocation env0.wd (r.FormValue (str "alias")) handler.Filename, e⟩)) env0 := by
  have hm2 : ¬ r.Method ≠ str "POST" := by simp [hm]
  have hg : os_Getwd env0 = .ok env0.wd := by simp [os_Getwd, hwd]
  have hne : fileLocation env0.wd (r.FormValue (str "alias")) handler.Filename ≠ [] := by
    intro h
    rw [h] at hpe
    simp [pathErr, strings_Split] at hpe
  simp only [routeSubmitPost, if_neg hm2, hp, hfile, hg, os_OpenFile, openCreate, if_neg hne, hpe,
    http_Error_new]

/-- An alias with a NUL byte: the upload is answered with status 500. -/
theorem upload_name_with_nul_refused :
    routeSubmitPost emptyStore
        (uploadRequest (str "a" ++ [0] ++ str "b") (str "x.txt") (str "hi")) =
      .returned
        (errorResponse 500 (str "open /srv/files/a" ++ [0] ++ str "b.txt: invalid argument"))
        emptyStore := by
  decide

/-- A plain name of more than 255 bytes, uploaded into `emptyStore` without alias:
the upload is answered with status 500. -/
theorem upload_name_too_long_refused (n : Str) (hp : plainName n) (h0 : 0 ∉ n)
    (hl : 255 < n.length) :
    routeSubmitPost emptyStore (uploadRequest [] n (str "hi")) =
      .returned (errorResponse 500 (PathError.Error ⟨str "open",
        str "/srv/files" ++ sep :: n, .ENAMETOOLONG⟩)) emptyStore := by
  have hloc : fileLocation (str "/srv") [] n = str "/srv/files" ++ sep :: n := by
    have h1 : storedFilename [] n = n := by
      have : (str "" : Str) = [] := by decide
      simp [storedFilename, this]
    have h2 : str "/srv" = sep :: str "srv" := by decide
    have h3 : (strings_Split sep (str "srv")).foldl stackStep [] ++ [str "files"] =
        [str "srv", str "files"] := by decide
    have h4 : rootedPath [str "srv", str "files"] = str "/srv/files" := by decide
    rw [fileLocation, h1, h2, location_plain_name (str "srv") _ hp, h3, rootedPath_snoc,
      if_neg (by simp), h4]
  have hpe := pathErr_long_element (str "/srv/files") n
    (by
      intro h
      rcases List.mem_append.mp h with h1 | h1
      · revert h1; decide
      · rcases List.mem_cons.mp h1 with h2 | h2
        · simp [sep] at h2
        · exact h0 h2)
    hp.2.1 hl
  have := upload_refused_name emptyStore emptyStore (uploadRequest [] n (str "hi")) (str "hi")
    ⟨n⟩ .ENAMETOOLONG rfl rfl rfl rfl (by
      show pathErr (fileLocation (str "/srv") [] n) = _
      rw [hloc]; exact hpe)
  rw [this]
  show Outcome.returned (errorResponse 500 (PathError.Error ⟨str "open",
    fileLocation (str "/srv") [] n, .ENAMETOOLONG⟩)) emptyStore = _
  rw [hloc]

/-! ## Uploads that do not fit in memory -/

theorem removeFile_cons (e : Str) (T : List Str) (n : Str) (root : Dir) :
    root.removeFile (e :: T ++ [n]) = root.modifySub e (Dir.removeFile (T ++ [n])) := by
  rcases T with _ | ⟨e1, T⟩ <;> simp [Dir.removeFile]

theorem lookup_removeFile (n : Str) :
    ∀ (T : List Str) (root d : Dir), root.lookup T = some (.dir d) →
      (root.removeFile (T ++ [n])).lookup T = some (.dir (d.removeEntry n)) := by
  intro T
  induction T with
  | nil =>
    intro root d h
    simp only [Dir.lookup, Option.some.injEq, Node.dir.injEq] at h
    subst h
    simp [Dir.removeFile, Dir.lookup]
  | cons e T ih =>
    intro root d h
    simp only [Dir.lookup] at h
    rcases hf : root.find e with _ | ⟨c0 | d1 | _⟩
    · simp [hf] at h
    · rw [hf] at h
      by_cases hT : T = [] <;> simp [hT] at h
    · rw [hf] at h
      simp only at h
      rw [removeFile_cons]
      simp only [Dir.lookup, find_modifySub_same e _ root d1 hf]
      exact ih d1 d h
    · rw [hf] at h
      by_cases hT : T = [] <;> simp [hT] at h

/-- The end of a request whose temporary file is the regular file at the cleaned
rooted path with the elements `P ++ [n]`: the file is removed. -/
theorem finishRequest_removes (env : World) (r : Request) (P : List Str) (n c : Str) (d : Dir)
    (x : Str) (xs : List Str) (hs : spilled 1024 r.fileParts = x :: xs)
    (hpath : joinPath env.tmp r.tmpName = rootedPath (P ++ [n]))
    (hL : ∀ e ∈ P ++ [n], plainName e) (hpe : pathErr (rootedPath (P ++ [n])) = none)
    (hl : env.root.lookup P = some (.dir d)) (hf : d.find n = some (.file c)) :
    (finishRequest env r).wd = env.wd ∧ (finishRequest env r).getwdErr = env.getwdErr ∧
      (finishRequest env r).root.lookup P = some (.dir (d.removeEntry n)) := by
  have hlk : env.root.lookup (P ++ [n]) = some (.file c) := by
    rw [lookup_append, hl]
    simp [Dir.lookup, hf]
  have h : finishRequest env r = { env with root := env.root.removeFile (P ++ [n]) } := by
    simp only [finishRequest, hs, os_Remove, hpath, resolve_rooted env _ hL _ hpe hlk]
  rw [h]
  exact ⟨rfl, rfl, lookup_removeFile n P env.root d hl⟩

theorem spilled_big (field : Str) (h : FileHeader) (c : Str) (hc : 1024 < c.length) :
    spilled 1024 [⟨field, h, c⟩] = [c] := by
  simp [spilled, hc]

/-- An upload of more than 1024 bytes into `sampleWorld` under the plain name
`big.bin`: when the handler returns, the temporary file `/tmp/multipart-1` holds
the uploaded bytes. -/
theorem big_upload_leaves_tmp (c : Str) (hc : 1024 < c.length) :
    ∃ env2, routeSubmitPost sampleWorld (uploadRequest [] (str "big.bin") c) =
        .returned ⟨200, [], str "done"⟩ env2 ∧
      ioutil_ReadFile env2 (str "/tmp/multipart-1") = .ok c := by
  have hct : os_CreateTemp sampleWorld (str "/tmp") (str "multipart-1") =
      .ok (⟨.sub (str "srv")
          (.sub (str "files") (.file (str "a.txt") (str "hello world") .nil) .nil)
          (.sub (str "tmp") (.file (str "multipart-1") [] .nil) .nil),
        str "/srv", none, str "/tmp"⟩,
        ⟨str "/tmp/multipart-1", [str "tmp", str "multipart-1"], .file []⟩) := by
    decide
  have hparse := parse_spill sampleWorld _ (uploadRequest [] (str "big.bin") c) 1024 _ c []
    rfl (spilled_big _ _ c hc) hct
  have hov : overwrite [] [c].flatten = c := by simp [overwrite]
  simp only [hov] at hparse
  have hl0 : ∀ X : Str, (Dir.putFile [str "tmp", str "multipart-1"] X
      (.sub (str "srv")
        (.sub (str "files") (.file (str "a.txt") (str "hello world") .nil) .nil)
        (.sub (str "tmp") (.file (str "multipart-1") [] .nil) .nil))).lookup
        [str "srv", str "files"] =
      some (.dir (.file (str "a.txt") (str "hello world") .nil)) := by
    intro X
    rw [putFile_frame _ _ _ _ (by decide)]
    decide
  have hloc : fileLocation (str "/srv") [] (str "big.bin") =
      rootedPath ([str "srv", str "files"] ++ [str "big.bin"]) := by
    decide
  obtain ⟨env2, hret, _, _, _, _, hframe⟩ := upload_at_full sampleWorld _
    (uploadRequest [] (str "big.bin") c) c ⟨str "big.bin"⟩ [str "srv", str "files"]
    (str "big.bin") (.file (str "a.txt") (str "hello world") .nil) rfl hparse rfl rfl
    hloc (by decide) (by decide) (hl0 c) (Or.inl (by decide))
  refine ⟨env2, hret, ?_⟩
  have hlk : env2.root.lookup [str "tmp", str "multipart-1"] = some (.file c) := by
    rw [hframe _ (by decide)]
    exact lookup_putFile_file (str "multipart-1") c [str "tmp"] _
      (.file (str "multipart-1") [] .nil) (by decide) (Or.inr ⟨[], by decide⟩)
  have hpath : str "/tmp/multipart-1" = rootedPath [str "tmp", str "multipart-1"] := by decide
  rw [hpath]
  exact readFile_rooted env2 _ (by decide) c (by decide) hlk

/-- An upload of more than 1024 bytes into `tmpInStore`, where the temporary
files are made in the Storage Directory, under the name its temporary file has:
the upload is answered with `done`, and after the request the Storage Directory
is empty again. -/
theorem tmp_upload_is_removed (c : Str) (hc : 1024 < c.length) :
    ∃ env1, serveUploads tmpInStore [uploadRequest [] (str "multipart-1") c] = some env1 ∧
      handleListFiles env1 (plainRequest (str "GET") [] []) =
        .returned ⟨200, jsonHeader, str "[]"⟩ env1 := by
  have hct : os_CreateTemp tmpInStore (str "/srv/files") (str "multipart-1") =
      .ok (⟨.sub (str "srv") (.sub (str "files") (.file (str "multipart-1") [] .nil) .nil) .nil,
        str "/srv", none, str "/srv/files"⟩,
        ⟨str "/srv/files/multipart-1", [str "srv", str "files", str "multipart-1"],
          .file []⟩) := by
    decide
  have hs := spilled_big (str "file") ⟨str "multipart-1"⟩ c hc
  have hparse := parse_spill tmpInStore _ (uploadRequest [] (str "multipart-1") c) 1024 _ c []
    rfl hs hct
  have hov : overwrite [] [c].flatten = c := by simp [overwrite]
  simp only [hov] at hparse
  have hL : ∀ e ∈ [str "srv", str "files"] ++ [str "multipart-1"], plainName e := by decide
  have hpe : pathErr (rootedPath ([str "srv", str "files"] ++ [str "multipart-1"])) = none := by
    decide
  have hl0 : (Dir.putFile ([str "srv", str "files"] ++ [str "multipart-1"]) c
      (.sub (str "srv") (.sub (str "files") (.file (str "multipart-1") [] .nil) .nil)
        .nil)).lookup [str "srv", str "files"] =
      some (.dir ((Dir.file (str "multipart-1") [] .nil).setFile (str "multipart-1") c)) :=
    lookup_putFile (str "multipart-1") c [str "srv", str "files"] _ _ (by decide)
  have hd0 : (Dir.file (str "multipart-1") [] .nil).setFile (str "multipart-1") c =
      .file (str "multipart-1") c .nil := by
    simp [Dir.setFile, Dir.find, Dir.replaceFile]
  rw [hd0] at hl0
  have hloc : fileLocation (str "/srv") [] (str "multipart-1") =
      rootedPath ([str "srv", str "files"] ++ [str "multipart-1"]) := by
    decide
  obtain ⟨env2, hret, hw2, hg2, ht2, hl2, _⟩ := upload_at_full tmpInStore _
    (uploadRequest [] (str "multipart-1") c) c ⟨str "multipart-1"⟩ [str "srv", str "files"]
    (str "multipart-1") (.file (str "multipart-1") c .nil) rfl hparse rfl rfl
    hloc hL hpe hl0 (Or.inr ⟨c, by simp [Dir.find]⟩)
  have hd2 : uploadedDir (.file (str "multipart-1") c .nil) (str "multipart-1") c =
      .file (str "multipart-1") (overwrite c c) .nil := by
    simp [uploadedDir, Dir.setFile, Dir.find, Dir.replaceFile]
  rw [hd2] at hl2
  have hpath : joinPath env2.tmp (uploadRequest [] (str "multipart-1") c).tmpName =
      rootedPath ([str "srv", str "files"] ++ [str "multipart-1"]) := by
    rw [ht2]
    show joinPath (str "/srv/files") (str "multipart-1") = _
    decide
  obtain ⟨f1, f2, f3⟩ := finishRequest_removes env2 (uploadRequest [] (str "multipart-1") c)
    [str "srv", str "files"] (str "multipart-1") (overwrite c c) _ c [] hs hpath hL hpe hl2
    (by simp [Dir.find])
  have hd3 : (Dir.file (str "multipart-1") (overwrite c c) .nil).removeEntry
      (str "multipart-1") = .nil := by
    simp [Dir.removeEntry]
  rw [hd3] at f3
  refine ⟨finishRequest env2 (uploadRequest [] (str "multipart-1") c), ?_, ?_⟩
  · simp [serveUploads, hret]
  · have hwd1 : (finishRequest env2 (uploadRequest [] (str "multipart-1") c)).wd = str "/srv" :=
      f1.trans hw2
    have hg1 : (finishRequest env2 (uploadRequest [] (str "multipart-1") c)).getwdErr = none :=
      f2.trans hg2
    have hfl : filesLocation (finishRequest env2 (uploadRequest [] (str "multipart-1") c)) =
        rootedPath [str "srv", str "files"] := by
      simp only [filesLocation, os_Getwd, hg1, hwd1]
      decide
    have hres := resolve_rooted (finishRequest env2 (uploadRequest [] (str "multipart-1") c))
      [str "srv", str "files"] (by decide) _ (by decide) f3
    rw [← hfl] at hres
    have hwalk : filepath_Walk (finishRequest env2 (uploadRequest [] (str "multipart-1") c))
        (filesLocation (finishRequest env2 (uploadRequest [] (str "multipart-1") c)))
        listFilesFn [] = ([], none) := by
      rw [walk_of_tree _ _ .nil hres]
      rfl
    exact handleListFiles_ok _ _ [] hwalk

/-- C6, as the code has it: from an existing, empty Storage Directory (under a
rooted working directory), for every sequence of upload requests that are each
answered with `done`, whose computed filenames are plain names (not empty,
without `/`, neither `.` nor `..`) and pairwise distinct, and whose temporary
files (under a rooted `os.TempDir()`) do not lie within the Storage Directory,
`handleListFiles` then answers with status 200 and the JSON array of `files`,
which has exactly as many entries as uploads; the `filename`s of the entries are
the computed filenames, each once, and every `path` is the Storage Directory path
followed by `/` and the filename.  When all these strings are well-formed UTF-8,
decoding the body gives `files` back. -/
theorem listing_after_uploads (env env1 : World) (rs : List Request) (q : Request)
    (loc : List Str)
    (hwd : env.getwdErr = none) (hroot : env.wd.head? = some sep)
    (hempty : env.resolve (filesLocation env) = .ok (loc, .dir .nil))
    (htmp : env.tmp.head? = some sep)
    (hout : ∀ r ∈ rs,
      isWithin (filesLocation env) (filepath_Clean (joinPath env.tmp r.tmpName)) = false)
    (hplain : ∀ r ∈ rs, plainName r.storedName)
    (hdistinct : (rs.map Request.storedName).Nodup)
    (hserve : serveUploads env rs = some env1) :
    ∃ files,
      handleListFiles env1 q =
        .returned ⟨200, jsonHeader, json_Marshal_files files⟩ env1 ∧
      files.length = rs.length ∧
      (files.map Entry.filename).Perm (rs.map Request.storedName) ∧
      (∀ e ∈ files, e.path = filesLocation env ++ sep :: e.filename) ∧
      ((∀ e ∈ files, utf8Valid e.filename = true ∧ utf8Valid e.path = true) →
        json_Unmarshal_files (json_Marshal_files files) = some files) := by
  rcases hw : env.wd with _ | ⟨c, dd⟩
  · simp [hw] at hroot
  · have hc : c = sep := by simpa [hw] using hroot
    subst hc
    obtain ⟨hloc, hT⟩ := filesLocation_eq env dd hwd hw
    have hpe0 := resolve_ok_pathErr env _ _ hempty
    rw [hloc] at hempty hpe0
    have hl := (resolve_rooted_inv env _ hT loc _ hempty).2
    have hout2 : ∀ r ∈ rs, ¬ ((strings_Split sep dd).foldl stackStep [] ++ [str "files"]) <+:
        (env.elems (joinPath env.tmp r.tmpName)).foldl stackStep [] := by
      intro r hr
      apply tmp_outside env _ _ (by simp) htmp
      rw [← hloc]
      exact hout r hr
    obtain ⟨hwd1, hw1, d1, hl1, hflat1, hperm1, hpe1⟩ :=
      serveUploads_flat dd rs env env1 .nil hwd hw hl trivial (by simp [Dir.names]) hplain hout2
        hdistinct (by simp [Dir.names]) hserve
    simp only [Dir.names, List.nil_append] at hperm1
    have hplain1 : ∀ n ∈ d1.names, plainName n := by
      intro n hn
      obtain ⟨r, hr, hrn⟩ := List.mem_map.mp (hperm1.subset hn)
      rw [← hrn]
      exact hplain r hr
    have hwf : d1.WF := flat_WF d1 hflat1 hplain1 (hperm1.nodup_iff.mpr hdistinct)
    obtain ⟨hloc1, _⟩ := filesLocation_eq env1 dd hwd1 hw1
    have hres1 : env1.resolve (filesLocation env1) =
        .ok ((strings_Split sep dd).foldl stackStep [] ++ [str "files"], .dir d1) := by
      rw [hloc1]
      exact resolve_rooted env1 _ hT _ hpe0 hl1
    have hwalk : filepath_Walk env1 (filesLocation env1) listFilesFn [] =
        (d1.names.map (fun n => entryOf (filesLocation env) [n]), none) := by
      rw [walk_of_tree env1 _ d1 hres1, hloc1, walkDir_flat d1 _ [] hflat1
          (fun n hn => by rw [join_plain _ n (by simp) hT (hplain1 n hn)]; exact hpe1 n hn),
        List.nil_append, entries_eq d1 _ (by simp) hT hwf, nonDirs_flat d1 hflat1, List.map_map,
        hloc]
      rfl
    refine ⟨_, handleListFiles_ok env1 q _ hwalk, ?_, ?_, ?_, json_files_round_trip _⟩
    · rw [List.length_map, hperm1.length_eq, List.length_map]
    · rw [List.map_map]
      have : (Entry.filename ∘ fun n => entryOf (filesLocation env) [n]) = id := by
        funext n
        simp [entryOf]
      rw [this, List.map_id]
      exact hperm1
    · intro e he
      obtain ⟨n, _, hn⟩ := List.mem_map.mp he
      rw [← hn]
      simp [entryOf, strings_Join]

/-- Two uploads into `emptyStore`, one without and one with an alias. -/
theorem listing_after_uploads_witness :
    ∃ files,
      handleListFiles twoUploadsWorld (plainRequest (str "GET") [] []) =
        .returned ⟨200, jsonHeader, json_Marshal_files files⟩ twoUploadsWorld ∧
      files.length = [uploadRequest [] (str "b.txt") (str "B"),
        uploadRequest (str "a") (str "x.png") (str "A")].length ∧
      (files.map Entry.filename).Perm
        ([uploadRequest [] (str "b.txt") (str "B"),
          uploadRequest (str "a") (str "x.png") (str "A")].map Request.storedName) ∧
      (∀ e ∈ files, e.path = filesLocation emptyStore ++ sep :: e.filename) ∧
      ((∀ e ∈ files, utf8Valid e.filename = true ∧ utf8Valid e.path = true) →
        json_Unmarshal_files (json_Marshal_files files) = some files) :=
  listing_after_uploads emptyStore twoUploadsWorld
    [uploadRequest [] (str "b.txt") (str "B"), uploadRequest (str "a") (str "x.png") (str "A")]
    (plainRequest (str "GET") [] []) [str "srv", str "files"] rfl (by decide) (by decide)
    (by decide) (by decide) (by decide) (by decide) (by decide)

/-- C6 as stated fails: from the empty Storage Directory `/srv/files`, one upload
with the alias `../x` and the original filename `a.txt` is answered with `done`
(the file is `/srv/x.txt`), and the listing then is the empty array, not an array
of one entry.  It also fails for a plain name when the temporary file of the
upload is the stored file: with `os.TempDir()` the Storage Directory, an upload of
1025 bytes under the name the temporary file has drawn is answered with `done`,
the file is removed when the request ends, and the listing is the empty array. -/
theorem listing_misses_escaped_upload :
    (serveUploads emptyStore [uploadRequest (str "../x") (str "a.txt") (str "hi")] =
        some escapedWorld ∧
      handleListFiles escapedWorld (plainRequest (str "GET") [] []) =
        .returned ⟨200, jsonHeader, str "[]"⟩ escapedWorld) ∧
    ∃ env1,
      serveUploads tmpInStore [uploadRequest [] (str "multipart-1") (List.replicate 1025 120)] =
        some env1 ∧
      handleListFiles env1 (plainRequest (str "GET") [] []) =
        .returned ⟨200, jsonHeader, str "[]"⟩ env1 :=
  ⟨by decide, tmp_upload_is_removed (List.replicate 1025 120)
    (by rw [List.length_replicate]; decide)⟩

/-! ## What an upload changes -/

/-- A write changes the regular file at its location only. -/
theorem putFile_file_frame (c : Str) (L : List Str) :
    ∀ (root : Dir) (q : List Str) (c1 : Str),
      (root.putFile L c).lookup q = some (.file c1) →
        q = L ∨ root.lookup q = some (.file c1) := by
  induction L with
  | nil => intro root q c1 h; right; simpa [Dir.putFile] using h
  | cons e es ih =>
    intro root q c1 h
    rcases q with _ | ⟨x, xs⟩
    · simp [Dir.lookup] at h
    · rcases es with _ | ⟨e1, es⟩
      · simp only [Dir.putFile, Dir.lookup] at h ⊢
        by_cases hx : x = e
        · subst hx
          rcases hf : root.find x with _ | ⟨c0 | d0 | _⟩
          · rw [find_setFile_same x c root (Or.inl hf)] at h
            by_cases hxs : xs = []
            · left; simp [hxs]
            · simp [hxs] at h
          · rw [find_setFile_same x c root (Or.inr ⟨c0, hf⟩)] at h
            by_cases hxs : xs = []
            · left; simp [hxs]
            · simp [hxs] at h
          · rw [find_setFile_keep x c root _ hf rfl] at h
            right; exact h
          · rw [find_setFile_keep x c root _ hf rfl] at h
            right; exact h
        · rw [find_setFile_other e c x root hx] at h
          right; exact h
      · simp only [Dir.putFile, Dir.lookup] at h ⊢
        by_cases hx : x = e
        · subst hx
          rcases hf : root.find x with _ | ⟨c0 | d0 | _⟩
          · rw [find_modifySub_not_dir x _ root (by simp [hf]), hf] at h
            simp at h
          · rw [find_modifySub_not_dir x _ root (by simp [hf]), hf] at h
            right; exact h
          · rw [find_modifySub_same x _ root d0 hf] at h
            simp only at h
            rcases ih d0 xs c1 h with h1 | h1
            · left; rw [h1]
            · right; exact h1
          · rw [find_modifySub_not_dir x _ root (by simp [hf]), hf] at h
            right; exact h
        · rw [find_modifySub_other e x _ root hx] at h
          right; exact h

theorem os_Getwd_ok (env : World) (dir : Str) (h : os_Getwd env = .ok dir) : dir = env.wd := by
  unfold os_Getwd at h
  split at h
  · cases h
  · cases h; rfl

/-- Parsing the multipart body leaves every regular file as it was, except the
temporary file. -/
theorem parse_file_frame (env : World) (r : Request) (env0 : World)
    (h : ParseMultipartForm env r 1024 = .ok env0) (q : List Str) (c1 : Str)
    (hq : env0.root.lookup q = some (.file c1)) :
    env.root.lookup q = some (.file c1) ∨ q = env.location (joinPath env.tmp r.tmpName) := by
  obtain ⟨_, _, _, h1 | ⟨c, h1⟩⟩ := parse_ok_inv env r 1024 env0 h
  · left; rw [← h1]; exact hq
  · rw [h1] at hq
    rcases putFile_file_frame _ _ _ q c1 hq with h2 | h2
    · right; exact h2
    · rcases putFile_file_frame _ _ _ q c1 h2 with h3 | h3
      · right; exact h3
      · left; exact h3

/-- An upload leaves every regular file as it was, except the one at its location
and the temporary file of the multipart parser. -/
theorem upload_frame (env : World) (r : Request) (resp : Response) (env2 : World) (dd : Str)
    (hw : env.wd = sep :: dd) (h : routeSubmitPost env r = .returned resp env2)
    (q : List Str) (c1 : Str) (hq : env2.root.lookup q = some (.file c1)) :
    env.root.lookup q = some (.file c1) ∨
      (∃ B handler, r.FormFile (str "file") = .ok (B, handler) ∧
        rootedPath q = fileLocation env.wd (r.FormValue (str "alias")) handler.Filename) ∨
      q = env.location (joinPath env.tmp r.tmpName) := by
  unfold routeSubmitPost at h
  by_cases hm : r.Method ≠ str "POST"
  · simp only [if_pos hm, Outcome.returned.injEq] at h
    left; rw [h.2]; exact hq
  · rw [if_neg hm] at h
    rcases hp : ParseMultipartForm env r 1024 with e | env0
    · simp only [hp, Outcome.returned.injEq] at h
      left; rw [h.2]; exact hq
    · have hq0 : ∀ q c1, env0.root.lookup q = some (.file c1) →
          env.root.lookup q = some (.file c1) ∨
            q = env.location (joinPath env.tmp r.tmpName) :=
        parse_file_frame env r env0 hp
      obtain ⟨hw0, _, _, _⟩ := parse_ok_inv env r 1024 env0 hp
      rcases hf : r.FormFile (str "file") with e | ⟨B, handler⟩
      · simp only [hp, hf, Outcome.returned.injEq] at h
        rw [← h.2] at hq
        rcases hq0 q c1 hq with h1 | h1
        · exact Or.inl h1
        · exact Or.inr (Or.inr h1)
      · rcases hg : os_Getwd env0 with e | dir
        · simp only [hp, hf, hg, Outcome.returned.injEq] at h
          rw [← h.2] at hq
          rcases hq0 q c1 hq with h1 | h1
          · exact Or.inl h1
          · exact Or.inr (Or.inr h1)
        · have hdir := os_Getwd_ok env0 dir hg
          subst hdir
          rcases ho : os_OpenFile env0 (fileLocation env0.wd (r.FormValue (str "alias"))
              handler.Filename) with e | ⟨env1, f⟩
          · simp only [hp, hf, hg, ho, Outcome.returned.injEq] at h
            rw [← h.2] at hq
            rcases hq0 q c1 hq with h1 | h1
            · exact Or.inl h1
            · exact Or.inr (Or.inr h1)
          · obtain ⟨L, hLeq, hL⟩ := location_plain dd
              (storedFilename (r.FormValue (str "alias")) handler.Filename)
            have hloc : fileLocation env.wd (r.FormValue (str "alias")) handler.Filename =
                rootedPath L := by
              rw [fileLocation, hw, hLeq]
            have hloc0 : fileLocation env0.wd (r.FormValue (str "alias")) handler.Filename =
                rootedPath L := by
              rw [hw0, hloc]
            obtain ⟨hfl, _, _, _, _, hroot1⟩ := openCreate_ok_inv false env0 _ env1 f ho
            rw [hloc0, elems_rooted_stack env0 L hL] at hfl
            have hq1 : ∀ q c1, env1.root.lookup q = some (.file c1) →
                env.root.lookup q = some (.file c1) ∨
                  rootedPath q =
                    fileLocation env.wd (r.FormValue (str "alias")) handler.Filename ∨
                  q = env.location (joinPath env.tmp r.tmpName) := by
              intro q c1 hq
              rcases hroot1 with ⟨h1, _⟩ | ⟨h1, _⟩
              · rw [h1] at hq
                rcases hq0 q c1 hq with h2 | h2
                · exact Or.inl h2
                · exact Or.inr (Or.inr h2)
              · rw [h1, hfl] at hq
                rcases putFile_file_frame _ _ _ q c1 hq with h2 | h2
                · exact Or.inr (Or.inl (by rw [hloc, h2]))
                · rcases hq0 q c1 h2 with h3 | h3
                  · exact Or.inl h3
                  · exact Or.inr (Or.inr h3)
            have hfin : ∀ q c1, env1.root.lookup q = some (.file c1) ∨ q = L →
                env.root.lookup q = some (.file c1) ∨
                  (∃ B1 handler1, (Except.ok (B, handler) : Except Str (Str × FileHeader)) =
                      .ok (B1, handler1) ∧
                    rootedPath q =
                      fileLocation env.wd (r.FormValue (str "alias")) handler1.Filename) ∨
                  q = env.location (joinPath env.tmp r.tmpName) := by
              intro q c1 hq
              rcases hq with hq | hq
              · rcases hq1 q c1 hq with h2 | h2 | h2
                · exact Or.inl h2
                · exact Or.inr (Or.inl ⟨B, handler, rfl, h2⟩)
                · exact Or.inr (Or.inr h2)
              · exact Or.inr (Or.inl ⟨B, handler, rfl, by rw [hloc, hq]⟩)
            simp only [hp, hf, hg, ho] at h
            rcases hc : io_Copy_file env1 f B with e | env3
            · simp only [hc, Outcome.returned.injEq] at h
              rw [← h.2] at hq
              exact hfin q c1 (Or.inl hq)
            · simp only [hc, Outcome.returned.injEq] at h
              obtain ⟨old, _, h3⟩ := io_Copy_file_ok_inv env1 f B env3 hc
              rw [← h.2, h3] at hq
              simp only [hfl] at hq
              rcases putFile_file_frame _ _ _ q c1 hq with h2 | h2
              · exact hfin q c1 (Or.inr h2)
              · exact hfin q c1 (Or.inl h2)

/-- C3, as the code has it: when the working directory is a rooted path and the
computed filename has no `..` among its `/`-separated elements, the location
`filepath.Join(workingDir, "files", computedFilename)` at which `routeSubmitPost`
creates the file lies within the Storage Directory
`filepath.Join(workingDir, "files")`; and in a file system of directories and
regular files only (no symbolic link, through which a write would go elsewhere),
when the handler has returned, every regular file that was not there before with
the same bytes has its path within the Storage Directory or is the temporary
file that `ParseMultipartForm` writes in `os.TempDir()` for a part that does not
fit in memory. -/
theorem upload_location_confined (env : World) (r : Request) (B : Str) (handler : FileHeader)
    (hroot : env.wd.head? = some sep)
    (hfile : r.FormFile (str "file") = .ok (B, handler))
    (hname : [dot, dot] ∉
      strings_Split sep (storedFilename (r.FormValue (str "alias")) handler.Filename)) :
    isWithin (filepath_Join [env.wd, str "files"])
        (fileLocation env.wd (r.FormValue (str "alias")) handler.Filename) = true ∧
      (env.root.noSpecial →
        ∀ resp env2, routeSubmitPost env r = .returned resp env2 →
          ∀ q c, env2.root.lookup q = some (.file c) →
            env.root.lookup q = some (.file c) ∨
              isWithin (filepath_Join [env.wd, str "files"]) (rootedPath q) = true ∨
              q = env.location (joinPath env.tmp r.tmpName)) := by
  have hin := location_within env.wd (r.FormValue (str "alias")) handler.Filename hroot hname
  refine ⟨hin, ?_⟩
  intro _ resp env2 hret q c hq
  rcases hw : env.wd with _ | ⟨b, dd⟩
  · simp [hw] at hroot
  · have hb : b = sep := by simpa [hw] using hroot
    subst hb
    rcases upload_frame env r resp env2 dd hw hret q c hq with h1 | ⟨B1, handler1, hf1, hloc⟩ | h1
    · left; exact h1
    · right; left
      rw [hfile] at hf1
      simp only [Except.ok.injEq, Prod.mk.injEq] at hf1
      rw [← hf1.2] at hloc
      rw [hloc, ← hw]
      exact hin
    · right; right; exact h1

theorem upload_location_confined_witness :
    isWithin (filepath_Join [sampleWorld.wd, str "files"])
      (fileLocation sampleWorld.wd
        ((uploadRequest (str "./photo") (str "a.b/x.tar.gz") (str "hi")).FormValue (str "alias"))
        (str "a.b/x.tar.gz")) = true :=
  (upload_location_confined sampleWorld
    (uploadRequest (str "./photo") (str "a.b/x.tar.gz") (str "hi")) (str "hi")
    ⟨str "a.b/x.tar.gz"⟩ (by decide) rfl (by decide)).1

/-- C3 as stated fails: with the alias `../evil` and the original filename `a.txt`
the location is `/srv/evil.txt`, outside the Storage Directory `/srv/files`, and
the handler creates the file there.  And an upload of 1025 bytes under the plain
name `big.bin` leaves, when the handler returns, the temporary file
`/tmp/multipart-1`, which was not there before and is outside the Storage
Directory too. -/
theorem upload_location_escapes :
    (fileLocation (str "/srv") (str "../evil") (str "a.txt") = str "/srv/evil.txt" ∧
      isWithin (filepath_Join [str "/srv", str "files"])
        (fileLocation (str "/srv") (str "../evil") (str "a.txt")) = false ∧
      routeSubmitPost sampleWorld (uploadRequest (str "../evil") (str "a.txt") (str "hi")) =
        .returned ⟨200, [], str "done"⟩
          ⟨.sub (str "srv")
            (.file (str "evil.txt") (str "hi")
              (.sub (str "files") (.file (str "a.txt") (str "hello world") .nil) .nil))
            (.sub (str "tmp") .nil .nil),
           str "/srv", none, str "/tmp"⟩) ∧
    (∃ env2,
        routeSubmitPost sampleWorld
            (uploadRequest [] (str "big.bin") (List.replicate 1025 120)) =
          .returned ⟨200, [], str "done"⟩ env2 ∧
        ioutil_ReadFile env2 (str "/tmp/multipart-1") = .ok (List.replicate 1025 120)) ∧
    ioutil_ReadFile sampleWorld (str "/tmp/multipart-1") =
      .error ⟨str "open", str "/tmp/multipart-1", .ENOENT⟩ ∧
    isWithin (filepath_Join [str "/srv", str "files"]) (str "/tmp/multipart-1") = false :=
  ⟨by decide, big_upload_leaves_tmp (List.replicate 1025 120)
    (by rw [List.length_replicate]; decide), by decide, by decide⟩


end GoFile
